import Mathlib

/-
  Verification of the core routines of `src/dns.c` (restartable DNS resolver).

  The C code is shallowly embedded: buffers of `unsigned char` are modelled as
  total functions `Nat → Nat` whose reads are reduced modulo 256, machine
  integers are `Nat` (with explicit masks mirroring the C expressions), and
  loops that the C source does not obviously bound are given an explicit fuel
  parameter, returning `none` when the fuel runs out.  Values and constants
  that live in the missing header `dns.h` (struct layouts, enum values) are
  modelled from the specification and marked as such.
-/

namespace Dns

/-- Read one octet of a buffer modelled as a total function; C buffers hold
`unsigned char` values, so every read is reduced modulo 256. -/
def byte (b : Nat → Nat) (i : Nat) : Nat := b i % 256

/-- Write one cell of a buffer. -/
def bset (b : Nat → Nat) (i v : Nat) : Nat → Nat := fun j => if j = i then v else b j

/-- `memcpy`/`memmove` of `n` octets from `src+sp` to `dst+dp`.  The source
function is captured before any write, which matches `memmove` semantics at
the aliased call sites of the C code. -/
def bcopy (n : Nat) (dst : Nat → Nat) (dp : Nat) (src : Nat → Nat) (sp : Nat) : Nat → Nat :=
  match n with
  | 0 => dst
  | m + 1 => bcopy m (bset dst dp (src sp)) (dp + 1) src (sp + 1)

/-- View a list of octets as a buffer (positions past the end read 0). -/
def ofList (l : List Nat) : Nat → Nat := fun i => l.getD i 0

/-- Read `n` octets starting at `start` (the observable content of a buffer). -/
def readRange (b : Nat → Nat) (start : Nat) : Nat → List Nat
  | 0 => []
  | n + 1 => byte b start :: readRange b (start + 1) n

/-- Big-endian 16-bit read, as the C code's `ntohs` on a stored `uint16_t`. -/
def get16 (b : Nat → Nat) (i : Nat) : Nat := byte b i * 256 + byte b (i + 1)

/-- Big-endian 16-bit store, as the C code's `htons` assignment. -/
def set16 (b : Nat → Nat) (i v : Nat) : Nat → Nat :=
  bset (bset b i (v / 256 % 256)) (i + 1) (v % 256)

/-- ASCII lower-casing of one octet, as used by `strcasecmp`. -/
def lowerB (c : Nat) : Nat := if 65 ≤ c ∧ c ≤ 90 then c + 32 else c

/-- The C-string value of a byte sequence: everything before the first NUL. -/
def cstr (l : List Nat) : List Nat := l.takeWhile (fun c => c ≠ 0)

/-- `0 == strcasecmp a b` on two byte sequences (compared up to the first
NUL, ASCII case-insensitively). -/
def eqCI (a b : List Nat) : Bool := (cstr a).map lowerB == (cstr b).map lowerB

/-! ## Packet model

`struct dns_packet` is declared in the missing header `dns.h`.  Modelled from
the spec: a buffer of capacity `size` and used length `endp` (C field `end`),
whose first 12 octets are the header, plus a 16-entry dictionary of 16-bit
offsets of compressible names.  `dns_p_init` zeroes the header and sets
`end = 12`. -/

structure Packet where
  size : Nat
  endp : Nat
  data : Nat → Nat
  dict : List Nat

/-- Modelled from the spec: `init(buffer, size)` zeroes the header, sets
`end = 12`, records capacity (`size` here is the capacity of `data`). -/
def dns_p_init (size : Nat) : Packet :=
  { size := size, endp := 12, data := fun _ => 0, dict := List.replicate 16 0 }

/-- `dns_p_dictadd`: record offset `dn` in the first free dictionary slot. -/
def dictPut (l : List Nat) (dn : Nat) : List Nat :=
  match l with
  | [] => []
  | x :: xs => if x = 0 then dn :: xs else x :: dictPut xs dn

def dns_p_dictadd (P : Packet) (dn : Nat) : Packet :=
  { P with dict := dictPut P.dict dn }

/-! Section mask values, modelled from the spec (`dns.h` is not in the
sources): QD=0x01, AN=0x02, NS=0x04, AR=0x08, ALL their union; the grep
iterator advances by left-shifting the mask through them. -/

def DNS_S_QD : Nat := 0x01
def DNS_S_AN : Nat := 0x02
def DNS_S_NS : Nat := 0x04
def DNS_S_AR : Nat := 0x08
def DNS_S_ALL : Nat := 0x0f

/-- `dns_p_count`: the header count of a section, or the sum for ALL. -/
def dns_p_count (P : Packet) (sect : Nat) : Nat :=
  if sect = DNS_S_QD then get16 P.data 4
  else if sect = DNS_S_AN then get16 P.data 6
  else if sect = DNS_S_NS then get16 P.data 8
  else if sect = DNS_S_AR then get16 P.data 10
  else if sect = DNS_S_ALL then
    get16 P.data 4 + get16 P.data 6 + get16 P.data 8 + get16 P.data 10
  else 0

/-! ## dns_d_skip -/

/-- Loop body of `dns_d_skip`; the fuel only bounds the recursion and is
chosen large enough at the wrapper (each iteration advances `src`). -/
def dns_d_skip_go (P : Packet) : Nat → Nat → Nat
  | _, 0 => P.endp
  | src, fuel + 1 =>
    if src < P.endp then
      let tag := byte P.data src >>> 6 &&& 0x03
      if tag = 0 then
        let len := byte P.data src &&& 0x3f
        let s := src + 1
        if len = 0 then s
        else if P.endp - s > len then dns_d_skip_go P (s + len) fuel
        else P.endp
      else if tag = 3 then
        if P.endp - src < 2 then P.endp else src + 2
      else P.endp
    else P.endp

/-- `dns_d_skip(src, P)`: walk wire-format labels from `src`, returning the
offset after the terminating zero label or after a pointer; `P->end` on
malformed input.  The fuel `P.endp - src` suffices because every loop
iteration strictly increases `src`. -/
def dns_d_skip (src : Nat) (P : Packet) : Nat :=
  dns_d_skip_go P src (P.endp - src)

/-- Bounds and progress for the `dns_d_skip` loop, by induction on the fuel:
whenever the fuel covers the remaining distance to `P.endp`, the result is at
most `P.endp`, and strictly beyond `src` when `src` is inside the packet. -/
theorem dns_d_skip_go_bounds (P : Packet) :
    ∀ fuel src, P.endp - src ≤ fuel →
      dns_d_skip_go P src fuel ≤ P.endp ∧ (src < P.endp → src < dns_d_skip_go P src fuel) := by
  intro fuel
  induction fuel with
  | zero =>
    intro src h
    constructor
    · simp [dns_d_skip_go]
    · intro hlt; omega
  | succ n ih =>
    intro src h
    by_cases hs : src < P.endp
    · simp only [dns_d_skip_go, if_pos hs]
      by_cases htag : byte P.data src >>> 6 &&& 0x03 = 0
      · simp only [if_pos htag]
        by_cases hlen : byte P.data src &&& 0x3f = 0
        · simp only [if_pos hlen]
          exact ⟨by omega, fun _ => by omega⟩
        · simp only [if_neg hlen]
          by_cases hfit : P.endp - (src + 1) > byte P.data src &&& 0x3f
          · simp only [if_pos hfit]
            have hlen1 : 1 ≤ byte P.data src &&& 0x3f := Nat.one_le_iff_ne_zero.mpr hlen
            have hrec := ih (src + 1 + (byte P.data src &&& 0x3f)) (by omega)
            refine ⟨hrec.1, fun _ => ?_⟩
            have := hrec.2 (by omega)
            omega
          · simp only [if_neg hfit]
            exact ⟨le_refl _, fun _ => hs⟩
      · simp only [if_neg htag]
        by_cases htag3 : byte P.data src >>> 6 &&& 0x03 = 3
        · simp only [if_pos htag3]
          by_cases hshort : P.endp - src < 2
          · simp only [if_pos hshort]
            exact ⟨le_refl _, fun _ => hs⟩
          · simp only [if_neg hshort]
            exact ⟨by omega, fun _ => by omega⟩
        · simp only [if_neg htag3]
          exact ⟨le_refl _, fun _ => hs⟩
    · simp only [dns_d_skip_go, if_neg hs]
      exact ⟨le_refl _, fun hlt => absurd hlt hs⟩

/-- Claim C10: for every packet `P` (arbitrary contents) and every starting
offset `src`, `dns_d_skip` terminates (it is a total function here, with fuel
provably sufficient) and returns `v ≤ P.endp`; if `src < P.endp` then
`v > src`, and if `src ≥ P.endp` then `v = P.endp` — so a caller advancing
through a packet makes strict progress and never leaves `[0, P.endp]`. -/
theorem dns_d_skip_progress (P : Packet) (src : Nat) :
    dns_d_skip src P ≤ P.endp ∧
    (src < P.endp → src < dns_d_skip src P) ∧
    (P.endp ≤ src → dns_d_skip src P = P.endp) := by
  have h := dns_d_skip_go_bounds P (P.endp - src) src (le_refl _)
  refine ⟨h.1, h.2, fun hge => ?_⟩
  have h0 : P.endp - src = 0 := by omega
  simp [dns_d_skip, h0, dns_d_skip_go]

/-- A concrete packet used by several witnesses below: 12-octet header, then
the wire name `3 'w' 'w' 'w' 0` (a label and the root) at offset 12. -/
def skipPkt : Packet :=
  { size := 20, endp := 17,
    data := ofList [0,0,0,0, 0,0,0,0, 0,0,0,0, 3, 119, 119, 119, 0],
    dict := List.replicate 16 0 }

/-- Witness for claim C10's theorem at a concrete input: offset 12 lies inside
`skipPkt`, and `dns_d_skip` lands strictly beyond it without passing `endp`,
while an out-of-range offset maps to `endp`. -/
theorem dns_d_skip_progress_witness :
    dns_d_skip 12 skipPkt ≤ skipPkt.endp ∧ 12 < dns_d_skip 12 skipPkt ∧
    dns_d_skip 40 skipPkt = skipPkt.endp := by
  refine ⟨(dns_d_skip_progress skipPkt 12).1,
          (dns_d_skip_progress skipPkt 12).2.1 (by decide),
          (dns_d_skip_progress skipPkt 40).2.2 (by decide)⟩

/-! ## dns_d_anchor / dns_d_cleave

Text names live in caller buffers; a function argument pair (buffer, length)
models the C `(const void *src, size_t len)`.  Each operation returns the new
destination buffer together with the C return value. -/

/-- `dns_d_anchor(dst, lim, src, len)`: append a trailing '.' if absent.
Mirrors the source: empty input returns 0 immediately (touching nothing);
otherwise the name is copied, a '.' appended when missing and it fits, and a
NUL written at `min(lim-1, len)` when `lim > 0`. -/
def dns_d_anchor (dst : Nat → Nat) (lim : Nat) (src : Nat → Nat) (len : Nat) :
    (Nat → Nat) × Nat :=
  if len = 0 then (dst, 0)
  else
    let d1 := bcopy (min lim len) dst 0 src 0
    let step :=
      if byte src (len - 1) ≠ 46 then
        (if len < lim then bset d1 len 46 else d1, len + 1)
      else (d1, len)
    let d3 := if 0 < lim then bset step.1 (min (lim - 1) step.2) 0 else step.1
    (d3, step.2)

/-- `memchr(b + start, ch, n)`, returning the index of the first hit. -/
def memchrIdx (b : Nat → Nat) (ch : Nat) : Nat → Nat → Option Nat
  | _, 0 => none
  | start, n + 1 =>
    if byte b start = ch then some start else memchrIdx b ch (start + 1) n

/-- `dns_d_cleave(dst, lim, src, len)`: strip the leftmost label (skipping a
leading '.', hence the search from `src+1`), producing the parent domain;
returns 0 when there is none, touching nothing. -/
def dns_d_cleave (dst : Nat → Nat) (lim : Nat) (src : Nat → Nat) (len : Nat) :
    (Nat → Nat) × Nat :=
  if len = 0 then (dst, 0)
  else
    match memchrIdx src 46 1 (len - 1) with
    | none => (dst, 0)
    | some dot =>
      let len1 := len - dot
      let start := if len1 > 1 then dot + 1 else dot
      let len2 := if len1 > 1 then len1 - 1 else len1
      let d1 := bcopy (min lim len2) dst 0 src start
      let d2 := if 0 < lim then bset d1 (min (lim - 1) len2) 0 else d1
      (d2, len2)

/-- If `memchr` finds a hit it lies within the searched range. -/
theorem memchrIdx_range (b : Nat → Nat) (ch : Nat) :
    ∀ n start i, memchrIdx b ch start n = some i → start ≤ i ∧ i < start + n := by
  intro n
  induction n with
  | zero => intro start i h; simp [memchrIdx] at h
  | succ m ih =>
    intro start i h
    simp only [memchrIdx] at h
    by_cases hc : byte b start = ch
    · rw [if_pos hc] at h
      cases h
      omega
    · rw [if_neg hc] at h
      have := ih (start + 1) i h
      omega

/-- Claim C9 counterexample: with `lim = 1 > 0` and a destination holding no
NUL, the return-0 paths of `dns_d_anchor` (empty name) and `dns_d_cleave`
(name without a further label separator) return without writing any NUL into
the first `lim` bytes — the destination is untouched, refuting the claim that
a NUL terminator is always written when `lim > 0`. -/
theorem anchor_cleave_no_nul_counterexample :
    (dns_d_anchor (fun _ => 55) 1 (ofList []) 0).2 = 0 ∧
    (dns_d_anchor (fun _ => 55) 1 (ofList []) 0).1 0 = 55 ∧
    (dns_d_cleave (fun _ => 55) 1 (ofList [104, 111, 115, 116]) 4).2 = 0 ∧
    (dns_d_cleave (fun _ => 55) 1 (ofList [104, 111, 115, 116]) 4).1 0 = 55 :=
  ⟨rfl, rfl, by decide, by decide⟩

/-- Claim C9, amended: for `lim > 0`, `dns_d_anchor` and `dns_d_cleave` write
a NUL terminator within the first `lim` bytes whenever they return nonzero
(i.e. produce output); on the return-0 paths (empty input, or no parent
domain) they return without touching the destination at all. -/
theorem anchor_cleave_nul_termination (dst src : Nat → Nat) (lim len : Nat) (hlim : 0 < lim) :
    ((dns_d_anchor dst lim src len).2 ≠ 0 →
      ∃ i, i < lim ∧ (dns_d_anchor dst lim src len).1 i = 0) ∧
    ((dns_d_anchor dst lim src len).2 = 0 → (dns_d_anchor dst lim src len).1 = dst) ∧
    ((dns_d_cleave dst lim src len).2 ≠ 0 →
      ∃ i, i < lim ∧ (dns_d_cleave dst lim src len).1 i = 0) ∧
    ((dns_d_cleave dst lim src len).2 = 0 → (dns_d_cleave dst lim src len).1 = dst) := by
  refine ⟨?_, ?_, ?_, ?_⟩
  · intro hne
    by_cases h0 : len = 0
    · simp [dns_d_anchor, h0] at hne
    · simp only [dns_d_anchor, if_neg h0, if_pos hlim]
      refine ⟨min (lim - 1) (if byte src (len - 1) ≠ 46 then
        (if len < lim then bset (bcopy (min lim len) dst 0 src 0) len 46
         else bcopy (min lim len) dst 0 src 0, len + 1) else
        (bcopy (min lim len) dst 0 src 0, len)).2, by omega, by simp [bset]⟩
  · intro hz
    by_cases h0 : len = 0
    · simp [dns_d_anchor, h0]
    · exfalso
      simp only [dns_d_anchor, if_neg h0] at hz
      by_cases hdot : byte src (len - 1) ≠ 46 <;>
        first
        | (simp [hdot] at hz; omega)
        | simp [hdot] at hz
  · intro hne
    by_cases h0 : len = 0
    · simp [dns_d_cleave, h0] at hne
    · simp only [dns_d_cleave, if_neg h0]
      cases hfind : memchrIdx src 46 1 (len - 1) with
      | none => simp [dns_d_cleave, if_neg h0, hfind] at hne
      | some dot =>
        simp only
        exact ⟨min (lim - 1) (if len - dot > 1 then len - dot - 1 else len - dot),
          by omega, by simp [if_pos hlim, bset]⟩
  · intro hz
    by_cases h0 : len = 0
    · simp [dns_d_cleave, h0]
    · cases hfind : memchrIdx src 46 1 (len - 1) with
      | none => simp [dns_d_cleave, if_neg h0, hfind]
      | some dot =>
        exfalso
        have hrange := memchrIdx_range src 46 (len - 1) 1 dot hfind
        simp only [dns_d_cleave, if_neg h0, hfind] at hz
        by_cases hgt : len - dot > 1 <;> simp [hgt] at hz <;> omega

/-- Witness for the amended claim C9 theorem: anchoring the two-octet name
"ab" with `lim = 8` produces output, hence a NUL lands within the first 8
bytes of the destination. -/
theorem anchor_cleave_nul_termination_witness :
    ∃ i, i < 8 ∧ (dns_d_anchor (fun _ => 55) 8 (ofList [97, 98]) 2).1 i = 0 :=
  (anchor_cleave_nul_termination (fun _ => 55) (ofList [97, 98]) 8 2 (by decide)).1 (by decide)

/-! ## dns_l_expand / dns_d_expand -/

def DNS_D_MAXPTRS : Nat := 127

def DNS_D_MAXLABEL : Nat := 63

def DNS_D_MAXNAME : Nat := 255

/-- One step of `dns_l_expand`: follow pointers (at most `budget` more hops)
until a label, returning `(len, label-bytes, *nxt)`; `(0, [], end)` doubles as
the `invalid` outcome, exactly as the C function's `return 0` with
`*nxt = end`.  The label value is the C-string content of the destination
buffer: `min (lim-1) len` octets (the C code copies `MIN(lim, len)` octets
and NUL-terminates at `MIN(lim-1, len)`). -/
def dns_l_expand_go (lim : Nat) (data : Nat → Nat) (endp : Nat) :
    Nat → Nat → Nat × List Nat × Nat
  | budget, src =>
    if src ≥ endp then (0, [], endp)
    else
      let tag := byte data src >>> 6 &&& 0x03
      if tag = 0 then
        let len := byte data src &&& 0x3f
        let s := src + 1
        if endp - s < len then (0, [], endp)
        else (len, if 0 < lim then readRange data s (min (lim - 1) len) else [], s + len)
      else if tag = 3 then
        match budget with
        | 0 => (0, [], endp)
        | b + 1 =>
          if endp - src < 2 then (0, [], endp)
          else dns_l_expand_go lim data endp b
                 (((byte data src &&& 0x3f) <<< 8) ||| byte data (src + 1))
      else (0, [], endp)

/-- `dns_l_expand(dst, lim, src, &nxt, data, end)`; `nptrs` starts at 0 and
up to `DNS_D_MAXPTRS` pointer hops are followed. -/
def dns_l_expand (lim : Nat) (src : Nat) (data : Nat → Nat) (endp : Nat) :
    Nat × List Nat × Nat :=
  dns_l_expand_go lim data endp DNS_D_MAXPTRS src

/-- Outcome of `dns_d_expand`: success returns the destination buffer and the
length; `err` is the shared `toolong`/`reserved` epilogue (`*error = -1`,
return 0); `out` means the given fuel was exhausted before the C loop
returned (the loop itself is not obviously bounded). -/
inductive Expanded where
  | ok : (Nat → Nat) → Nat → Expanded
  | err : (Nat → Nat) → Expanded
  | out : Expanded

/-- The shared failure epilogue of `dns_d_expand`: NUL-terminate (when
`lim > 0`) and return 0 with the error flag set. -/
def expandFail (dst : Nat → Nat) (lim dstp : Nat) : Expanded :=
  .err (if 0 < lim then bset dst (min dstp (lim - 1)) 0 else dst)

/-- The loop of `dns_d_expand`, one fuel unit per iteration.  Note the source
resets `nptrs` to 0 after every ordinary label. -/
def dns_d_expand_go (P : Packet) (lim : Nat) :
    Nat → (Nat → Nat) → Nat → Nat → Nat → Expanded
  | 0, _, _, _, _ => .out
  | fuel + 1, dst, src, dstp, nptrs =>
    if src < P.endp then
      let tag := byte P.data src >>> 6 &&& 0x03
      if tag = 0 then
        let len := byte P.data src &&& 0x3f
        if len = 0 then
          let dst1 := if dstp = 0 then (if dstp < lim then bset dst dstp 46 else dst) else dst
          let dstp1 := if dstp = 0 then dstp + 1 else dstp
          .ok (if 0 < lim then bset dst1 (min dstp1 (lim - 1)) 0 else dst1) dstp1
        else
          let s := src + 1
          if P.endp - s < len then expandFail dst lim dstp
          else
            let d1 := if dstp < lim then bcopy (min len (lim - dstp)) dst dstp P.data s else dst
            let d2 := if dstp + len < lim then bset d1 (dstp + len) 46 else d1
            dns_d_expand_go P lim fuel d2 (s + len) (dstp + len + 1) 0
      else if tag = 3 then
        if nptrs + 1 > DNS_D_MAXPTRS then expandFail dst lim dstp
        else if P.endp - src < 2 then expandFail dst lim dstp
        else
          dns_d_expand_go P lim fuel dst
            (((byte P.data src &&& 0x3f) <<< 8) ||| byte P.data (src + 1)) dstp (nptrs + 1)
      else expandFail dst lim dstp
    else expandFail dst lim dstp

/-- `dns_d_expand(dst, lim, src, P, &error)` with explicit fuel. -/
def dns_d_expand (fuel : Nat) (dst : Nat → Nat) (lim src : Nat) (P : Packet) : Expanded :=
  dns_d_expand_go P lim fuel dst src 0 0

/-- Claim C3 failing input: a packet whose wire name at offset 12 is the
label "a" followed by a compression pointer back to offset 12 (octets
`01 'a' C0 0C`), i.e. a pointer loop that passes through an ordinary label. -/
def loopPkt : Packet :=
  { size := 20, endp := 16,
    data := fun i =>
      if i = 12 then 1 else if i = 13 then 97 else
      if i = 14 then 0xc0 else if i = 15 then 0x0c else 0,
    dict := List.replicate 16 0 }

/-- On `loopPkt` the expansion loop cycles between offsets 12 (label, which
resets `nptrs` to 0) and 14 (pointer back to 12), so no amount of fuel makes
it return: the hop budget `DNS_D_MAXPTRS` never trips. -/
theorem loopPkt_expand_go_out :
    ∀ fuel dst dstp nptrs,
      dns_d_expand_go loopPkt 256 fuel dst 12 dstp nptrs = .out ∧
      dns_d_expand_go loopPkt 256 fuel dst 14 dstp 0 = .out := by
  intro fuel
  induction fuel with
  | zero => intro dst dstp nptrs; exact ⟨rfl, rfl⟩
  | succ n ih =>
    intro dst dstp nptrs
    constructor
    · have h2 : dns_d_expand_go loopPkt 256 (n + 1) dst 12 dstp nptrs
          = dns_d_expand_go loopPkt 256 n
              (if dstp + 1 < 256
               then bset (if dstp < 256 then bcopy (min 1 (256 - dstp)) dst dstp loopPkt.data 13 else dst) (dstp + 1) 46
               else (if dstp < 256 then bcopy (min 1 (256 - dstp)) dst dstp loopPkt.data 13 else dst))
              14 (dstp + 1 + 1) 0 := by
        simp [dns_d_expand_go, loopPkt, byte]
      rw [h2]
      exact (ih _ (dstp + 1 + 1) 0).2
    · have e : ((192 &&& 63 : Nat) <<< 8 ||| 12) = 12 := by decide
      have h2 : dns_d_expand_go loopPkt 256 (n + 1) dst 14 dstp 0
          = dns_d_expand_go loopPkt 256 n dst 12 dstp 1 := by
        simp [dns_d_expand_go, loopPkt, byte, DNS_D_MAXPTRS, e]
      rw [h2]
      exact (ih dst dstp 1).1

/-- Claim C3: refuted on the code — `dns_d_expand` does not terminate on
every input.  On `loopPkt` (a self-referential pointer loop passing through
an ordinary label, starting offset 12) the loop never returns, whatever fuel
it is given: the source resets the pointer-hop counter after every ordinary
label, so the `DNS_D_MAXPTRS` budget never trips. -/
theorem dns_d_expand_unbounded (fuel : Nat) (dst : Nat → Nat) :
    dns_d_expand fuel dst 256 12 loopPkt = .out :=
  (loopPkt_expand_go_out fuel dst 0 0).1

/-! ## dns_d_comp

Phase one turns the presentation-form name into length-prefixed wire labels;
phase two scans the emitted labels against every suffix of every name in the
packet's compression dictionary and, on a full match, truncates the output at
the match point with a 16-bit pointer.  The C variables `a.len`/`a.label`
persist across iterations of the dictionary and `b`-suffix loops (only the
`a.y`/`b.y` cursors are reset), which the model reproduces by threading them
through the scan functions. -/

/-- The character loop of `dns_d_comp`: state is
`(dst.b, dst.p, dst.x, src.p, src.x)`; each iteration consumes one source
octet, so fuel `len` suffices. -/
def comp1_go (srcb : Nat → Nat) (len lim : Nat) :
    Nat → (Nat → Nat) → Nat → Nat → Nat → Nat → ((Nat → Nat) × Nat × Nat × Nat × Nat)
  | 0, dstb, dstp, dstx, srcp, srcx => (dstb, dstp, dstx, srcp, srcx)
  | fuel + 1, dstb, dstp, dstx, srcp, srcx =>
    if srcx < len then
      let ch := byte srcb srcx
      if ch = 46 then
        let d1 := if dstp < lim then bset dstb dstp ((srcx - srcp) &&& 0x3f) else dstb
        comp1_go srcb len lim fuel d1 dstx (dstx + 1) (srcx + 1) (srcx + 1)
      else
        let d1 := if dstx < lim then bset dstb dstx ch else dstb
        comp1_go srcb len lim fuel d1 dstp (dstx + 1) srcp (srcx + 1)
    else (dstb, dstp, dstx, srcp, srcx)

/-- Phase one of `dns_d_comp` (label emission with its epilogue): returns the
written buffer and `dst.p` (the uncompressed output length). -/
def comp1 (dst0 : Nat → Nat) (lim : Nat) (srcb : Nat → Nat) (len : Nat) :
    (Nat → Nat) × Nat :=
  let st := comp1_go srcb len lim len dst0 0 1 0 0
  let dstb := st.1
  let dstp := st.2.1
  let dstx := st.2.2.1
  let srcp := st.2.2.2.1
  let srcx := st.2.2.2.2
  let d1 := if srcx > srcp then
      (if dstp < lim then bset dstb dstp ((srcx - srcp) &&& 0x3f) else dstb)
    else dstb
  let p1 := if srcx > srcp then dstx else dstp
  let d2 := if p1 < lim then bset d1 p1 0 else d1
  (d2, p1 + 1)

/-- The label-comparison loop of the scan
(`while (a.len && b.len && 0 == strcasecmp(a.label, b.label))`); returns the
final `(a.len, a.label, a.y, b.len, b.label, b.y)`. -/
def compCmp (dstb : Nat → Nat) (lim : Nat) (P : Packet) :
    Nat → Nat → List Nat → Nat → Nat → List Nat → Nat →
    Option (Nat × List Nat × Nat × Nat × List Nat × Nat)
  | 0, _, _, _, _, _, _ => none
  | fuel + 1, aLen, aLab, aY, bLen, bLab, bY =>
    if aLen ≠ 0 ∧ bLen ≠ 0 ∧ eqCI aLab bLab then
      let ae := dns_l_expand 64 aY dstb lim
      let be := dns_l_expand 64 bY P.data P.endp
      compCmp dstb lim P fuel ae.1 ae.2.1 ae.2.2 be.1 be.2.1 be.2.2
    else some (aLen, aLab, aY, bLen, bLab, bY)

/-- The `b`-suffix loop of the scan: walk every label-start of the dictionary
name at `bP`; `inl` is a match (modified output and returned length `a.p+2`),
`inr` carries the (possibly clobbered) `a.len`/`a.label` to the caller. -/
def compBScan (dstb : Nat → Nat) (lim : Nat) (P : Packet) (aP aX cmpFuel : Nat) :
    Nat → Nat → Nat → List Nat → Option (Sum ((Nat → Nat) × Nat) (Nat × List Nat))
  | 0, _, _, _ => none
  | fuel + 1, bP, aLen, aLab =>
    let bh := dns_l_expand 64 bP P.data P.endp
    if bh.1 = 0 then some (.inr (aLen, aLab))
    else
      match compCmp dstb lim P cmpFuel aLen aLab aX bh.1 bh.2.1 bh.2.2 with
      | none => none
      | some (aLen1, aLab1, _, bLen1, _, _) =>
        if aLen1 = 0 ∧ bLen1 = 0 ∧ bP ≤ 0x3fff then
          some (.inl
            (bset (bset dstb aP (0xc0 ||| ((bP >>> 8) &&& 0x3f))) (aP + 1) (bP &&& 0xff),
             aP + 2))
        else compBScan dstb lim P aP aX cmpFuel fuel bh.2.2 aLen1 aLab1

/-- The dictionary loop of the scan (`for (i = 0; i < 16 && P->dict[i]; i++)`),
carrying the threaded `a.len`/`a.label` state across entries. -/
def compDictScan (dstb : Nat → Nat) (lim : Nat) (P : Packet) (aP aX fuel : Nat) :
    List Nat → Nat → List Nat → Option (Sum ((Nat → Nat) × Nat) (Nat × List Nat))
  | [], aLen, aLab => some (.inr (aLen, aLab))
  | d :: rest, aLen, aLab =>
    if d = 0 then some (.inr (aLen, aLab))
    else
      match compBScan dstb lim P aP aX fuel fuel d aLen aLab with
      | none => none
      | some (.inl r) => some (.inl r)
      | some (.inr s) => compDictScan dstb lim P aP aX fuel rest s.1 s.2

/-- The outer `a`-suffix loop of the scan: `some (some r)` is a match,
`some none` means the scan fell through (no compression). -/
def compAScan (dstb : Nat → Nat) (lim : Nat) (P : Packet) (fuel : Nat) :
    Nat → Nat → Option (Option ((Nat → Nat) × Nat))
  | 0, _ => none
  | fuelA + 1, aP =>
    let ah := dns_l_expand 64 aP dstb lim
    if ah.1 = 0 then some none
    else
      match compDictScan dstb lim P aP ah.2.2 fuel P.dict ah.1 ah.2.1 with
      | none => none
      | some (.inl r) => some (some r)
      | some (.inr _) => compAScan dstb lim P fuel fuelA ah.2.2

/-- `dns_d_comp(dst, lim, src, len, P, &error)`: emit the name, then try to
compress its tail against the dictionary.  Returns the output buffer and the
emitted length (`none` when the scan's fuel runs out; the C scan is not
obviously bounded on arbitrary packet bytes). -/
def dns_d_comp (fuel : Nat) (dst0 : Nat → Nat) (lim : Nat) (srcb : Nat → Nat) (len : Nat)
    (P : Packet) : Option ((Nat → Nat) × Nat) :=
  let ph := comp1 dst0 lim srcb len
  if ph.2 < lim then
    match compAScan ph.1 lim P fuel fuel 0 with
    | none => none
    | some (some r) => some r
    | some none => some ph
  else some ph

/-- `dns_d_push(P, dn, len)`: compress the name into the packet's free space
at `P->end`.  The error value `-2` stands for the C code's uninitialized
`error` on the (unreachable) `len == 0` path; `-1` is the over-long error. -/
def dns_d_push (fuel : Nat) (P : Packet) (dn : Nat → Nat) (len : Nat) : Option (Int × Packet) :=
  let lim := P.size - P.endp
  let dst0 : Nat → Nat := fun i => P.data (P.endp + i)
  match dns_d_comp fuel dst0 lim dn len P with
  | none => none
  | some (dstf, clen) =>
    let P1 : Packet :=
      { P with data := fun i => if P.endp ≤ i ∧ i < P.size then dstf (i - P.endp) else P.data i }
    if clen = 0 then some (-2, P1)
    else if clen > lim then some (-1, P1)
    else some (0, { dns_p_dictadd P1 P.endp with endp := P1.endp + clen })

/-- Observation of an `Expanded` success: the produced text and its length. -/
def expandObs (e : Expanded) : Option (List Nat × Nat) :=
  match e with
  | .ok d n => some (readRange d 0 n, n)
  | _ => none

/-! Concrete compression scenario for claim C4: the packet already holds the
names "x.q" and "b.b" (both entered in the compression dictionary), and the
name "x.b" is then compressed into it. -/

def ce4_name1 : List Nat := [120, 46, 113]
def ce4_name2 : List Nat := [98, 46, 98]
def ce4_name3 : List Nat := [120, 46, 98]

def ce4_P1 : Packet := ((dns_d_push 100 (dns_p_init 512) (ofList ce4_name1) 3).getD (0, dns_p_init 512)).2
def ce4_P2 : Packet := ((dns_d_push 100 ce4_P1 (ofList ce4_name2) 3).getD (0, ce4_P1)).2
def ce4_P3 : Packet := ((dns_d_push 100 ce4_P2 (ofList ce4_name3) 3).getD (0, ce4_P2)).2

/-- Claim C4 counterexample: with the prior names "x.q" and "b.b" in the
compression dictionary, `dns_d_push`-compressing "x.b" succeeds (all three
pushes return 0) yet emits just a pointer to "b.b" — because the scan's
`a.label` state is left over from comparing against "x.q" when the "b.b"
dictionary entry is examined.  Expanding the emitted name yields "b.b.",
which differs from `anchor("x.b") = "x.b."` (not even case-insensitively),
refuting the claim at this concrete input. -/
theorem comp_expand_roundtrip_counterexample :
    (dns_d_push 100 (dns_p_init 512) (ofList ce4_name1) 3).map Prod.fst = some 0 ∧
    (dns_d_push 100 ce4_P1 (ofList ce4_name2) 3).map Prod.fst = some 0 ∧
    (dns_d_push 100 ce4_P2 (ofList ce4_name3) 3).map Prod.fst = some 0 ∧
    ce4_P2.endp = 22 ∧
    expandObs (dns_d_expand 50 (fun _ => 0) 256 22 ce4_P3) = some ([98, 46, 98, 46], 4) ∧
    (dns_d_anchor (fun _ => 0) 256 (ofList ce4_name3) 3).2 = 4 ∧
    readRange (dns_d_anchor (fun _ => 0) 256 (ofList ce4_name3) 3).1 0 4 = [120, 46, 98, 46] ∧
    ([98, 46, 98, 46] : List Nat) ≠ [120, 46, 98, 46] := by
  refine ⟨rfl, rfl, rfl, rfl, rfl, rfl, rfl, by decide⟩

/-! ## Record data (`union dns_any`) and the rdata push routines

Record type and class values, modelled from the spec and the standard DNS
wire format (`dns.h` is not among the sources). -/

def DNS_T_A : Nat := 1
def DNS_T_NS : Nat := 2
def DNS_T_CNAME : Nat := 5
def DNS_T_MX : Nat := 15
def DNS_T_TXT : Nat := 16
def DNS_T_AAAA : Nat := 28
def DNS_T_ALL : Nat := 255
def DNS_C_IN : Nat := 1
def DNS_C_ANY : Nat := 255

/-- `union dns_any`.  The `txt` constructor is the `struct dns_txt rdata`
member, which the C union also uses for unknown (opaque) record types; its
length is the length of the carried list. -/
inductive DnsAny where
  | a (addr : Nat)
  | aaaa (bytes : List Nat)
  | mx (preference : Nat) (host : List Nat)
  | ns (host : List Nat)
  | cname (host : List Nat)
  | txt (bytes : List Nat)

/-- `dns_a_push`: rdlength 4 then the address in network byte order. -/
def dns_a_push (P : Packet) (addr : Nat) : Int × Packet :=
  if P.size - P.endp < 6 then (-1, P)
  else
    let d := bset (bset P.data P.endp 0x00) (P.endp + 1) 0x04
    let d := bset d (P.endp + 2) ((addr >>> 24) &&& 0xff)
    let d := bset d (P.endp + 3) ((addr >>> 16) &&& 0xff)
    let d := bset d (P.endp + 4) ((addr >>> 8) &&& 0xff)
    let d := bset d (P.endp + 5) (addr &&& 0xff)
    (0, { P with data := d, endp := P.endp + 6 })

/-- `dns_aaaa_push`: rdlength 16 then the 16 address octets. -/
def dns_aaaa_push (P : Packet) (bytes : List Nat) : Int × Packet :=
  if P.size - P.endp < 2 + 16 then (-1, P)
  else
    let d := bset (bset P.data P.endp 0x00) (P.endp + 1) 0x10
    let d := bcopy 16 d (P.endp + 2) (ofList bytes) 0
    (0, { P with data := d, endp := P.endp + 18 })

/-- `dns_ns_push`: placeholder rdlength, compressed host name, back-filled
rdlength; on error from the name push the packet's `end` is restored. -/
def dns_ns_push (fuel : Nat) (P : Packet) (host : List Nat) : Option (Int × Packet) :=
  if P.size - P.endp < 3 then some (-1, P)
  else
    let end0 := P.endp
    let P1 := { P with endp := P.endp + 2 }
    match dns_d_push fuel P1 (ofList host) (cstr host).length with
    | none => none
    | some (e, P2) =>
      if e ≠ 0 then some (e, { P2 with endp := end0 })
      else
        let len := P2.endp - end0 - 2
        let d := bset (bset P2.data end0 ((len >>> 8) &&& 0xff)) (end0 + 1) (len &&& 0xff)
        some (0, { P2 with data := d })

/-- `dns_cname_push` delegates to `dns_ns_push`. -/
def dns_cname_push (fuel : Nat) (P : Packet) (host : List Nat) : Option (Int × Packet) :=
  dns_ns_push fuel P host

/-- `dns_mx_push`: placeholder rdlength, 16-bit preference, compressed host
name, back-filled rdlength; `end` restored on error. -/
def dns_mx_push (fuel : Nat) (P : Packet) (preference : Nat) (host : List Nat) :
    Option (Int × Packet) :=
  if P.size - P.endp < 5 then some (-1, P)
  else
    let end0 := P.endp
    let d := bset (bset P.data (P.endp + 2) ((preference >>> 8) &&& 0xff))
                  (P.endp + 3) (preference &&& 0xff)
    let P1 := { P with data := d, endp := P.endp + 4 }
    match dns_d_push fuel P1 (ofList host) (cstr host).length with
    | none => none
    | some (e, P2) =>
      if e ≠ 0 then some (e, { P2 with endp := end0 })
      else
        let len := P2.endp - end0 - 2
        let d2 := bset (bset P2.data end0 ((len >>> 8) &&& 0xff)) (end0 + 1) (len &&& 0xff)
        some (0, { P2 with data := d2 })

/-- The fragmenting loop of `dns_txt_push`.  Each iteration emits a chunk
whose length prefix is `0xff & remaining` — note this is NOT capped at 255:
for `remaining` ≥ 256 the prefix is `remaining % 256` (and 0 when the
remainder is a multiple of 256, after which `src.p` no longer advances).
Each iteration strictly advances `dst.p`, so fuel `dst.end + 1` suffices. -/
def dns_txt_push_go (srcb : Nat → Nat) (srcend dstend : Nat) :
    Nat → (Nat → Nat) → Nat → Nat → Option (Int × (Nat → Nat) × Nat)
  | 0, _, _, _ => none
  | fuel + 1, dstb, dstp, srcp =>
    if srcp < srcend then
      let n := (srcend - srcp) &&& 0xff
      if dstp ≥ dstend then some (-1, dstb, dstp)
      else
        let d1 := bset dstb dstp n
        if dstend - (dstp + 1) < n then some (-1, d1, dstp + 1)
        else
          dns_txt_push_go srcb srcend dstend fuel
            (bcopy n d1 (dstp + 1) srcb srcp) (dstp + 1 + n) (srcp + n)
    else some (0, dstb, dstp)

/-- `dns_txt_push`: 2-octet rdlength `len + 1 + len/256`, then the
fragmenting loop; `P->end` is committed only on success (the data bytes
written before a failure remain, as in the C code). -/
def dns_txt_push (P : Packet) (txtb : Nat → Nat) (txtlen : Nat) : Option (Int × Packet) :=
  if P.size - P.endp < 2 then some (-1, P)
  else
    let n := txtlen + 1 + txtlen / 256
    let d0 := bset (bset P.data P.endp ((n >>> 8) &&& 0xff)) (P.endp + 1) (n &&& 0xff)
    match dns_txt_push_go txtb txtlen P.size (P.size + 1) d0 (P.endp + 2) 0 with
    | none => none
    | some (e, db, dp) =>
      if e = 0 then some (0, { P with data := db, endp := dp })
      else some (e, { P with data := db })

/-- `dns_any_push`: dispatch through the record-type table (A, AAAA, MX, NS,
CNAME, TXT), falling back to opaque rdata for unknown types.  The error value
`-3` marks a union-variant mismatch, where the C code would reinterpret the
union's memory (no theorem below exercises it). -/
def dns_any_push (fuel : Nat) (P : Packet) (any : DnsAny) (type : Nat) :
    Option (Int × Packet) :=
  if type = DNS_T_A then
    match any with
    | .a addr => some (dns_a_push P addr)
    | _ => some (-3, P)
  else if type = DNS_T_AAAA then
    match any with
    | .aaaa bytes => some (dns_aaaa_push P bytes)
    | _ => some (-3, P)
  else if type = DNS_T_MX then
    match any with
    | .mx preference host => dns_mx_push fuel P preference host
    | _ => some (-3, P)
  else if type = DNS_T_NS then
    match any with
    | .ns host => dns_ns_push fuel P host
    | _ => some (-3, P)
  else if type = DNS_T_CNAME then
    match any with
    | .cname host => dns_cname_push fuel P host
    | _ => some (-3, P)
  else if type = DNS_T_TXT then
    match any with
    | .txt bytes => dns_txt_push P (ofList bytes) bytes.length
    | _ => some (-3, P)
  else
    match any with
    | .txt bytes =>
      if P.size - P.endp < bytes.length + 2 then some (-1, P)
      else
        let d := bset (bset P.data P.endp ((bytes.length >>> 8) &&& 0xff))
                      (P.endp + 1) (bytes.length &&& 0xff)
        let d := bcopy bytes.length d (P.endp + 2) (ofList bytes) 0
        some (0, { P with data := d, endp := P.endp + 2 + bytes.length })
    | _ => some (-3, P)

/-- `dns_p_push(P, section, dn, dnlen, type, class, ttl, any)`: compress the
owner name, append type/class, then (for non-question sections) the 31-bit
masked TTL and the rdata, bump the section count; on failure at any step
restore `P->end` and return the first error. -/
def dns_p_push (fuel : Nat) (P : Packet) (sect : Nat) (dn : Nat → Nat) (dnlen : Nat)
    (type cls ttl : Nat) (any : DnsAny) : Option (Int × Packet) :=
  let end0 := P.endp
  match dns_d_push fuel P dn dnlen with
  | none => none
  | some (e, P1) =>
    if e ≠ 0 then some (e, { P1 with endp := end0 })
    else if P1.size - P1.endp < 4 then some (-1, { P1 with endp := end0 })
    else
      let d := bset P1.data P1.endp ((type >>> 8) &&& 0xff)
      let d := bset d (P1.endp + 1) (type &&& 0xff)
      let d := bset d (P1.endp + 2) ((cls >>> 8) &&& 0xff)
      let d := bset d (P1.endp + 3) (cls &&& 0xff)
      let P2 : Packet := { P1 with data := d, endp := P1.endp + 4 }
      if sect = DNS_S_QD then
        some (0, { P2 with data := set16 P2.data 4 ((get16 P2.data 4 + 1) % 65536) })
      else if P2.size - P2.endp < 6 then some (-1, { P2 with endp := end0 })
      else
        let d2 := bset P2.data P2.endp ((ttl >>> 24) &&& 0x7f)
        let d2 := bset d2 (P2.endp + 1) ((ttl >>> 16) &&& 0xff)
        let d2 := bset d2 (P2.endp + 2) ((ttl >>> 8) &&& 0xff)
        let d2 := bset d2 (P2.endp + 3) (ttl &&& 0xff)
        let P3 : Packet := { P2 with data := d2, endp := P2.endp + 4 }
        match dns_any_push fuel P3 any type with
        | none => none
        | some (e2, P4) =>
          if e2 ≠ 0 then some (e2, { P4 with endp := end0 })
          else
            let P5 : Packet :=
              if sect = DNS_S_AN then
                { P4 with data := set16 P4.data 6 ((get16 P4.data 6 + 1) % 65536) }
              else if sect = DNS_S_NS then
                { P4 with data := set16 P4.data 8 ((get16 P4.data 8 + 1) % 65536) }
              else if sect = DNS_S_AR then
                { P4 with data := set16 P4.data 10 ((get16 P4.data 10 + 1) % 65536) }
              else P4
            some (0, P5)

/-- Claim C2 failing input: a 300-octet TXT payload (300 repetitions of 'a')
pushed into a fresh 360-octet packet (free space 348 ≥ 302+2, so the payload
fits). -/
def txt300 : Nat → Nat := fun i => if i < 300 then 97 else 0

set_option maxRecDepth 40000 in
/-- Claim C2: refuted on the code.  The rdlength is written as
`302 = 300 + 1 + 300/256` (octets `01 2E`) as claimed, but the fragmenting
loop computes each chunk length as `0xff & remaining`, so the first chunk is
`300 mod 256 = 44` octets (not 255); the 256 remaining octets then produce
only zero-length chunks, `src.p` stops advancing, the packet's free space
fills up and the push returns -1 instead of 0 (leaving `P->end` at 12). -/
theorem dns_txt_push_300_divergence :
    (dns_txt_push (dns_p_init 360) txt300 300).map (fun r => (r.1, r.2.endp)) =
      some (-1, 12) ∧
    (dns_txt_push (dns_p_init 360) txt300 300).map (fun r => readRange r.2.data 12 3) =
      some [1, 46, 44] ∧
    (44 : Nat) ≠ 255 :=
  ⟨rfl, rfl, by decide⟩

/-! ## Resolver configuration -/

/-- `dns__printchar`. -/
def dns__printchar (dst : Nat → Nat) (lim cp ch : Nat) : (Nat → Nat) × Nat :=
  (if cp < lim then bset dst cp ch else dst, 1)

/-- `dns__printstring(dst, lim, cp, src, len)`: copy (truncated at `lim`) and
return the full logical length. -/
def dns__printstring (dst : Nat → Nat) (lim cp : Nat) (src : Nat → Nat) (len : Nat) :
    (Nat → Nat) × Nat :=
  (if cp < lim then bcopy (min len (lim - cp)) dst cp src 0 else dst, len)

/-- `dns__printnul(dst, lim, off)`. -/
def dns__printnul (dst : Nat → Nat) (lim off : Nat) : Nat → Nat :=
  if 0 < lim then bset dst (min off (lim - 1)) 0 else dst

/-- Address-family constants, from the host platform (modelled with the
usual Linux values; only distinctness matters). -/
def AF_UNSPEC : Nat := 0
def AF_INET : Nat := 2
def AF_INET6 : Nat := 10

/-- A socket address: family, address octets, port (host order). -/
structure SockAddr where
  family : Nat
  addr : List Nat
  port : Nat
deriving DecidableEq

/-- `struct dns_resolv_conf`, modelled from the spec (`dns.h` is missing):
up to 3 nameservers, a 6-entry search array of NUL-free byte strings, the
lookup order tags, options and the local interface. -/
structure ResConf where
  nameserver : List SockAddr
  search : List (List Nat)
  lookup : List Nat
  ndots : Nat
  edns0 : Bool
  recursive : Bool
  iface : SockAddr
deriving DecidableEq

/-- An unset nameserver slot (`AF_UNSPEC`). -/
def unspecSA : SockAddr := { family := AF_UNSPEC, addr := [], port := 0 }

/-- The static initializer of `dns_resconf_open`: `lookup = "bf"` (in a
4-octet array), `ndots = 1`, IPv4 unspecified interface, three empty
nameserver slots.  The hostname-derived implicit search entry comes from a
system call (out of scope); the theorems below instantiate `search`
explicitly. -/
def resconfDefault : ResConf :=
  { nameserver := List.replicate 3 unspecSA,
    search := [[], [], [], [], [], []], lookup := [98, 102, 0, 0],
    ndots := 1, edns0 := false, recursive := false,
    iface := { family := AF_INET, addr := [0, 0, 0, 0], port := 0 } }

/-- Dots in the query name, as counted by the `memchr` loop of phase 0. -/
def countDots (b : Nat → Nat) (n : Nat) : Nat := (readRange b 0 n).count 46

/-- Phase 2 of `dns_resconf_search` (also reached by fall-through): advance
the phase; emit the anchored bare name only when `dots < ndots`. -/
def searchCase2 (dst : Nat → Nat) (lim : Nat) (qname : Nat → Nat) (qlen : Nat)
    (rc : ResConf) (phase srchi ndots : Nat) :
    (Nat → Nat) × Nat × Nat × Nat × Nat :=
  let phase1 := phase + 1
  if ndots < rc.ndots then
    let ar := dns_d_anchor dst lim qname qlen
    (ar.1, ar.2, phase1, srchi, ndots)
  else (dst, 0, phase1, srchi, ndots)

/-- Phase 1 of `dns_resconf_search`: emit `anchor(qname) + search[srchi]`
for the next non-empty search entry, else fall through to phase 2. -/
def searchCase1 (dst : Nat → Nat) (lim : Nat) (qname : Nat → Nat) (qlen : Nat)
    (rc : ResConf) (phase srchi ndots : Nat) :
    (Nat → Nat) × Nat × Nat × Nat × Nat :=
  let entry := rc.search.getD srchi []
  if srchi < 6 ∧ entry.length ≠ 0 then
    let p1 := dns__printstring dst lim 0 qname qlen
    let a1 := dns_d_anchor p1.1 lim p1.1 p1.2
    let p2 := dns__printstring a1.1 lim a1.2 (ofList entry) entry.length
    (p2.1, a1.2 + p2.2, phase, srchi + 1, ndots)
  else searchCase2 dst lim qname qlen rc (phase + 1) srchi ndots

/-- `dns_resconf_search(dst, lim, qname, qlen, resconf, &state)`: the
externalized search-list iterator.  The packed state is
`phase | srchi << 8 | ndots << 16`; the return is `(dst, len, state)`. -/
def dns_resconf_search (dst : Nat → Nat) (lim : Nat) (qname : Nat → Nat) (qlen : Nat)
    (rc : ResConf) (state : Nat) : (Nat → Nat) × Nat × Nat :=
  let srchi0 := (state >>> 8) &&& 0xff
  let ndots0 := (state >>> 16) &&& 0xff
  let phase0 := state &&& 0xff
  let r :=
    if phase0 = 0 then
      let ndots1 := ndots0 + countDots qname qlen
      let phase1 := phase0 + 1
      if ndots1 ≥ rc.ndots then
        let ar := dns_d_anchor dst lim qname qlen
        (ar.1, ar.2, phase1, srchi0, ndots1)
      else searchCase1 dst lim qname qlen rc phase1 srchi0 ndots1
    else if phase0 = 1 then searchCase1 dst lim qname qlen rc phase0 srchi0 ndots0
    else if phase0 = 2 then searchCase2 dst lim qname qlen rc phase0 srchi0 ndots0
    else (dst, 0, phase0, srchi0, ndots0)
  let d2 := dns__printnul r.1 lim r.2.1
  (d2, r.2.1,
   (r.2.2.1 &&& 0xff) ||| ((r.2.2.2.1 &&& 0xff) <<< 8) ||| ((r.2.2.2.2 &&& 0xff) <<< 16))

/-! Concrete search-list iterations for claim C7. -/

def c7_rcA : ResConf :=
  { resconfDefault with search := [[97, 46], [98, 46], [], [], [], []], ndots := 1 }
def c7_rcB : ResConf :=
  { resconfDefault with search := [[97, 46], [], [], [], [], []], ndots := 2 }
def c7_qA : Nat → Nat := ofList [120]
def c7_qB : Nat → Nat := ofList [120, 46, 121, 46, 122]

def c7_sA1 := dns_resconf_search (fun _ => 0) 256 c7_qA 1 c7_rcA 0
def c7_sA2 := dns_resconf_search c7_sA1.1 256 c7_qA 1 c7_rcA c7_sA1.2.2
def c7_sA3 := dns_resconf_search c7_sA2.1 256 c7_qA 1 c7_rcA c7_sA2.2.2
def c7_sA4 := dns_resconf_search c7_sA3.1 256 c7_qA 1 c7_rcA c7_sA3.2.2
def c7_sB1 := dns_resconf_search (fun _ => 0) 256 c7_qB 5 c7_rcB 0
def c7_sB2 := dns_resconf_search c7_sB1.1 256 c7_qB 5 c7_rcB c7_sB1.2.2
def c7_sB3 := dns_resconf_search c7_sB2.1 256 c7_qB 5 c7_rcB c7_sB2.2.2

/-- Claim C7: with `ndots = 1` and search list ["a.", "b."], repeated
`dns_resconf_search` calls on qname "x" from state 0 yield "x.a.", "x.b.",
"x." and then 0; with `ndots = 2`, search ["a."] and qname "x.y.z" they
yield "x.y.z.", "x.y.z.a." and then 0 (no trailing bare candidate). -/
theorem dns_resconf_search_candidates :
    readRange c7_sA1.1 0 c7_sA1.2.1 = [120, 46, 97, 46] ∧ c7_sA1.2.1 = 4 ∧
    readRange c7_sA2.1 0 c7_sA2.2.1 = [120, 46, 98, 46] ∧ c7_sA2.2.1 = 4 ∧
    readRange c7_sA3.1 0 c7_sA3.2.1 = [120, 46] ∧ c7_sA3.2.1 = 2 ∧
    c7_sA4.2.1 = 0 ∧
    readRange c7_sB1.1 0 c7_sB1.2.1 = [120, 46, 121, 46, 122, 46] ∧ c7_sB1.2.1 = 6 ∧
    readRange c7_sB2.1 0 c7_sB2.2.1 = [120, 46, 121, 46, 122, 46, 97, 46] ∧ c7_sB2.2.1 = 8 ∧
    c7_sB3.2.1 = 0 :=
  ⟨rfl, rfl, rfl, rfl, rfl, rfl, rfl, rfl, rfl, rfl, rfl, rfl⟩

/-! ## dns_resconf_keyword and the per-line directive switch

File tokenization is line-oriented I/O (out of scope per the spec, which
treats the loader as "a line-oriented tokenizer whose input is a sequence of
tokens"); `dns_resconf_line` models the body of `dns_resconf_loadfile`'s
do-while for one tokenized line (at most 6 words, lines with fewer than two
words are skipped), threading the loader-local `sa_count`. -/

def wNameserver : List Nat := ['n','a','m','e','s','e','r','v','e','r'].map Char.toNat
def wDomain : List Nat := ['d','o','m','a','i','n'].map Char.toNat
def wSearch : List Nat := ['s','e','a','r','c','h'].map Char.toNat
def wLookup : List Nat := ['l','o','o','k','u','p'].map Char.toNat
def wFile : List Nat := ['f','i','l','e'].map Char.toNat
def wBind : List Nat := ['b','i','n','d'].map Char.toNat
def wOptions : List Nat := ['o','p','t','i','o','n','s'].map Char.toNat
def wEdns0 : List Nat := ['e','d','n','s','0'].map Char.toNat
def wRecursive : List Nat := ['r','e','c','u','r','s','i','v','e'].map Char.toNat
def wInterface : List Nat := ['i','n','t','e','r','f','a','c','e'].map Char.toNat
def wNdots6 : List Nat := ['n','d','o','t','s',':'].map Char.toNat

/-- `dns_resconf_keyword`: scan the keyword table (case-insensitively), then
try the `ndots:` prefix; otherwise return 0 — which is also the value of
`DNS_RESCONF_NAMESERVER`, so an unrecognized first word is treated as a
`nameserver` directive by the caller.  Enum values: NAMESERVER=0, DOMAIN=1,
SEARCH=2, LOOKUP=3, FILE=4, BIND=5, OPTIONS=6, EDNS0=7, NDOTS=8,
RECURSIVE=9, INTERFACE=10 (NDOTS has no table entry). -/
def dns_resconf_keyword (word : List Nat) : Nat :=
  if eqCI word wNameserver then 0
  else if eqCI word wDomain then 1
  else if eqCI word wSearch then 2
  else if eqCI word wLookup then 3
  else if eqCI word wFile then 4
  else if eqCI word wBind then 5
  else if eqCI word wOptions then 6
  else if eqCI word wEdns0 then 7
  else if eqCI word wRecursive then 9
  else if eqCI word wInterface then 10
  else if eqCI (word.take 6) wNdots6 then 8
  else 0

def isDigitB (c : Nat) : Bool := decide (48 ≤ c) && decide (c ≤ 57)

/-- Decimal accumulation, as the C loops `n = n * 10 + (ch - '0')`. -/
def digitsVal (p : List Nat) : Nat := p.foldl (fun acc c => acc * 10 + (c - 48)) 0

/-- Modelled from the spec: the platform primitive `inet_pton(AF_INET, ...)`
(presentation-form IP conversion, out of scope as a system primitive) —
parses a strict dotted quad into four octets. -/
def pton4 (s : List Nat) : Option (List Nat) :=
  let ps := s.splitOn 46
  if ps.length = 4 &&
     ps.all (fun p => !p.isEmpty && p.length ≤ 3 && p.all isDigitB && digitsVal p ≤ 255)
  then some (ps.map digitsVal) else none

/-- Modelled from the spec: the platform primitive `inet_pton(AF_INET6, ...)`.
The IPv6 textual grammar is not needed by any theorem below, so this model
treats every string as unparsable (the failure path of the C caller). -/
def pton6 (_s : List Nat) : Option (List Nat) := none

/-- `dns_resconf_setiface`: family by presence of ':', parse, set port and
family; on parse failure the configuration is returned unchanged. -/
def dns_resconf_setiface (rc : ResConf) (addr : List Nat) (port : Nat) : ResConf :=
  let af := if addr.contains 58 then AF_INET6 else AF_INET
  match (if af = AF_INET6 then pton6 addr else pton4 addr) with
  | none => rc
  | some ab => { rc with iface := { family := af, addr := ab, port := port } }

/-- The anchored copy of a word into a 256-octet search slot. -/
def anchorStr (w : List Nat) : List Nat :=
  let r := dns_d_anchor (fun _ => 0) 256 (ofList w) w.length
  readRange r.1 0 (min r.2 255)

/-- The `lookup` fill loop: `file`/`bind` tokens append 'f'/'b' tags while
slots (4 of them) remain; other tokens are skipped. -/
def lookupFill (l : List Nat) (j : Nat) : List (List Nat) → List Nat
  | [] => l
  | w :: ws =>
    if j < 4 then
      let kw := dns_resconf_keyword w
      if kw = 4 then lookupFill (l.set j 102) (j + 1) ws
      else if kw = 5 then lookupFill (l.set j 98) (j + 1) ws
      else lookupFill l j ws
    else l

/-- One `options` token. -/
def optionsApply (rc : ResConf) (w : List Nat) : ResConf :=
  let kw := dns_resconf_keyword w
  if kw = 7 then { rc with edns0 := true }
  else if kw = 8 then { rc with ndots := digitsVal ((w.drop 6).takeWhile isDigitB) }
  else if kw = 9 then { rc with recursive := true }
  else rc

/-- One tokenized line of `dns_resconf_loadfile` (the switch over the first
word's keyword); returns the updated configuration and `sa_count`. -/
def dns_resconf_line (rc : ResConf) (sa_count : Nat) (words : List (List Nat)) :
    ResConf × Nat :=
  if words.length < 2 then (rc, sa_count)
  else
    let kw := dns_resconf_keyword (words.getD 0 [])
    if kw = 0 then
      if sa_count ≥ 3 then (rc, sa_count)
      else
        let w1 := words.getD 1 []
        let af := if w1.contains 58 then AF_INET6 else AF_INET
        match (if af = AF_INET6 then pton6 w1 else pton4 w1) with
        | none => (rc, sa_count)
        | some ab =>
          ({ rc with nameserver :=
              rc.nameserver.set sa_count { family := af, addr := ab, port := 53 } },
           sa_count + 1)
    else if kw = 1 ∨ kw = 2 then
      let names := (words.drop 1).take 6
      ({ rc with search := names.map anchorStr ++ List.replicate (6 - names.length) [] },
       sa_count)
    else if kw = 3 then
      ({ rc with lookup := lookupFill rc.lookup 0 (words.drop 1) }, sa_count)
    else if kw = 6 then
      ((words.drop 1).foldl optionsApply rc, sa_count)
    else if kw = 10 then
      let port := digitsVal ((words.getD 2 []).takeWhile isDigitB)
      (dns_resconf_setiface rc (words.getD 1 []) port, sa_count)
    else (rc, sa_count)

/-- Claim C8: refuted on the code.  The line `"foo 1.1.1.1"` begins with a
word that is none of the recognized directives, yet processing it changes the
configuration: `dns_resconf_keyword` returns 0 for unknown words, and 0 is
`DNS_RESCONF_NAMESERVER`, so the line is handled as a `nameserver` directive
and appends 1.1.1.1:53 to the nameserver list instead of being ignored. -/
theorem dns_resconf_unknown_word_divergence :
    (dns_resconf_line resconfDefault 0
        [['f','o','o'].map Char.toNat, ['1','.','1','.','1','.','1'].map Char.toNat]).1.nameserver =
      [{ family := AF_INET, addr := [1, 1, 1, 1], port := 53 }, unspecSA, unspecSA] ∧
    (dns_resconf_line resconfDefault 0
        [['f','o','o'].map Char.toNat, ['1','.','1','.','1','.','1'].map Char.toNat]).1 ≠
      resconfDefault := by
  exact ⟨by decide, by decide⟩

/-! ## Hints database -/

structure HintSlot where
  ss : SockAddr
  saved : Nat
  effective : Nat
  ttl : Nat
  nlost : Nat
deriving DecidableEq

def emptySlot : HintSlot :=
  { ss := unspecSA, saved := 0, effective := 0, ttl := 0, nlost := 0 }

/-- `struct dns_hints_soa`: zone name, 16 address slots, count.  The linked
list is modelled as the list `head` of the `Hints` structure. -/
structure HintsSoa where
  zone : List Nat
  addrs : List HintSlot
  count : Nat
deriving DecidableEq

structure Hints where
  head : List HintsSoa
deriving DecidableEq

/-- `dns_hints_open`: an empty database (refcounting is not modelled). -/
def dns_hints_open : Hints := { head := [] }

/-- `dns_hints_fetch`: linear scan of the zone list by `strcasecmp`. -/
def dns_hints_fetch (H : Hints) (zone : List Nat) : Option HintsSoa :=
  H.head.find? (fun soa => eqCI zone soa.zone)

/-- `dns_hints_insert`: on an existing zone, overwrite slot `count % 16` and
bump `count` while under capacity.  When the zone is NOT found, the C code
allocates and fills a new node but then links it with
`soa->next = H->head; H->head = soa->next;` — i.e. the head is assigned its
own old value and the new node is never entered into the list (it leaks);
the function still returns 0.  The model computes the orphan node and drops
it, leaving the database unchanged. -/
def dns_hints_insert (H : Hints) (zone : List Nat) (sa : SockAddr) (priority : Nat) :
    Int × Hints :=
  match H.head.findIdx? (fun soa => eqCI zone soa.zone) with
  | some i =>
    let soa := H.head.getD i { zone := [], addrs := List.replicate 16 emptySlot, count := 0 }
    let j := soa.count % 16
    let slot := { soa.addrs.getD j emptySlot with
      ss := sa,
      saved := max 1 priority,
      effective := max 1 priority }
    let soa1 := { soa with
      addrs := soa.addrs.set j slot,
      count := if soa.count < 16 then soa.count + 1 else soa.count }
    (0, { H with head := H.head.set i soa1 })
  | none =>
    let soa0 : HintsSoa :=
      { zone := (cstr zone).take 256, addrs := List.replicate 16 emptySlot, count := 0 }
    let slot := { emptySlot with ss := sa, saved := max 1 priority, effective := max 1 priority }
    let _orphan := { soa0 with addrs := soa0.addrs.set 0 slot, count := 1 }
    (0, H)

/-- `struct dns_hints_i`: filter zone plus the iterator state
`(priority, p, end)`, zero-initialized by `dns_hints_i_init`. -/
structure HintsI where
  zone : List Nat
  priority : Nat
  p : Nat
  endr : Nat

def dns_hints_i_init (zone : List Nat) : HintsI :=
  { zone := zone, priority := 0, p := 0, endr := 0 }

def UINT_MAX : Nat := 4294967295

/-- The ring scan of `dns_hints_i_ffwd` (`while (i->state.p < i->state.end)`),
returning the hit slot and the advanced `p`. -/
def ffwdScanGo (soa : HintsSoa) (priority endr : Nat) : Nat → Nat → Option (Nat × Nat)
  | 0, _ => none
  | fuel + 1, p =>
    if p < endr then
      let j := p % soa.count
      if (soa.addrs.getD j emptySlot).effective = priority then some (j, p + 1)
      else ffwdScanGo soa priority endr fuel (p + 1)
    else none

def ffwdScan (soa : HintsSoa) (priority p endr : Nat) : Option (Nat × Nat) :=
  ffwdScanGo soa priority endr (endr - p) p

/-- The next-priority scan of `dns_hints_i_ffwd`: fold the C for-loop state
`(priority, max, found)` over the slots, starting from
`(min, UINT_MAX, false)`. -/
def nextPriFold (soa : HintsSoa) (minp : Nat) : Nat × Nat × Bool :=
  (List.range soa.count).foldl
    (fun st j =>
      let pri := (soa.addrs.getD j emptySlot).effective
      if minp ≤ pri ∧ pri ≤ st.2.1 then (pri, pri, true) else st)
    (minp, UINT_MAX, false)

/-- `dns_hints_i_ffwd` with an explicit random stream `rnd` (indexed by draw
counter `ridx`) and fuel for the outer do-while; returns the produced slot
(or `none` = -1), the updated iterator and the next draw index. -/
def dns_hints_i_ffwd_go (rnd : Nat → Nat) (soa : HintsSoa) :
    Nat → Nat → HintsI → Option (Option Nat × HintsI × Nat)
  | 0, _, _ => none
  | fuel + 1, ridx, i =>
    match ffwdScan soa i.priority i.p i.endr with
    | some (j, p1) => some (some j, { i with p := p1 }, ridx)
    | none =>
      let minp := i.priority + 1
      let st := nextPriFold soa minp
      let p1 := rnd ridx &&& 0xff
      let i1 : HintsI := { i with priority := st.1, p := p1, endr := p1 + soa.count }
      if st.2.2 then dns_hints_i_ffwd_go rnd soa fuel (ridx + 1) i1
      else some (none, i1, ridx + 1)

/-- The collection loop of `dns_hints_grep`
(`while (n < lim && -1 != (j = dns_hints_i_ffwd(i, soa)))`). -/
def dns_hints_grep_go (rnd : Nat → Nat) (soa : HintsSoa) (fuel : Nat) :
    Nat → Nat → Nat → HintsI → List SockAddr → Option (Nat × List SockAddr × HintsI)
  | 0, _, _, i, acc => some (acc.length, acc, i)
  | lim + 1, n, ridx, i, acc =>
    match dns_hints_i_ffwd_go rnd soa fuel ridx i with
    | none => none
    | some (none, i1, _) => some (acc.length, acc, i1)
    | some (some j, i1, ridx1) =>
      dns_hints_grep_go rnd soa fuel lim (n + 1) ridx1 i1
        (acc ++ [(soa.addrs.getD j emptySlot).ss])

/-- `dns_hints_grep(sa, sa_len, lim, i, H)`: 0 when the zone is absent, else
up to `lim` addresses in priority order (perturbed by the random stream). -/
def dns_hints_grep (rnd : Nat → Nat) (fuel lim : Nat) (i : HintsI) (H : Hints) :
    Option (Nat × List SockAddr × HintsI) :=
  match dns_hints_fetch H i.zone with
  | none => some (0, [], i)
  | some soa => dns_hints_grep_go rnd soa fuel lim 0 0 i []

/-! Concrete hints scenario for claim C1. -/

def c1_sa1 : SockAddr := { family := AF_INET, addr := [1, 1, 1, 1], port := 53 }
def c1_sa2 : SockAddr := { family := AF_INET, addr := [2, 2, 2, 2], port := 53 }
def c1_sa3 : SockAddr := { family := AF_INET, addr := [3, 3, 3, 3], port := 53 }

def c1_H1 : Hints := (dns_hints_insert dns_hints_open [46] c1_sa1 1).2
def c1_H2 : Hints := (dns_hints_insert c1_H1 [46] c1_sa2 2).2
def c1_H3 : Hints := (dns_hints_insert c1_H2 [46] c1_sa3 3).2

/-- Claim C1: refuted on the code.  On a fresh hints database, three
`dns_hints_insert` calls for zone "." (priorities 1, 2, 3) each return 0,
yet a subsequent `dns_hints_grep` with a fresh iterator yields 0 addresses —
for any random stream, fuel and limit — because the buggy linking
`soa->next = H->head; H->head = soa->next;` never enters the new zone node
into the list, so the zone remains unfindable. -/
theorem hints_insert_unlinked_grep_empty :
    (dns_hints_insert dns_hints_open [46] c1_sa1 1).1 = 0 ∧
    (dns_hints_insert c1_H1 [46] c1_sa2 2).1 = 0 ∧
    (dns_hints_insert c1_H2 [46] c1_sa3 3).1 = 0 ∧
    c1_H3 = dns_hints_open ∧
    (∀ rnd fuel lim,
      dns_hints_grep rnd fuel lim (dns_hints_i_init [46]) c1_H3 =
        some (0, [], dns_hints_i_init [46])) := by
  refine ⟨rfl, rfl, rfl, rfl, fun rnd fuel lim => rfl⟩

/-! ## Claim C6: dns_p_push is all-or-nothing on `end` and the counts -/

theorem bset_ne (d : Nat → Nat) (idx v i : Nat) (h : i ≠ idx) : bset d idx v i = d i := by
  simp [bset, h]

/-- `bcopy` never touches octets below the destination position. -/
theorem bcopy_lt (s : Nat → Nat) :
    ∀ n (d : Nat → Nat) (dp sp i : Nat), i < dp → bcopy n d dp s sp i = d i := by
  intro n
  induction n with
  | zero => intro d dp sp i _; rfl
  | succ m ih =>
    intro d dp sp i h
    simp only [bcopy]
    rw [ih (bset d dp (s sp)) (dp + 1) (sp + 1) i (by omega)]
    exact bset_ne d dp (s sp) i (by omega)

/-- `dns_d_push` leaves the header octets alone (its writes land in the free
window `[P.endp, P.size)`), never lowers `endp`, keeps `size`, and restores
`endp` exactly on error. -/
theorem dns_d_push_header (fuel : Nat) (P : Packet) (dn : Nat → Nat) (len : Nat)
    (e : Int) (P1 : Packet) (hwf : 12 ≤ P.endp)
    (h : dns_d_push fuel P dn len = some (e, P1)) :
    (∀ i, i < 12 → P1.data i = P.data i) ∧ P1.size = P.size ∧ P.endp ≤ P1.endp ∧
      (e ≠ 0 → P1.endp = P.endp) := by
  simp only [dns_d_push] at h
  cases hc : dns_d_comp fuel (fun i => P.data (P.endp + i)) (P.size - P.endp) dn len P with
  | none => rw [hc] at h; simp at h
  | some r =>
    rw [hc] at h
    obtain ⟨dstf, clen⟩ := r
    simp only at h
    by_cases h0 : clen = 0
    · rw [if_pos h0] at h
      simp only [Option.some.injEq, Prod.mk.injEq] at h
      obtain ⟨he, hP⟩ := h
      subst hP
      refine ⟨fun i hi => ?_, rfl, le_refl _, fun _ => rfl⟩
      simp only
      rw [if_neg (by omega)]
    · rw [if_neg h0] at h
      by_cases h1 : clen > P.size - P.endp
      · rw [if_pos h1] at h
        simp only [Option.some.injEq, Prod.mk.injEq] at h
        obtain ⟨he, hP⟩ := h
        subst hP
        refine ⟨fun i hi => ?_, rfl, le_refl _, fun _ => rfl⟩
        simp only
        rw [if_neg (by omega)]
      · rw [if_neg h1] at h
        simp only [Option.some.injEq, Prod.mk.injEq] at h
        obtain ⟨he, hP⟩ := h
        subst hP
        refine ⟨fun i hi => ?_, rfl, by simp [dns_p_dictadd], fun hne => absurd he.symm hne⟩
        simp only [dns_p_dictadd]
        rw [if_neg (by omega)]

theorem dns_a_push_header (P : Packet) (addr : Nat) (hwf : 12 ≤ P.endp) :
    ∀ i, i < 12 → (dns_a_push P addr).2.data i = P.data i := by
  intro i hi
  unfold dns_a_push
  by_cases hs : P.size - P.endp < 6
  · rw [if_pos hs]
  · rw [if_neg hs]
    simp only
    rw [bset_ne _ _ _ _ (by omega), bset_ne _ _ _ _ (by omega), bset_ne _ _ _ _ (by omega),
        bset_ne _ _ _ _ (by omega), bset_ne _ _ _ _ (by omega), bset_ne _ _ _ _ (by omega)]

theorem dns_aaaa_push_header (P : Packet) (bytes : List Nat) (hwf : 12 ≤ P.endp) :
    ∀ i, i < 12 → (dns_aaaa_push P bytes).2.data i = P.data i := by
  intro i hi
  unfold dns_aaaa_push
  by_cases hs : P.size - P.endp < 2 + 16
  · rw [if_pos hs]
  · rw [if_neg hs]
    simp only
    rw [bcopy_lt _ _ _ _ _ _ (by omega), bset_ne _ _ _ _ (by omega),
        bset_ne _ _ _ _ (by omega)]

theorem dns_ns_push_header (fuel : Nat) (P : Packet) (host : List Nat)
    (e : Int) (P4 : Packet) (hwf : 12 ≤ P.endp)
    (h : dns_ns_push fuel P host = some (e, P4)) :
    ∀ i, i < 12 → P4.data i = P.data i := by
  intro i hi
  simp only [dns_ns_push] at h
  by_cases hs : P.size - P.endp < 3
  · rw [if_pos hs] at h
    simp only [Option.some.injEq, Prod.mk.injEq] at h
    rw [← h.2]
  · rw [if_neg hs] at h
    cases hd : dns_d_push fuel { P with endp := P.endp + 2 } (ofList host) (cstr host).length with
    | none => rw [hd] at h; simp at h
    | some r =>
      rw [hd] at h
      obtain ⟨e1, P2⟩ := r
      have hh := dns_d_push_header fuel { P with endp := P.endp + 2 } (ofList host)
        (cstr host).length e1 P2 (by simp; omega) hd
      simp only at h
      by_cases he1 : e1 ≠ 0
      · rw [if_pos he1] at h
        simp only [Option.some.injEq, Prod.mk.injEq] at h
        rw [← h.2]
        exact hh.1 i hi
      · rw [if_neg he1] at h
        simp only [Option.some.injEq, Prod.mk.injEq] at h
        rw [← h.2]
        simp only
        rw [bset_ne _ _ _ _ (by omega), bset_ne _ _ _ _ (by omega)]
        exact hh.1 i hi

theorem dns_mx_push_header (fuel : Nat) (P : Packet) (preference : Nat) (host : List Nat)
    (e : Int) (P4 : Packet) (hwf : 12 ≤ P.endp)
    (h : dns_mx_push fuel P preference host = some (e, P4)) :
    ∀ i, i < 12 → P4.data i = P.data i := by
  intro i hi
  simp only [dns_mx_push] at h
  by_cases hs : P.size - P.endp < 5
  · rw [if_pos hs] at h
    simp only [Option.some.injEq, Prod.mk.injEq] at h
    rw [← h.2]
  · rw [if_neg hs] at h
    cases hd : dns_d_push fuel
        { P with
          data := bset (bset P.data (P.endp + 2) ((preference >>> 8) &&& 0xff))
                    (P.endp + 3) (preference &&& 0xff),
          endp := P.endp + 4 } (ofList host) (cstr host).length with
    | none => rw [hd] at h; simp at h
    | some r =>
      rw [hd] at h
      obtain ⟨e1, P2⟩ := r
      have hh := dns_d_push_header fuel _ (ofList host) (cstr host).length e1 P2
        (by simp; omega) hd
      have hpre : ∀ j, j < 12 →
          bset (bset P.data (P.endp + 2) ((preference >>> 8) &&& 0xff))
            (P.endp + 3) (preference &&& 0xff) j = P.data j := by
        intro j hj
        rw [bset_ne _ _ _ _ (by omega), bset_ne _ _ _ _ (by omega)]
      simp only at h
      by_cases he1 : e1 ≠ 0
      · rw [if_pos he1] at h
        simp only [Option.some.injEq, Prod.mk.injEq] at h
        rw [← h.2]
        rw [hh.1 i hi]
        exact hpre i hi
      · rw [if_neg he1] at h
        simp only [Option.some.injEq, Prod.mk.injEq] at h
        rw [← h.2]
        simp only
        rw [bset_ne _ _ _ _ (by omega), bset_ne _ _ _ _ (by omega)]
        rw [hh.1 i hi]
        exact hpre i hi

/-- The TXT fragmenting loop only writes at or beyond `dstp`. -/
theorem dns_txt_push_go_header (srcb : Nat → Nat) (srcend dstend : Nat) :
    ∀ fuel (dstb : Nat → Nat) (dstp srcp : Nat) (e : Int) (db : Nat → Nat) (dp : Nat),
      dns_txt_push_go srcb srcend dstend fuel dstb dstp srcp = some (e, db, dp) →
      ∀ i, i < dstp → db i = dstb i := by
  intro fuel
  induction fuel with
  | zero => intro dstb dstp srcp e db dp h; simp [dns_txt_push_go] at h
  | succ m ih =>
    intro dstb dstp srcp e db dp h i hi
    simp only [dns_txt_push_go] at h
    by_cases h1 : srcp < srcend
    · rw [if_pos h1] at h
      by_cases h2 : dstp ≥ dstend
      · rw [if_pos h2] at h
        simp only [Option.some.injEq, Prod.mk.injEq] at h
        rw [← h.2.1]
      · rw [if_neg h2] at h
        by_cases h3 : dstend - (dstp + 1) < (srcend - srcp) &&& 0xff
        · rw [if_pos h3] at h
          simp only [Option.some.injEq, Prod.mk.injEq] at h
          rw [← h.2.1]
          exact bset_ne _ _ _ _ (by omega)
        · rw [if_neg h3] at h
          rw [ih _ _ _ _ _ _ h i (by omega)]
          rw [bcopy_lt _ _ _ _ _ _ (by omega)]
          exact bset_ne _ _ _ _ (by omega)
    · rw [if_neg h1] at h
      simp only [Option.some.injEq, Prod.mk.injEq] at h
      rw [← h.2.1]

theorem dns_txt_push_header (P : Packet) (txtb : Nat → Nat) (txtlen : Nat)
    (e : Int) (P4 : Packet) (hwf : 12 ≤ P.endp)
    (h : dns_txt_push P txtb txtlen = some (e, P4)) :
    ∀ i, i < 12 → P4.data i = P.data i := by
  intro i hi
  simp only [dns_txt_push] at h
  by_cases hs : P.size - P.endp < 2
  · rw [if_pos hs] at h
    simp only [Option.some.injEq, Prod.mk.injEq] at h
    rw [← h.2]
  · rw [if_neg hs] at h
    cases hg : dns_txt_push_go txtb txtlen P.size (P.size + 1)
        (bset (bset P.data P.endp (((txtlen + 1 + txtlen / 256) >>> 8) &&& 0xff))
          (P.endp + 1) ((txtlen + 1 + txtlen / 256) &&& 0xff)) (P.endp + 2) 0 with
    | none => rw [hg] at h; simp at h
    | some r =>
      rw [hg] at h
      obtain ⟨e1, db, dp⟩ := r
      have hh := dns_txt_push_go_header txtb txtlen P.size (P.size + 1) _ _ _ e1 db dp hg
      simp only at h
      by_cases he1 : e1 = 0
      · rw [if_pos he1] at h
        simp only [Option.some.injEq, Prod.mk.injEq] at h
        rw [← h.2]
        simp only
        rw [hh i (by omega)]
        rw [bset_ne _ _ _ _ (by omega), bset_ne _ _ _ _ (by omega)]
      · rw [if_neg he1] at h
        simp only [Option.some.injEq, Prod.mk.injEq] at h
        rw [← h.2]
        simp only
        rw [hh i (by omega)]
        rw [bset_ne _ _ _ _ (by omega), bset_ne _ _ _ _ (by omega)]

/-- `dns_any_push` never touches the header octets. -/
theorem dns_any_push_header (fuel : Nat) (P : Packet) (any : DnsAny) (type : Nat)
    (e : Int) (P4 : Packet) (hwf : 12 ≤ P.endp)
    (h : dns_any_push fuel P any type = some (e, P4)) :
    ∀ i, i < 12 → P4.data i = P.data i := by
  intro i hi
  unfold dns_any_push at h
  by_cases hA : type = DNS_T_A
  · rw [if_pos hA] at h
    cases any with
    | a addr =>
      simp only [Option.some.injEq] at h
      have h2 : (dns_a_push P addr).2 = P4 := by rw [h]
      rw [← h2]
      exact dns_a_push_header P addr hwf i hi
    | aaaa b => simp only [Option.some.injEq, Prod.mk.injEq] at h; rw [← h.2]
    | mx p hst => simp only [Option.some.injEq, Prod.mk.injEq] at h; rw [← h.2]
    | ns hst => simp only [Option.some.injEq, Prod.mk.injEq] at h; rw [← h.2]
    | cname hst => simp only [Option.some.injEq, Prod.mk.injEq] at h; rw [← h.2]
    | txt b => simp only [Option.some.injEq, Prod.mk.injEq] at h; rw [← h.2]
  · rw [if_neg hA] at h
    by_cases hB : type = DNS_T_AAAA
    · rw [if_pos hB] at h
      cases any with
      | aaaa b =>
        simp only [Option.some.injEq] at h
        have h2 : (dns_aaaa_push P b).2 = P4 := by rw [h]
        rw [← h2]
        exact dns_aaaa_push_header P b hwf i hi
      | a addr => simp only [Option.some.injEq, Prod.mk.injEq] at h; rw [← h.2]
      | mx p hst => simp only [Option.some.injEq, Prod.mk.injEq] at h; rw [← h.2]
      | ns hst => simp only [Option.some.injEq, Prod.mk.injEq] at h; rw [← h.2]
      | cname hst => simp only [Option.some.injEq, Prod.mk.injEq] at h; rw [← h.2]
      | txt b => simp only [Option.some.injEq, Prod.mk.injEq] at h; rw [← h.2]
    · rw [if_neg hB] at h
      by_cases hC : type = DNS_T_MX
      · rw [if_pos hC] at h
        cases any with
        | mx p hst => exact dns_mx_push_header fuel P p hst e P4 hwf h i hi
        | a addr => simp only [Option.some.injEq, Prod.mk.injEq] at h; rw [← h.2]
        | aaaa b => simp only [Option.some.injEq, Prod.mk.injEq] at h; rw [← h.2]
        | ns hst => simp only [Option.some.injEq, Prod.mk.injEq] at h; rw [← h.2]
        | cname hst => simp only [Option.some.injEq, Prod.mk.injEq] at h; rw [← h.2]
        | txt b => simp only [Option.some.injEq, Prod.mk.injEq] at h; rw [← h.2]
      · rw [if_neg hC] at h
        by_cases hD : type = DNS_T_NS
        · rw [if_pos hD] at h
          cases any with
          | ns hst => exact dns_ns_push_header fuel P hst e P4 hwf h i hi
          | a addr => simp only [Option.some.injEq, Prod.mk.injEq] at h; rw [← h.2]
          | aaaa b => simp only [Option.some.injEq, Prod.mk.injEq] at h; rw [← h.2]
          | mx p hst => simp only [Option.some.injEq, Prod.mk.injEq] at h; rw [← h.2]
          | cname hst => simp only [Option.some.injEq, Prod.mk.injEq] at h; rw [← h.2]
          | txt b => simp only [Option.some.injEq, Prod.mk.injEq] at h; rw [← h.2]
        · rw [if_neg hD] at h
          by_cases hE : type = DNS_T_CNAME
          · rw [if_pos hE] at h
            cases any with
            | cname hst => exact dns_ns_push_header fuel P hst e P4 hwf h i hi
            | a addr => simp only [Option.some.injEq, Prod.mk.injEq] at h; rw [← h.2]
            | aaaa b => simp only [Option.some.injEq, Prod.mk.injEq] at h; rw [← h.2]
            | mx p hst => simp only [Option.some.injEq, Prod.mk.injEq] at h; rw [← h.2]
            | ns hst => simp only [Option.some.injEq, Prod.mk.injEq] at h; rw [← h.2]
            | txt b => simp only [Option.some.injEq, Prod.mk.injEq] at h; rw [← h.2]
          · rw [if_neg hE] at h
            by_cases hF : type = DNS_T_TXT
            · rw [if_pos hF] at h
              cases any with
              | txt b => exact dns_txt_push_header P (ofList b) b.length e P4 hwf h i hi
              | a addr => simp only [Option.some.injEq, Prod.mk.injEq] at h; rw [← h.2]
              | aaaa b => simp only [Option.some.injEq, Prod.mk.injEq] at h; rw [← h.2]
              | mx p hst => simp only [Option.some.injEq, Prod.mk.injEq] at h; rw [← h.2]
              | ns hst => simp only [Option.some.injEq, Prod.mk.injEq] at h; rw [← h.2]
              | cname hst => simp only [Option.some.injEq, Prod.mk.injEq] at h; rw [← h.2]
            · rw [if_neg hF] at h
              cases any with
              | txt b =>
                dsimp only at h
                by_cases hs : P.size - P.endp < b.length + 2
                · rw [if_pos hs] at h
                  simp only [Option.some.injEq, Prod.mk.injEq] at h
                  rw [← h.2]
                · rw [if_neg hs] at h
                  simp only [Option.some.injEq, Prod.mk.injEq] at h
                  rw [← h.2]
                  simp only
                  rw [bcopy_lt _ _ _ _ _ _ (by omega), bset_ne _ _ _ _ (by omega),
                      bset_ne _ _ _ _ (by omega)]
              | a addr => simp only [Option.some.injEq, Prod.mk.injEq] at h; rw [← h.2]
              | aaaa b => simp only [Option.some.injEq, Prod.mk.injEq] at h; rw [← h.2]
              | mx p hst => simp only [Option.some.injEq, Prod.mk.injEq] at h; rw [← h.2]
              | ns hst => simp only [Option.some.injEq, Prod.mk.injEq] at h; rw [← h.2]
              | cname hst => simp only [Option.some.injEq, Prod.mk.injEq] at h; rw [← h.2]

/-- 16-bit header fields agree when the header octets agree. -/
theorem get16_header_eq (d d' : Nat → Nat) (hh : ∀ i, i < 12 → d' i = d i)
    (off : Nat) (hoff : off + 1 < 12) : get16 d' off = get16 d off := by
  simp [get16, byte, hh off (by omega), hh (off + 1) (by omega)]

/-- Claim C6: `dns_p_push` is all-or-nothing with respect to the packet's
used length: for every valid packet (`12 ≤ P.endp`, per the spec's packet
invariant) and every argument tuple, if the push returns a nonzero error then
`P->end` after the call equals `P->end` before it, and all four header
section counts are unchanged. -/
theorem dns_p_push_error_restores (fuel : Nat) (P : Packet) (sect : Nat) (dn : Nat → Nat)
    (dnlen type cls ttl : Nat) (any : DnsAny) (e : Int) (Pr : Packet)
    (hwf : 12 ≤ P.endp)
    (hrun : dns_p_push fuel P sect dn dnlen type cls ttl any = some (e, Pr))
    (herr : e ≠ 0) :
    Pr.endp = P.endp ∧
    get16 Pr.data 4 = get16 P.data 4 ∧ get16 Pr.data 6 = get16 P.data 6 ∧
    get16 Pr.data 8 = get16 P.data 8 ∧ get16 Pr.data 10 = get16 P.data 10 := by
  simp only [dns_p_push] at hrun
  cases hd : dns_d_push fuel P dn dnlen with
  | none => rw [hd] at hrun; simp at hrun
  | some r =>
    rw [hd] at hrun
    obtain ⟨e1, P1⟩ := r
    have hh := dns_d_push_header fuel P dn dnlen e1 P1 hwf hd
    simp only at hrun
    by_cases he1 : e1 = 0
    · rw [if_neg (not_not_intro he1)] at hrun
      by_cases hsp : P1.size - P1.endp < 4
      · rw [if_pos hsp] at hrun
        simp only [Option.some.injEq, Prod.mk.injEq] at hrun
        obtain ⟨he, hP⟩ := hrun
        subst hP
        exact ⟨rfl, get16_header_eq _ _ hh.1 4 (by omega),
               get16_header_eq _ _ hh.1 6 (by omega),
               get16_header_eq _ _ hh.1 8 (by omega),
               get16_header_eq _ _ hh.1 10 (by omega)⟩
      · rw [if_neg hsp] at hrun
        have h12 : 12 ≤ P1.endp := le_trans hwf hh.2.2.1
        by_cases hqd : sect = DNS_S_QD
        · rw [if_pos hqd] at hrun
          simp only [Option.some.injEq, Prod.mk.injEq] at hrun
          exact absurd hrun.1.symm herr
        · rw [if_neg hqd] at hrun
          by_cases hsp2 : P1.size - (P1.endp + 4) < 6
          · rw [if_pos hsp2] at hrun
            simp only [Option.some.injEq, Prod.mk.injEq] at hrun
            obtain ⟨he, hP⟩ := hrun
            subst hP
            have hh2 : ∀ i, i < 12 →
                (bset (bset (bset (bset P1.data P1.endp ((type >>> 8) &&& 0xff))
                  (P1.endp + 1) (type &&& 0xff)) (P1.endp + 2) ((cls >>> 8) &&& 0xff))
                  (P1.endp + 3) (cls &&& 0xff)) i = P.data i := by
              intro i hi
              rw [bset_ne _ _ _ _ (by omega), bset_ne _ _ _ _ (by omega),
                  bset_ne _ _ _ _ (by omega), bset_ne _ _ _ _ (by omega)]
              exact hh.1 i hi
            exact ⟨rfl, get16_header_eq _ _ hh2 4 (by omega),
                   get16_header_eq _ _ hh2 6 (by omega),
                   get16_header_eq _ _ hh2 8 (by omega),
                   get16_header_eq _ _ hh2 10 (by omega)⟩
          · rw [if_neg hsp2] at hrun
            cases ha : dns_any_push fuel
                { size := P1.size, endp := P1.endp + 4 + 4,
                  data := bset (bset (bset (bset
                    (bset (bset (bset (bset P1.data P1.endp ((type >>> 8) &&& 0xff))
                      (P1.endp + 1) (type &&& 0xff)) (P1.endp + 2) ((cls >>> 8) &&& 0xff))
                      (P1.endp + 3) (cls &&& 0xff))
                    (P1.endp + 4) ((ttl >>> 24) &&& 0x7f))
                    (P1.endp + 4 + 1) ((ttl >>> 16) &&& 0xff))
                    (P1.endp + 4 + 2) ((ttl >>> 8) &&& 0xff))
                    (P1.endp + 4 + 3) (ttl &&& 0xff),
                  dict := P1.dict } any type with
            | none => rw [ha] at hrun; simp at hrun
            | some r2 =>
              rw [ha] at hrun
              obtain ⟨e2, P4⟩ := r2
              have hha := dns_any_push_header fuel _ any type e2 P4 (by simp; omega) ha
              have hh3 : ∀ i, i < 12 → P4.data i = P.data i := by
                intro i hi
                rw [hha i hi]
                simp only
                rw [bset_ne _ _ _ _ (by omega), bset_ne _ _ _ _ (by omega),
                    bset_ne _ _ _ _ (by omega), bset_ne _ _ _ _ (by omega),
                    bset_ne _ _ _ _ (by omega), bset_ne _ _ _ _ (by omega),
                    bset_ne _ _ _ _ (by omega), bset_ne _ _ _ _ (by omega)]
                exact hh.1 i hi
              simp only at hrun
              by_cases he2 : e2 = 0
              · rw [if_neg (not_not_intro he2)] at hrun
                simp only [Option.some.injEq, Prod.mk.injEq] at hrun
                exact absurd hrun.1.symm herr
              · rw [if_pos he2] at hrun
                simp only [Option.some.injEq, Prod.mk.injEq] at hrun
                obtain ⟨he, hP⟩ := hrun
                subst hP
                exact ⟨rfl, get16_header_eq _ _ hh3 4 (by omega),
                       get16_header_eq _ _ hh3 6 (by omega),
                       get16_header_eq _ _ hh3 8 (by omega),
                       get16_header_eq _ _ hh3 10 (by omega)⟩
    · rw [if_pos he1] at hrun
      simp only [Option.some.injEq, Prod.mk.injEq] at hrun
      obtain ⟨he, hP⟩ := hrun
      subst hP
      exact ⟨rfl, get16_header_eq _ _ hh.1 4 (by omega),
             get16_header_eq _ _ hh.1 6 (by omega),
             get16_header_eq _ _ hh.1 8 (by omega),
             get16_header_eq _ _ hh.1 10 (by omega)⟩

/-- A push that fails for lack of space: a question for name "x" into a
packet with only one free octet. -/
def c6w_Pr : Packet :=
  ((dns_p_push 10 (dns_p_init 13) DNS_S_QD (ofList [120]) 1 DNS_T_A DNS_C_IN 0
      (DnsAny.a 0)).getD (0, dns_p_init 13)).2

/-- Witness for claim C6's theorem: the concrete failing push above returns
error -1 and leaves `end` and all four section counts unchanged. -/
theorem dns_p_push_error_restores_witness :
    c6w_Pr.endp = (dns_p_init 13).endp ∧
    get16 c6w_Pr.data 4 = get16 (dns_p_init 13).data 4 ∧
    get16 c6w_Pr.data 6 = get16 (dns_p_init 13).data 6 ∧
    get16 c6w_Pr.data 8 = get16 (dns_p_init 13).data 8 ∧
    get16 c6w_Pr.data 10 = get16 (dns_p_init 13).data 10 :=
  dns_p_push_error_restores 10 (dns_p_init 13) DNS_S_QD (ofList [120]) 1 DNS_T_A DNS_C_IN 0
    (DnsAny.a 0) (-1) c6w_Pr (by decide) (by rfl) (by decide)

/-! ## Claim C4 (amended): compression round-trip with an empty dictionary

The plan: characterize phase one of `dns_d_comp` as a pure list function
(`midList` for the loop, `phase1Emit` adding the epilogue), show the scan
finds nothing when the dictionary is empty, then prove that expanding the
emitted label run yields the anchored source name. -/

/-- Reading an in-range octet of a list-backed buffer. -/
theorem ofList_byte (l : List Nat) (i : Nat) (hl : ∀ c ∈ l, c < 256) :
    byte (ofList l) i = l.getD i 0 := by
  unfold byte ofList
  by_cases hi : i < l.length
  · rw [List.getD_eq_getElem l 0 hi]
    exact Nat.mod_eq_of_lt (hl _ (List.getElem_mem hi))
  · rw [List.getD_eq_default l 0 (by omega)]

/-- Octets copied by `bcopy` read back from the source. -/
theorem bcopy_get (s : Nat → Nat) :
    ∀ n (d : Nat → Nat) (dp sp i : Nat), i < n → bcopy n d dp s sp (dp + i) = s (sp + i) := by
  intro n
  induction n with
  | zero => intro d dp sp i h; omega
  | succ m ih =>
    intro d dp sp i h
    simp only [bcopy]
    cases i with
    | zero =>
      rw [bcopy_lt _ _ _ _ _ _ (by omega)]
      simp [bset]
    | succ j =>
      have := ih (bset d dp (s sp)) (dp + 1) (sp + 1) j (by omega)
      have harg : dp + 1 + j = dp + (j + 1) := by omega
      have harg2 : sp + 1 + j = sp + (j + 1) := by omega
      rw [harg, harg2] at this
      exact this

/-- `readRange` recovers a list whose octets a buffer carries. -/
theorem readRange_eq (w : List Nat) :
    ∀ (d : Nat → Nat) (start : Nat),
      (∀ k, k < w.length → byte d (start + k) = w.getD k 0) →
      readRange d start w.length = w := by
  induction w with
  | nil => intro d start _; rfl
  | cons c rest ih =>
    intro d start h
    simp only [List.length_cons, readRange, List.cons.injEq]
    refine ⟨by simpa using h 0 (by simp), ih d (start + 1) ?_⟩
    intro k hk
    have := h (k + 1) (by simp; omega)
    have harg : start + (k + 1) = start + 1 + k := by omega
    rw [harg] at this
    simpa using this

/-- The emission of the `dns_d_comp` character loop, as a pure function of
the remaining source characters and the currently accumulated label:
returns the completed output bytes and the final pending label. -/
def midList : List Nat → List Nat → List Nat × List Nat
  | [], cur => ([], cur)
  | c :: rest, cur =>
    if c = 46 then
      (((cur.length &&& 0x3f) :: cur) ++ (midList rest []).1, (midList rest []).2)
    else midList rest (cur ++ [c])

/-- The full phase-one emission including the epilogue (final length byte
when a label is pending, then the terminal zero). -/
def phase1Emit (src : List Nat) : List Nat :=
  let m := midList src []
  m.1 ++ (if m.2.isEmpty then [0] else ((m.2.length &&& 0x3f) :: m.2) ++ [0])

/-- Every pending character ends up either emitted or still pending. -/
theorem midList_len_ge : ∀ (src cur : List Nat),
    cur.length ≤ (midList src cur).1.length + (midList src cur).2.length := by
  intro src
  induction src with
  | nil => intro cur; simp [midList]
  | cons c rest ih =>
    intro cur
    by_cases hc : c = 46
    · simp only [midList, if_pos hc]
      simp [List.length_append]
      omega
    · simp only [midList, if_neg hc]
      have := ih (cur ++ [c])
      simp at this
      omega

/-- Main characterization of the `dns_d_comp` character loop.  The state
carries the emitted bytes `w` (pending length byte at `w.length`) and the
pending label `cur`; the loop appends `(midList src cur).1` and finishes
with `(midList src cur).2` pending. -/
theorem comp1_go_spec (srcb : Nat → Nat) (len lim : Nat) :
    ∀ (src cur w : List Nat) (fuel : Nat) (dstb : Nat → Nat) (dstp dstx srcp srcx : Nat),
      src.length ≤ fuel →
      dstp = w.length →
      dstx = w.length + 1 + cur.length →
      srcx + src.length = len →
      srcp + cur.length = srcx →
      (∀ j, j < src.length → byte srcb (srcx + j) = src.getD j 0) →
      (∀ k, k < w.length → dstb k = w.getD k 0) →
      (∀ j, j < cur.length → dstb (w.length + 1 + j) = cur.getD j 0) →
      w.length + (midList src cur).1.length + 1 + (midList src cur).2.length ≤ lim →
      ∃ d : Nat → Nat,
        comp1_go srcb len lim fuel dstb dstp dstx srcp srcx
          = (d, w.length + (midList src cur).1.length,
             w.length + (midList src cur).1.length + 1 + (midList src cur).2.length,
             len - (midList src cur).2.length, len) ∧
        (∀ k, k < w.length + (midList src cur).1.length →
          d k = (w ++ (midList src cur).1).getD k 0) ∧
        (∀ j, j < (midList src cur).2.length →
          d (w.length + (midList src cur).1.length + 1 + j) = (midList src cur).2.getD j 0) := by
  intro src
  induction src with
  | nil =>
    intro cur w fuel dstb dstp dstx srcp srcx hfuel hdstp hdstx hsrclen hsrcp hsrc hw hcur hlim
    subst hdstp hdstx
    have hm1 : (midList [] cur).1 = [] := rfl
    have hm2 : (midList [] cur).2 = cur := rfl
    rw [hm1, hm2]
    simp only [List.length_nil, Nat.add_zero] at hsrclen
    subst hsrclen
    have e1 : srcp = srcx - cur.length := by omega
    subst e1
    refine ⟨dstb, ?_, ?_, ?_⟩
    · cases fuel with
      | zero => rfl
      | succ f =>
        have hlt : ¬ srcx < srcx := by omega
        simp only [comp1_go, if_neg hlt]
        rfl
    · intro k hk
      rw [List.append_nil]
      simp only [List.length_nil, Nat.add_zero] at hk
      exact hw k hk
    · intro j hj
      simp only [List.length_nil, Nat.add_zero]
      exact hcur j hj
  | cons c rest ih =>
    intro cur w fuel dstb dstp dstx srcp srcx hfuel hdstp hdstx hsrclen hsrcp hsrc hw hcur hlim
    subst hdstp hdstx
    cases fuel with
    | zero => simp at hfuel
    | succ f =>
      have hsx : srcx < len := by simp only [List.length_cons] at hsrclen; omega
      have hch : byte srcb srcx = c := by simpa using hsrc 0 (by simp)
      simp only [comp1_go, if_pos hsx, hch]
      by_cases hc : c = 46
      · rw [if_pos hc]
        simp only [midList, if_pos hc] at hlim ⊢
        have hgate : w.length < lim := by
          simp only [List.length_append, List.length_cons] at hlim
          omega
        rw [if_pos hgate]
        have hsub : srcx - srcp = cur.length := by omega
        rw [hsub]
        obtain ⟨d, hd, hp1, hp2⟩ := ih [] (w ++ ((cur.length &&& 0x3f) :: cur)) f
          (bset dstb w.length (cur.length &&& 0x3f))
          (w.length + 1 + cur.length) (w.length + 1 + cur.length + 1) (srcx + 1) (srcx + 1)
          (by simp only [List.length_cons] at hfuel; omega)
          (by simp only [List.length_append, List.length_cons, List.length_nil]; omega)
          (by simp only [List.length_append, List.length_cons, List.length_nil]; omega)
          (by simp only [List.length_cons] at hsrclen; omega)
          (by simp)
          (by
            intro j hj
            have := hsrc (j + 1) (by simp; omega)
            have harg : srcx + (j + 1) = srcx + 1 + j := by omega
            rw [harg] at this
            simpa using this)
          (by
            intro k hk
            simp only [List.length_append, List.length_cons] at hk
            by_cases hkw : k < w.length
            · rw [bset_ne _ _ _ _ (by omega), hw k hkw,
                  List.getD_append _ _ _ _ (by omega)]
            · by_cases hkw2 : k = w.length
              · subst hkw2
                simp only [bset, if_pos rfl]
                rw [List.getD_append_right _ _ _ _ (by omega)]
                simp
              · obtain ⟨j2, hj2⟩ : ∃ j2, k = w.length + 1 + j2 :=
                  ⟨k - w.length - 1, by omega⟩
                subst hj2
                rw [bset_ne _ _ _ _ (by omega), hcur j2 (by omega),
                    List.getD_append_right _ _ _ _ (by omega)]
                have hidx : w.length + 1 + j2 - w.length = j2 + 1 := by omega
                rw [hidx, List.getD_cons_succ])
          (by simp)
          (by
            simp only [List.length_append, List.length_cons, List.length_nil] at hlim ⊢
            omega)
        refine ⟨d, ?_, ?_, ?_⟩
        · rw [hd]
          refine Prod.ext rfl (Prod.ext ?_ (Prod.ext ?_ (Prod.ext rfl rfl)))
          · simp only [List.length_append, List.length_cons]
            omega
          · simp only [List.length_append, List.length_cons]
            omega
        · intro k hk
          simp only [List.length_append, List.length_cons] at hk
          have := hp1 k (by
            simp only [List.length_append, List.length_cons]
            omega)
          rw [this, List.append_assoc]
        · intro j hj
          have := hp2 j hj
          rw [← this]
          refine congrArg _ ?_
          simp only [List.length_append, List.length_cons]
          omega
      · rw [if_neg hc]
        simp only [midList, if_neg hc] at hlim ⊢
        have hdx : w.length + 1 + cur.length < lim := by
          have hge := midList_len_ge rest (cur ++ [c])
          simp only [List.length_append, List.length_cons] at hge
          omega
        rw [if_pos hdx]
        obtain ⟨d, hd, hp1, hp2⟩ := ih (cur ++ [c]) w f
          (bset dstb (w.length + 1 + cur.length) c)
          w.length (w.length + 1 + cur.length + 1) srcp (srcx + 1)
          (by simp only [List.length_cons] at hfuel; omega)
          rfl
          (by simp only [List.length_append, List.length_cons, List.length_nil]; omega)
          (by simp only [List.length_cons] at hsrclen; omega)
          (by simp only [List.length_append, List.length_cons, List.length_nil]; omega)
          (by
            intro j hj
            have := hsrc (j + 1) (by simp; omega)
            have harg : srcx + (j + 1) = srcx + 1 + j := by omega
            rw [harg] at this
            simpa using this)
          (by
            intro k hk
            rw [bset_ne _ _ _ _ (by omega)]
            exact hw k hk)
          (by
            intro j hj
            simp only [List.length_append, List.length_cons, List.length_nil] at hj
            by_cases hjc : j < cur.length
            · rw [bset_ne _ _ _ _ (by omega), hcur j hjc,
                  List.getD_append _ _ _ _ (by omega)]
            · have hje : j = cur.length := by omega
              subst hje
              simp only [bset, if_pos rfl]
              rw [List.getD_append_right _ _ _ _ (by omega)]
              simp)
          hlim
        exact ⟨d, hd, hp1, hp2⟩

/-- The pending label never exceeds the consumed input. -/
theorem midList_curf_le : ∀ (src cur : List Nat),
    (midList src cur).2.length ≤ cur.length + src.length := by
  intro src
  induction src with
  | nil => intro cur; simp [midList]
  | cons c rest ih =>
    intro cur
    by_cases hc : c = 46
    · simp only [midList, if_pos hc, List.length_cons]
      have := ih []
      simp at this
      omega
    · simp only [midList, if_neg hc, List.length_cons]
      have := ih (cur ++ [c])
      simp at this
      omega

/-- Phase one of `dns_d_comp` (`comp1`) emits exactly `phase1Emit N` when it
fits below `lim`. -/
theorem comp1_spec (N : List Nat) (dst0 : Nat → Nat) (lim : Nat)
    (hb : ∀ c ∈ N, c < 256)
    (hlim : (phase1Emit N).length ≤ lim) :
    ∃ d, comp1 dst0 lim (ofList N) N.length = (d, (phase1Emit N).length) ∧
      ∀ k, k < (phase1Emit N).length → d k = (phase1Emit N).getD k 0 := by
  have hcurle := midList_curf_le N []
  simp only [List.length_nil, Nat.zero_add] at hcurle
  by_cases hemp : (midList N []).2.isEmpty
  · have hlen : (phase1Emit N).length = (midList N []).1.length + 1 := by
      simp [phase1Emit, hemp]
    obtain ⟨d0, hgo, hp1, _⟩ := comp1_go_spec (ofList N) N.length lim N [] [] N.length dst0
      0 1 0 0 (le_refl _) rfl rfl (by omega) rfl
      (by intro j hj; simpa using ofList_byte N j hb)
      (by intro k hk; simp at hk)
      (by intro j hj; simp at hj)
      (by simp only [List.length_nil, Nat.zero_add]
          have hc0 : (midList N []).2.length = 0 := by
            simpa [List.isEmpty_iff_length_eq_zero] using hemp
          omega)
    simp only [List.length_nil] at hgo hp1
    refine ⟨bset d0 (midList N []).1.length 0, ?_, ?_⟩
    · simp only [comp1, hgo]
      have hc0 : (midList N []).2.length = 0 := by
        simpa [List.isEmpty_iff_length_eq_zero] using hemp
      have hnot : ¬ N.length > N.length - (midList N []).2.length := by omega
      have hplim : (midList N []).1.length < lim := by omega
      simp only [if_neg hnot, Nat.zero_add, if_pos hplim]
      exact Prod.ext rfl (by omega)
    · intro k hk
      rw [hlen] at hk
      by_cases hke : k = (midList N []).1.length
      · subst hke
        simp only [bset, if_pos rfl, phase1Emit, hemp, if_true]
        rw [List.getD_append_right _ _ _ _ (by omega)]
        simp
      · rw [bset_ne _ _ _ _ hke]
        have := hp1 k (by omega)
        simp only [Nat.zero_add, List.nil_append] at this
        rw [this]
        simp only [phase1Emit, hemp, if_true]
        rw [List.getD_append _ _ _ _ (by omega)]
  · have hcpos : 0 < (midList N []).2.length := by
      cases hN : (midList N []).2 with
      | nil => rw [hN] at hemp; simp at hemp
      | cons a l => simp [hN]
    have hlen : (phase1Emit N).length
        = (midList N []).1.length + 1 + (midList N []).2.length + 1 := by
      simp [phase1Emit, hemp, List.length_append]
      omega
    obtain ⟨d0, hgo, hp1, hp2⟩ := comp1_go_spec (ofList N) N.length lim N [] [] N.length dst0
      0 1 0 0 (le_refl _) rfl rfl (by omega) rfl
      (by intro j hj; simpa using ofList_byte N j hb)
      (by intro k hk; simp at hk)
      (by intro j hj; simp at hj)
      (by simp only [List.length_nil, Nat.zero_add]; omega)
    simp only [List.length_nil] at hgo hp1 hp2
    refine ⟨bset (bset d0 (midList N []).1.length ((midList N []).2.length &&& 0x3f))
        ((midList N []).1.length + 1 + (midList N []).2.length) 0, ?_, ?_⟩
    · simp only [comp1, hgo]
      have hgt : N.length > N.length - (midList N []).2.length := by omega
      have hsub : N.length - (N.length - (midList N []).2.length)
          = (midList N []).2.length := by omega
      have hg1 : (midList N []).1.length < lim := by omega
      have hg2 : (midList N []).1.length + 1 + (midList N []).2.length < lim := by omega
      simp only [if_pos hgt, hsub, Nat.zero_add, if_pos hg1, if_pos hg2]
      exact Prod.ext rfl (by omega)
    · intro k hk
      rw [hlen] at hk
      by_cases hk2 : k = (midList N []).1.length + 1 + (midList N []).2.length
      · subst hk2
        simp only [bset, eq_self_iff_true, if_true, phase1Emit, if_neg hemp]
        rw [List.getD_append_right _ _ _ _ (by omega)]
        have hidx : (midList N []).1.length + 1 + (midList N []).2.length
            - (midList N []).1.length = (midList N []).2.length + 1 := by omega
        rw [hidx, List.getD_append_right _ _ _ _ (by simp)]
        simp
      · rw [bset_ne _ _ _ _ hk2]
        by_cases hk1 : k = (midList N []).1.length
        · subst hk1
          simp only [bset, eq_self_iff_true, if_true, phase1Emit, if_neg hemp]
          rw [List.getD_append_right _ _ _ _ (by omega)]
          simp
        · rw [bset_ne _ _ _ _ hk1]
          by_cases hkm : k < (midList N []).1.length
          · have := hp1 k (by omega)
            simp only [Nat.zero_add, List.nil_append] at this
            rw [this]
            simp only [phase1Emit, if_neg hemp]
            rw [List.getD_append _ _ _ _ (by omega)]
          · obtain ⟨j, hj⟩ : ∃ j, k = (midList N []).1.length + 1 + j :=
              ⟨k - (midList N []).1.length - 1, by omega⟩
            subst hj
            have := hp2 j (by omega)
            simp only [Nat.zero_add] at this
            rw [this]
            simp only [phase1Emit, if_neg hemp]
            rw [List.getD_append_right _ _ _ _ (by omega)]
            have hidx : (midList N []).1.length + 1 + j - (midList N []).1.length
                = j + 1 := by omega
            rw [hidx, List.getD_append _ _ _ _ (by simp; omega), List.getD_cons_succ]

/-- Masking with 0x3f is the identity on label lengths (≤ 63). -/
theorem land63_eq (x : Nat) (h : x ≤ 63) : x &&& 63 = x := by
  have h2 : x &&& 63 = x % 64 := Nat.and_pow_two_sub_one_eq_mod x 6
  rw [h2]
  omega

/-- A valid presentation label: 1–63 octets, none a '.' and all octet-sized. -/
def validLabel (l : List Nat) : Prop :=
  1 ≤ l.length ∧ l.length ≤ 63 ∧ ∀ c ∈ l, c < 256 ∧ c ≠ 46

/-- Presentation form of a label sequence, '.'-separated (no trailing dot). -/
def joinDots : List (List Nat) → List Nat
  | [] => []
  | [l] => l
  | l :: l2 :: ls => l ++ 46 :: joinDots (l2 :: ls)

/-- The wire label run for a label sequence, without the terminal zero. -/
def flatMid (ls : List (List Nat)) : List Nat :=
  ls.foldr (fun l acc => (l.length :: l) ++ acc) []

/-- Characters free of '.' pass through `midList` into the pending label. -/
theorem midList_chars : ∀ (l rest cur : List Nat), (∀ c ∈ l, c ≠ 46) →
    midList (l ++ rest) cur = midList rest (cur ++ l) := by
  intro l
  induction l with
  | nil => intro rest cur _; simp
  | cons c l2 ih =>
    intro rest cur hl
    have hc : c ≠ 46 := hl c (by simp)
    simp only [List.cons_append, midList, if_neg hc]
    simpa using ih rest (cur ++ [c]) (fun x hx => hl x (by simp [hx]))

/-- `midList` over a dotted join of valid labels: everything but the last
label is emitted, the last remains pending. -/
theorem midList_joinDots : ∀ (ls : List (List Nat)) (l : List Nat),
    (∀ x ∈ ls, validLabel x) → validLabel l →
    midList (joinDots (l :: ls)) [] = (flatMid (l :: ls).dropLast, (l :: ls).getLast (by simp)) := by
  intro ls
  induction ls with
  | nil =>
    intro l _ hl
    simp only [joinDots]
    rw [show l = l ++ [] from by simp, midList_chars l [] [] (fun c hc => (hl.2.2 c hc).2)]
    simp [midList, flatMid]
  | cons l2 ls2 ih =>
    intro l hls hl
    have hjoin : joinDots (l :: l2 :: ls2) = l ++ 46 :: joinDots (l2 :: ls2) := rfl
    rw [hjoin, midList_chars l (46 :: joinDots (l2 :: ls2)) [] (fun c hc => (hl.2.2 c hc).2)]
    simp only [midList, if_pos rfl, List.nil_append]
    rw [ih l2 (fun x hx => hls x (by simp [hx])) (hls l2 (by simp))]
    have hmask : l.length &&& 0x3f = l.length := land63_eq _ hl.2.1
    simp only [hmask]
    rfl

/-- Splitting the input of `midList` at any point composes the emissions,
threading the pending label through. -/
theorem midList_append : ∀ (A B cur : List Nat),
    midList (A ++ B) cur
      = ((midList A cur).1 ++ (midList B (midList A cur).2).1,
         (midList B (midList A cur).2).2) := by
  intro A
  induction A with
  | nil => intro B cur; simp [midList]
  | cons c A2 ih =>
    intro B cur
    by_cases hc : c = 46
    · simp only [List.cons_append, midList, if_pos hc, List.append_eq]
      rw [ih B []]
      simp [List.append_assoc]
    · simp only [List.cons_append, midList, if_neg hc]
      exact ih B (cur ++ [c])

/-- `flatMid` distributes over list concatenation. -/
theorem flatMid_append : ∀ (A B : List (List Nat)),
    flatMid (A ++ B) = flatMid A ++ flatMid B := by
  intro A B
  induction A with
  | nil => simp [flatMid]
  | cons l A2 ih =>
    simp only [List.cons_append, flatMid, List.foldr_cons] at ih ⊢
    rw [ih, List.append_assoc]

/-- Recombining the dropped last label with `flatMid`. -/
theorem flatMid_dropLast (ls : List (List Nat)) (h : ls ≠ []) :
    flatMid ls.dropLast ++ ((ls.getLast h).length :: ls.getLast h) = flatMid ls := by
  conv_rhs => rw [← List.dropLast_append_getLast h]
  rw [flatMid_append]
  simp [flatMid]

/-- The last label of a nonempty valid sequence is valid. -/
theorem validLabel_getLast (ls : List (List Nat)) (h : ls ≠ [])
    (hv : ∀ x ∈ ls, validLabel x) : validLabel (ls.getLast h) :=
  hv _ (List.getLast_mem h)

/-- Phase-one emission of the bare (unanchored) presentation form: the full
wire label run followed by the terminal zero. -/
theorem phase1Emit_joinDots (l : List Nat) (ls : List (List Nat))
    (hv : ∀ x ∈ l :: ls, validLabel x) :
    phase1Emit (joinDots (l :: ls)) = flatMid (l :: ls) ++ [0] := by
  have hm := midList_joinDots ls l (fun x hx => hv x (by simp [hx])) (hv l (by simp))
  simp only [phase1Emit, hm]
  have hne : (l :: ls) ≠ [] := by simp
  have hlast := validLabel_getLast _ hne hv
  have hemp : ((l :: ls).getLast hne).isEmpty = false := by
    cases hL : (l :: ls).getLast hne with
    | nil => rw [hL] at hlast; simp [validLabel] at hlast
    | cons a t => rfl
  have hmask : ((l :: ls).getLast hne).length &&& 0x3f = ((l :: ls).getLast hne).length :=
    land63_eq _ hlast.2.1
  simp only [hemp, Bool.false_eq_true, if_false, hmask]
  rw [← flatMid_dropLast (l :: ls) hne]
  simp

/-- Phase-one emission of the anchored presentation form (trailing dot):
the same wire label run followed by the terminal zero. -/
theorem phase1Emit_anchored (l : List Nat) (ls : List (List Nat))
    (hv : ∀ x ∈ l :: ls, validLabel x) :
    phase1Emit (joinDots (l :: ls) ++ [46]) = flatMid (l :: ls) ++ [0] := by
  have hm := midList_joinDots ls l (fun x hx => hv x (by simp [hx])) (hv l (by simp))
  have hne : (l :: ls) ≠ [] := by simp
  have hlast := validLabel_getLast _ hne hv
  have hmask : ((l :: ls).getLast hne).length &&& 0x3f = ((l :: ls).getLast hne).length :=
    land63_eq _ hlast.2.1
  simp only [phase1Emit, midList_append, hm]
  simp only [midList, if_pos rfl, List.append_nil, List.isEmpty_nil, if_true, hmask]
  rw [← flatMid_dropLast (l :: ls) hne]

/-- Phase-one emission of the root name ".". -/
theorem phase1Emit_root : phase1Emit [46] = [0, 0] := by rfl

/-- `dns_l_expand` at an ordinary in-bounds label whose length octet is at
most 63: it returns the length, the label octets, and the next offset. -/
theorem dns_l_expand_label (dstb : Nat → Nat) (bound aP llen : Nat)
    (hb : byte dstb aP = llen) (hlen : llen ≤ 63) (hfit : aP + 1 + llen < bound) :
    dns_l_expand 64 aP dstb bound
      = (llen, readRange dstb (aP + 1) (min 63 llen), aP + 1 + llen) := by
  have h1 : ¬ aP ≥ bound := by omega
  have htag : byte dstb aP >>> 6 &&& 0x03 = 0 := by
    rw [hb, Nat.shiftRight_eq_div_pow]
    have hz : llen / 2 ^ 6 = 0 := Nat.div_eq_of_lt (by omega)
    rw [hz]
    rfl
  have hland : byte dstb aP &&& 0x3f = llen := by rw [hb]; exact land63_eq _ hlen
  have hc : ¬ (bound - (aP + 1) < llen) := by omega
  have h64 : 0 < 64 := by omega
  show dns_l_expand_go 64 dstb bound 127 aP = _
  conv_lhs => rw [dns_l_expand_go]
  simp only [if_neg h1, htag, hland, eq_self_iff_true, if_true, if_neg hc, if_pos h64]

/-- `dns_l_expand` at a terminal zero octet. -/
theorem dns_l_expand_zero (dstb : Nat → Nat) (bound aP : Nat)
    (hb : byte dstb aP = 0) (hlt : aP < bound) :
    dns_l_expand 64 aP dstb bound = (0, readRange dstb (aP + 1) 0, aP + 1) := by
  have h1 : ¬ aP ≥ bound := by omega
  have htag : byte dstb aP >>> 6 &&& 0x03 = 0 := by rw [hb]; decide
  have hland : byte dstb aP &&& 0x3f = 0 := by rw [hb]; decide
  have hc : ¬ (bound - (aP + 1) < 0) := by omega
  have h64 : 0 < 64 := by omega
  show dns_l_expand_go 64 dstb bound 127 aP = _
  conv_lhs => rw [dns_l_expand_go]
  simp only [if_neg h1, htag, hland, eq_self_iff_true, if_true, if_neg hc, if_pos h64,
    Nat.min_zero, Nat.add_zero]

/-- Octets of a wire label run are octet-sized. -/
theorem flatMid_lt : ∀ (ls : List (List Nat)), (∀ x ∈ ls, validLabel x) →
    ∀ c ∈ flatMid ls, c < 256 := by
  intro ls
  induction ls with
  | nil => intro _ c hc; simp [flatMid] at hc
  | cons l rest ih =>
    intro hv c hc
    have hsh : flatMid (l :: rest) = (l.length :: l) ++ flatMid rest := rfl
    rw [hsh] at hc
    rcases List.mem_append.mp hc with h | h
    · rcases List.mem_cons.mp h with h2 | h2
      · have := (hv l (by simp)).2.1
        omega
      · exact ((hv l (by simp)).2.2 c h2).1
    · exact ih (fun x hx => hv x (by simp [hx])) c h

/-- With an empty compression dictionary the scan never matches: at every
label start of the emitted wire run the dictionary pass returns at once, and
the walk falls through at the terminal zero. -/
theorem compAScan_nodict (dstb : Nat → Nat) (lim : Nat) (P : Packet)
    (hdict : P.dict = List.replicate 16 0) (cmpFuel : Nat) :
    ∀ (ls : List (List Nat)) (aP fuelA : Nat),
      (∀ x ∈ ls, validLabel x) →
      ls.length + 1 ≤ fuelA →
      aP + (flatMid ls ++ [0]).length ≤ lim →
      (∀ k, k < (flatMid ls ++ [0]).length →
        byte dstb (aP + k) = (flatMid ls ++ [0]).getD k 0) →
      compAScan dstb lim P cmpFuel fuelA aP = some none := by
  intro ls
  induction ls with
  | nil =>
    intro aP fuelA _ hfA hlim hcont
    obtain ⟨fA, rfl⟩ : ∃ fA, fuelA = fA + 1 := ⟨fuelA - 1, by omega⟩
    have hb0 : byte dstb aP = 0 := by
      have := hcont 0 (by simp)
      simpa [flatMid] using this
    have hlt : aP < lim := by
      simp only [flatMid, List.foldr_nil, List.nil_append, List.length_cons,
        List.length_nil] at hlim
      omega
    have hE := dns_l_expand_zero dstb lim aP hb0 hlt
    simp only [compAScan, hE, eq_self_iff_true, if_true]
  | cons l rest ih =>
    intro aP fuelA hv hfA hlim hcont
    obtain ⟨fA, rfl⟩ : ∃ fA, fuelA = fA + 1 := ⟨fuelA - 1, by omega⟩
    have hvl := hv l (by simp)
    have hsh : (flatMid (l :: rest) ++ [0] : List Nat)
        = (l.length :: l) ++ (flatMid rest ++ [0]) := by
      show ((l.length :: l) ++ flatMid rest) ++ [0] = _
      rw [List.append_assoc]
    have hlen : (flatMid (l :: rest) ++ [0]).length
        = l.length + 1 + (flatMid rest ++ [0]).length := by
      rw [hsh]
      simp only [List.length_append, List.length_cons]
      try omega
    have hwre : 1 ≤ (flatMid rest ++ [0]).length := by
      simp only [List.length_append, List.length_cons, List.length_nil]
      omega
    have hb0 : byte dstb aP = l.length := by
      have := hcont 0 (by omega)
      rw [hsh] at this
      simpa using this
    have hE := dns_l_expand_label dstb lim aP l.length hb0 hvl.2.1 (by omega)
    simp only [compAScan, hE]
    have hne : ¬ (l.length = 0) := by have := hvl.1; omega
    rw [if_neg hne]
    have hrep : P.dict = 0 :: List.replicate 15 0 := by rw [hdict]; rfl
    rw [hrep]
    simp only [compDictScan, if_pos rfl]
    apply ih (aP + 1 + l.length) fA (fun x hx => hv x (by simp [hx])) (by
      simp only [List.length_cons] at hfA
      omega) (by omega)
    intro k hk
    have := hcont (1 + l.length + k) (by omega)
    rw [hsh, List.getD_append_right ((l.length :: l)) (flatMid rest ++ [0]) 0
      (1 + l.length + k) (by simp only [List.length_cons]; omega)] at this
    have harg : aP + (1 + l.length + k) = aP + 1 + l.length + k := by omega
    have hidx : 1 + l.length + k - ((l.length :: l) : List Nat).length = k := by
      simp only [List.length_cons]
      omega
    rw [harg, hidx] at this
    exact this

/-- Octets of the wire label run with its terminal zero are octet-sized. -/
theorem flatMid_zero_getD_lt (ls : List (List Nat)) (hv : ∀ x ∈ ls, validLabel x)
    (k : Nat) : (flatMid ls ++ [0]).getD k 0 < 256 := by
  by_cases hk : k < (flatMid ls ++ [0]).length
  · rw [List.getD_eq_getElem _ 0 hk]
    have hmem := List.getElem_mem hk
    rcases List.mem_append.mp hmem with h | h
    · exact flatMid_lt ls hv _ h
    · simp at h
      omega
  · rw [List.getD_eq_default _ 0 (by omega)]
    omega

/-- `dns_d_comp` with an empty dictionary emits exactly the phase-one output:
the scan finds no match, so the name is stored uncompressed. -/
theorem dns_d_comp_nodict (P : Packet) (N : List Nat) (ls : List (List Nat))
    (dst0 : Nat → Nat) (lim fuel : Nat)
    (hdict : P.dict = List.replicate 16 0)
    (hb : ∀ c ∈ N, c < 256)
    (hv : ∀ x ∈ ls, validLabel x)
    (hpre : ∀ k, k < (flatMid ls ++ [0]).length →
      (phase1Emit N).getD k 0 = (flatMid ls ++ [0]).getD k 0)
    (hprelen : (flatMid ls ++ [0]).length ≤ (phase1Emit N).length)
    (hfuel : ls.length + 1 ≤ fuel)
    (hlim : (phase1Emit N).length ≤ lim) :
    ∃ d, dns_d_comp fuel dst0 lim (ofList N) N.length P = some (d, (phase1Emit N).length) ∧
      ∀ k, k < (phase1Emit N).length → d k = (phase1Emit N).getD k 0 := by
  obtain ⟨d, hc1, hcont⟩ := comp1_spec N dst0 lim hb hlim
  refine ⟨d, ?_, hcont⟩
  by_cases hL : (phase1Emit N).length < lim
  · have hscan : compAScan d lim P fuel fuel 0 = some none := by
      apply compAScan_nodict d lim P hdict fuel ls 0 fuel hv hfuel (by omega)
      intro k hk
      have hdk : d k = (phase1Emit N).getD k 0 := hcont k (by omega)
      have hbyte : byte d k = d k % 256 := rfl
      rw [show (0 + k : Nat) = k from by omega, hbyte, hdk, hpre k hk]
      exact Nat.mod_eq_of_lt (flatMid_zero_getD_lt ls hv k)
    simp only [dns_d_comp, hc1, if_pos hL, hscan]
  · simp only [dns_d_comp, hc1, if_neg hL]

/-- `dns_d_push` into a packet with free space and an empty dictionary:
it succeeds, advances `P->end` by the emitted wire length, records the name's
offset in the dictionary, and the emitted octets follow `phase1Emit`. -/
theorem dns_d_push_nodict (P : Packet) (N : List Nat) (ls : List (List Nat)) (fuel : Nat)
    (hdict : P.dict = List.replicate 16 0)
    (hb : ∀ c ∈ N, c < 256)
    (hv : ∀ x ∈ ls, validLabel x)
    (hpre : ∀ k, k < (flatMid ls ++ [0]).length →
      (phase1Emit N).getD k 0 = (flatMid ls ++ [0]).getD k 0)
    (hprelen : (flatMid ls ++ [0]).length ≤ (phase1Emit N).length)
    (hfuel : ls.length + 1 ≤ fuel)
    (hlim : (phase1Emit N).length ≤ P.size - P.endp) :
    ∃ P', dns_d_push fuel P (ofList N) N.length = some (0, P') ∧
      P'.size = P.size ∧
      P'.endp = P.endp + (phase1Emit N).length ∧
      (∀ k, k < (phase1Emit N).length →
        P'.data (P.endp + k) = (phase1Emit N).getD k 0) ∧
      (∀ i, i < P.endp → P'.data i = P.data i) := by
  obtain ⟨d, hcomp, hcont⟩ := dns_d_comp_nodict P N ls
    (fun i => P.data (P.endp + i)) (P.size - P.endp) fuel hdict hb hv hpre hprelen hfuel hlim
  have hlen1 : 1 ≤ (phase1Emit N).length := by
    have h1 : 1 ≤ (flatMid ls ++ [0]).length := by
      simp only [List.length_append, List.length_cons, List.length_nil]
      omega
    omega
  have hstep : dns_d_push fuel P (ofList N) N.length
      = some (0, { dns_p_dictadd
          { P with
            data := fun i => if P.endp ≤ i ∧ i < P.size then d (i - P.endp) else P.data i }
          P.endp with
          endp := P.endp + (phase1Emit N).length }) := by
    simp only [dns_d_push, hcomp]
    rw [if_neg (by omega), if_neg (by omega)]
  refine ⟨_, hstep, rfl, rfl, ?_, ?_⟩
  · intro k hk
    show (if P.endp ≤ P.endp + k ∧ P.endp + k < P.size then d (P.endp + k - P.endp)
      else P.data (P.endp + k)) = _
    rw [if_pos ⟨by omega, by omega⟩]
    have harg : P.endp + k - P.endp = k := by omega
    rw [harg]
    exact hcont k hk
  · intro i hi
    show (if P.endp ≤ i ∧ i < P.size then d (i - P.endp) else P.data i) = P.data i
    rw [if_neg (by omega)]

/-- The expanded presentation text of a label sequence: every label followed
by a dot (so the anchored, trailing-dot form). -/
def textOf (ls : List (List Nat)) : List Nat :=
  ls.foldr (fun l acc => l ++ 46 :: acc) []

/-- The anchored text is the bare dotted join plus a trailing dot. -/
theorem textOf_joinDots : ∀ (l : List Nat) (ls : List (List Nat)),
    textOf (l :: ls) = joinDots (l :: ls) ++ [46] := by
  intro l ls
  induction ls generalizing l with
  | nil => simp [textOf, joinDots]
  | cons l2 rest ih =>
    show l ++ 46 :: textOf (l2 :: rest) = (l ++ 46 :: joinDots (l2 :: rest)) ++ [46]
    rw [ih l2]
    simp

/-- Anchored text and wire label run have the same length. -/
theorem textOf_length : ∀ (ls : List (List Nat)),
    (textOf ls).length = (flatMid ls).length := by
  intro ls
  induction ls with
  | nil => rfl
  | cons l rest ih =>
    show (l ++ 46 :: textOf rest).length = ((l.length :: l) ++ flatMid rest).length
    simp only [List.length_append, List.length_cons, ih]
    omega

/-- Running the expansion loop over a wire label run of valid labels: the
run is rewritten as dotted text after the already-produced prefix, ending
right after the final dot. -/
theorem expand_go_wire (P' : Packet) :
    ∀ (ls : List (List Nat)) (base fuel : Nat) (dst : Nat → Nat) (dstp nptrs : Nat),
      (∀ x ∈ ls, validLabel x) →
      ls.length + 1 ≤ fuel →
      base + (flatMid ls ++ [0]).length ≤ P'.endp →
      (∀ k, k < (flatMid ls ++ [0]).length →
        byte P'.data (base + k) = (flatMid ls ++ [0]).getD k 0) →
      dstp + (textOf ls).length < 256 →
      (ls = [] → 0 < dstp) →
      ∃ dst2,
        dns_d_expand_go P' 256 fuel dst base dstp nptrs
          = .ok dst2 (dstp + (textOf ls).length) ∧
        (∀ i, i < dstp → dst2 i = dst i) ∧
        (∀ j, j < (textOf ls).length → byte dst2 (dstp + j) = (textOf ls).getD j 0) := by
  intro ls
  induction ls with
  | nil =>
    intro base fuel dst dstp nptrs _ hf hbound hcont hroom hdz
    obtain ⟨f, rfl⟩ : ∃ f, fuel = f + 1 := ⟨fuel - 1, by omega⟩
    have hb0 : byte P'.data base = 0 := by
      have := hcont 0 (by simp)
      simpa [flatMid] using this
    have hsrc : base < P'.endp := by
      simp only [flatMid, List.foldr_nil, List.nil_append, List.length_cons,
        List.length_nil] at hbound
      omega
    have hdp : ¬ (dstp = 0) := by have := hdz rfl; omega
    have htlen : (textOf ([] : List (List Nat))).length = 0 := rfl
    have hmin : min dstp (256 - 1) = dstp := by omega
    refine ⟨bset dst dstp 0, ?_, ?_, ?_⟩
    · simp only [dns_d_expand_go, if_pos hsrc, hb0]
      norm_num [hmin, hdp, textOf]
    · intro i hi
      exact bset_ne _ _ _ _ (by omega)
    · intro j hj
      simp [textOf] at hj
  | cons l rest ih =>
    intro base fuel dst dstp nptrs hv hf hbound hcont hroom hdz
    obtain ⟨f, rfl⟩ : ∃ f, fuel = f + 1 := ⟨fuel - 1, by omega⟩
    have hvl := hv l (by simp)
    have hsh : (flatMid (l :: rest) ++ [0] : List Nat)
        = (l.length :: l) ++ (flatMid rest ++ [0]) := by
      show ((l.length :: l) ++ flatMid rest) ++ [0] = _
      rw [List.append_assoc]
    have hlen : (flatMid (l :: rest) ++ [0]).length
        = l.length + 1 + (flatMid rest ++ [0]).length := by
      rw [hsh]
      simp only [List.length_append, List.length_cons]
      try omega
    have hwre : 1 ≤ (flatMid rest ++ [0]).length := by
      simp only [List.length_append, List.length_cons, List.length_nil]
      omega
    have htsh : textOf (l :: rest) = l ++ 46 :: textOf rest := rfl
    have htlen : (textOf (l :: rest)).length = l.length + 1 + (textOf rest).length := by
      rw [htsh]
      simp only [List.length_append, List.length_cons]
      try omega
    have hb0 : byte P'.data base = l.length := by
      have := hcont 0 (by omega)
      rw [hsh] at this
      simpa using this
    have hsrc : base < P'.endp := by omega
    have htag : byte P'.data base >>> 6 &&& 0x03 = 0 := by
      rw [hb0, Nat.shiftRight_eq_div_pow]
      have hz : l.length / 2 ^ 6 = 0 := Nat.div_eq_of_lt (by have := hvl.2.1; omega)
      rw [hz]
      rfl
    have hland : byte P'.data base &&& 0x3f = l.length := by
      rw [hb0]; exact land63_eq _ hvl.2.1
    have hne : ¬ (l.length = 0) := by have := hvl.1; omega
    have hfit : ¬ (P'.endp - (base + 1) < l.length) := by omega
    have hdlt : dstp < 256 := by omega
    have hmin : min l.length (256 - dstp) = l.length := by omega
    have hdot : dstp + l.length < 256 := by omega
    obtain ⟨dst2, hgo, hpre, htext⟩ := ih (base + 1 + l.length) f
      (bset (bcopy l.length dst dstp P'.data (base + 1)) (dstp + l.length) 46)
      (dstp + l.length + 1) 0
      (fun x hx => hv x (by simp [hx]))
      (by simp only [List.length_cons] at hf; omega)
      (by omega)
      (by intro k hk
          have := hcont (1 + l.length + k) (by omega)
          rw [hsh, List.getD_append_right ((l.length :: l)) (flatMid rest ++ [0]) 0
            (1 + l.length + k) (by simp only [List.length_cons]; omega)] at this
          have harg : base + (1 + l.length + k) = base + 1 + l.length + k := by omega
          have hidx : 1 + l.length + k - ((l.length :: l) : List Nat).length = k := by
            simp only [List.length_cons]
            omega
          rw [harg, hidx] at this
          exact this)
      (by omega)
      (by intro _; omega)
    refine ⟨dst2, ?_, ?_, ?_⟩
    · simp only [dns_d_expand_go, if_pos hsrc, htag, hland, eq_self_iff_true, if_true,
        if_neg hne, if_neg hfit, if_pos hdlt, if_pos hdot, hmin]
      rw [hgo, htlen]
      have harith : dstp + (l.length + 1 + (textOf rest).length)
          = dstp + l.length + 1 + (textOf rest).length := by omega
      rw [harith]
    · intro i hi
      rw [hpre i (by omega), bset_ne _ _ _ _ (by omega), bcopy_lt _ _ _ _ _ _ (by omega)]
    · intro j hj
      rw [htlen] at hj
      rw [htsh]
      by_cases hj1 : j < l.length
      · have hd2 : dst2 (dstp + j) = bset (bcopy l.length dst dstp P'.data (base + 1))
            (dstp + l.length) 46 (dstp + j) := hpre _ (by omega)
        rw [show byte dst2 (dstp + j) = dst2 (dstp + j) % 256 from rfl, hd2,
          bset_ne _ _ _ _ (by omega), bcopy_get _ _ _ _ _ _ hj1]
        have hcnt := hcont (1 + j) (by omega)
        rw [hsh] at hcnt
        have hgd : (((l.length :: l) ++ (flatMid rest ++ [0])) : List Nat).getD (1 + j) 0
            = l.getD j 0 := by
          rw [show ((l.length :: l) ++ (flatMid rest ++ [0]) : List Nat)
              = l.length :: (l ++ (flatMid rest ++ [0])) from rfl]
          rw [show (1 + j : Nat) = j + 1 from by omega, List.getD_cons_succ,
            List.getD_append _ _ _ _ hj1]
        rw [hgd] at hcnt
        have harg2 : base + (1 + j) = base + 1 + j := by omega
        rw [harg2] at hcnt
        rw [show byte P'.data (base + 1 + j) = P'.data (base + 1 + j) % 256 from rfl] at hcnt
        rw [hcnt, List.getD_append _ _ _ _ hj1]
      · by_cases hj2 : j = l.length
        · subst hj2
          have hd2 : dst2 (dstp + l.length) = bset (bcopy l.length dst dstp P'.data (base + 1))
              (dstp + l.length) 46 (dstp + l.length) := hpre _ (by omega)
          rw [show byte dst2 (dstp + l.length) = dst2 (dstp + l.length) % 256 from rfl, hd2]
          simp only [bset, if_pos rfl]
          rw [List.getD_append_right _ _ _ _ (by omega)]
          simp
        · obtain ⟨j2, rfl⟩ : ∃ j2, j = l.length + 1 + j2 := ⟨j - l.length - 1, by omega⟩
          have harg3 : dstp + (l.length + 1 + j2) = dstp + l.length + 1 + j2 := by omega
          rw [harg3, htext j2 (by omega)]
          rw [List.getD_append_right _ _ _ _ (by omega)]
          have hidx2 : l.length + 1 + j2 - l.length = j2 + 1 := by omega
          rw [hidx2, List.getD_cons_succ]

/-- One step of the expansion loop at a terminal zero with nothing yet
produced: the root name "." comes out. -/
theorem expand_go_root (P' : Packet) (base fuel : Nat) (dst : Nat → Nat)
    (hb0 : byte P'.data base = 0) (hbase : base < P'.endp) (hf : 1 ≤ fuel) :
    dns_d_expand_go P' 256 fuel dst base 0 0
      = .ok (bset (bset dst 0 46) 1 0) 1 := by
  obtain ⟨f, rfl⟩ : ∃ f, fuel = f + 1 := ⟨fuel - 1, by omega⟩
  simp only [dns_d_expand_go, if_pos hbase, hb0]
  norm_num

/-- A dotted join of valid labels has octet-sized characters. -/
theorem joinDots_lt : ∀ (ls : List (List Nat)), (∀ x ∈ ls, validLabel x) →
    ∀ c ∈ joinDots ls, c < 256 := by
  intro ls
  induction ls with
  | nil => intro _ c hc; simp [joinDots] at hc
  | cons l rest ih =>
    intro hv c hc
    cases rest with
    | nil => exact ((hv l (by simp)).2.2 c hc).1
    | cons l2 rest2 =>
      rw [show joinDots (l :: l2 :: rest2) = l ++ 46 :: joinDots (l2 :: rest2) from rfl] at hc
      rcases List.mem_append.mp hc with h | h
      · exact ((hv l (by simp)).2.2 c h).1
      · rcases List.mem_cons.mp h with h2 | h2
        · omega
        · exact ih (fun x hx => hv x (by simp [hx])) c h2

/-- A nonempty dotted join is nonempty. -/
theorem joinDots_len_pos : ∀ (l : List Nat) (ls : List (List Nat)),
    (∀ x ∈ l :: ls, validLabel x) → 1 ≤ (joinDots (l :: ls)).length := by
  intro l ls hv
  cases ls with
  | nil =>
    have := (hv l (by simp)).1
    simpa [joinDots] using this
  | cons l2 rest =>
    rw [show joinDots (l :: l2 :: rest) = l ++ 46 :: joinDots (l2 :: rest) from rfl]
    simp only [List.length_append, List.length_cons]
    omega

/-- The last character of a bare dotted join is the last label's last
character, hence never a '.'. -/
theorem joinDots_last_ne : ∀ (ls : List (List Nat)) (l : List Nat),
    (∀ x ∈ l :: ls, validLabel x) →
    (joinDots (l :: ls)).getD ((joinDots (l :: ls)).length - 1) 0 ≠ 46 := by
  intro ls
  induction ls with
  | nil =>
    intro l hv
    have hvl := hv l (by simp)
    rw [show joinDots [l] = l from rfl]
    have hlt : l.length - 1 < l.length := by have := hvl.1; omega
    rw [List.getD_eq_getElem l 0 hlt]
    exact (hvl.2.2 _ (List.getElem_mem hlt)).2
  | cons l2 rest ih =>
    intro l hv
    have hJ1 := joinDots_len_pos l2 rest (fun x hx => hv x (by simp at hx ⊢; tauto))
    rw [show joinDots (l :: l2 :: rest) = l ++ 46 :: joinDots (l2 :: rest) from rfl]
    have hlen2 : (l ++ 46 :: joinDots (l2 :: rest)).length
        = l.length + 1 + (joinDots (l2 :: rest)).length := by
      simp only [List.length_append, List.length_cons]
      try omega
    rw [hlen2]
    have hidx : l.length + 1 + (joinDots (l2 :: rest)).length - 1
        = l.length + (joinDots (l2 :: rest)).length := by omega
    rw [hidx, List.getD_append_right _ _ _ _ (by omega)]
    have hidx2 : l.length + (joinDots (l2 :: rest)).length - l.length
        = ((joinDots (l2 :: rest)).length - 1) + 1 := by omega
    rw [hidx2, List.getD_cons_succ]
    exact ih l2 (fun x hx => hv x (by simp at hx ⊢; tauto))

/-- `dns_d_anchor` on a name not already ending in '.': it appends one and
reports the extended length. -/
theorem dns_d_anchor_nodot (N : List Nat) (dst0 : Nat → Nat)
    (hb : ∀ c ∈ N, c < 256) (hne : N ≠ []) (hshort : N.length < 255)
    (hlast : N.getD (N.length - 1) 0 ≠ 46) :
    (dns_d_anchor dst0 256 (ofList N) N.length).2 = N.length + 1 ∧
    readRange (dns_d_anchor dst0 256 (ofList N) N.length).1 0 (N.length + 1)
      = N ++ [46] := by
  have hlen0 : ¬ (N.length = 0) := by
    intro h
    exact hne (List.length_eq_zero.mp h)
  have hsb : byte (ofList N) (N.length - 1) = N.getD (N.length - 1) 0 := ofList_byte N _ hb
  have hmin : min 256 N.length = N.length := by omega
  have hlt : N.length < 256 := by omega
  have hmin2 : min (256 - 1) (N.length + 1) = N.length + 1 := by omega
  simp only [dns_d_anchor, if_neg hlen0, hsb, if_pos hlast, if_pos hlt, hmin, hmin2,
    if_pos (show (0 : Nat) < 256 from by omega)]
  refine ⟨trivial, ?_⟩
  have hgoal : ∀ k, k < (N ++ [46] : List Nat).length →
      byte (bset (bset (bcopy N.length dst0 0 (ofList N) 0) N.length 46) (N.length + 1) 0)
        (0 + k) = (N ++ [46]).getD k 0 := by
    intro k hk
    simp only [List.length_append, List.length_cons, List.length_nil] at hk
    rw [show (0 + k : Nat) = k from by omega]
    by_cases hkN : k < N.length
    · have hbc : bcopy N.length dst0 0 (ofList N) 0 k = ofList N k := by
        have := bcopy_get (ofList N) N.length dst0 0 0 k hkN
        simpa using this
      rw [show byte (bset (bset (bcopy N.length dst0 0 (ofList N) 0) N.length 46)
          (N.length + 1) 0) k
          = (bset (bset (bcopy N.length dst0 0 (ofList N) 0) N.length 46)
            (N.length + 1) 0) k % 256 from rfl]
      rw [bset_ne _ _ _ _ (by omega), bset_ne _ _ _ _ (by omega), hbc]
      rw [show ofList N k = N.getD k 0 from rfl]
      rw [List.getD_append _ _ _ _ hkN, List.getD_eq_getElem N 0 hkN]
      exact Nat.mod_eq_of_lt (hb _ (List.getElem_mem hkN))
    · have hkeq : k = N.length := by omega
      subst hkeq
      rw [show byte (bset (bset (bcopy N.length dst0 0 (ofList N) 0) N.length 46)
          (N.length + 1) 0) N.length
          = (bset (bset (bcopy N.length dst0 0 (ofList N) 0) N.length 46)
            (N.length + 1) 0) N.length % 256 from rfl]
      rw [bset_ne _ _ _ _ (by omega)]
      simp only [bset, if_pos rfl]
      rw [List.getD_append_right _ _ _ _ (by omega)]
      simp
  have := readRange_eq (N ++ [46])
    (bset (bset (bcopy N.length dst0 0 (ofList N) 0) N.length 46) (N.length + 1) 0) 0 hgoal
  simpa using this

/-- `dns_d_anchor` on a name already ending in '.': copied unchanged. -/
theorem dns_d_anchor_dot (N : List Nat) (dst0 : Nat → Nat)
    (hb : ∀ c ∈ N, c < 256) (hne : N ≠ []) (hshort : N.length < 255)
    (hlast : N.getD (N.length - 1) 0 = 46) :
    (dns_d_anchor dst0 256 (ofList N) N.length).2 = N.length ∧
    readRange (dns_d_anchor dst0 256 (ofList N) N.length).1 0 N.length = N := by
  have hlen0 : ¬ (N.length = 0) := by
    intro h
    exact hne (List.length_eq_zero.mp h)
  have hsb : byte (ofList N) (N.length - 1) = N.getD (N.length - 1) 0 := ofList_byte N _ hb
  have hnn : ¬ (N.getD (N.length - 1) 0 ≠ 46) := not_not_intro hlast
  have hmin : min 256 N.length = N.length := by omega
  have hmin2 : min (256 - 1) N.length = N.length := by omega
  simp only [dns_d_anchor, if_neg hlen0, hsb, if_neg hnn, hmin, hmin2,
    if_pos (show (0 : Nat) < 256 from by omega)]
  refine ⟨trivial, ?_⟩
  have hgoal : ∀ k, k < N.length →
      byte (bset (bcopy N.length dst0 0 (ofList N) 0) N.length 0) (0 + k)
        = N.getD k 0 := by
    intro k hk
    rw [show (0 + k : Nat) = k from by omega]
    have hbc : bcopy N.length dst0 0 (ofList N) 0 k = ofList N k := by
      have := bcopy_get (ofList N) N.length dst0 0 0 k hk
      simpa using this
    rw [show byte (bset (bcopy N.length dst0 0 (ofList N) 0) N.length 0) k
        = (bset (bcopy N.length dst0 0 (ofList N) 0) N.length 0) k % 256 from rfl]
    rw [bset_ne _ _ _ _ (by omega), hbc]
    rw [show ofList N k = N.getD k 0 from rfl]
    rw [List.getD_eq_getElem N 0 hk]
    exact Nat.mod_eq_of_lt (hb _ (List.getElem_mem hk))
  exact readRange_eq N (bset (bcopy N.length dst0 0 (ofList N) 0) N.length 0) 0 hgoal

/-- Claim C4, amended: with an empty compression dictionary and sufficient
free space, `dns_d_push` of a valid presentation-form name `N` (label
sequence `ls`, with or without a trailing dot, including the root ".")
succeeds, and `dns_d_expand` of the freshly emitted wire octets reproduces
exactly `dns_d_anchor(N)`: the same length and the identical text, case
preserved.  (With prior names in the dictionary the round trip fails — see
the counterexample — so the original "regardless of which prior names are in
the dictionary" clause cannot be kept.) -/
theorem comp_expand_roundtrip_empty_dict
    (P : Packet) (ls : List (List Nat)) (N : List Nat) (fuel fuelE : Nat)
    (hdict : P.dict = List.replicate 16 0)
    (hv : ∀ x ∈ ls, validLabel x)
    (hform : N = joinDots ls ++ [46] ∨ (ls ≠ [] ∧ N = joinDots ls))
    (hshort : N.length < 255)
    (hspace : P.endp + N.length + 2 ≤ P.size)
    (hfuel : ls.length + 1 ≤ fuel)
    (hfuelE : ls.length + 1 ≤ fuelE) :
    ∃ (P' : Packet) (dst : Nat → Nat) (n : Nat),
      dns_d_push fuel P (ofList N) N.length = some (0, P') ∧
      dns_d_expand fuelE (fun _ => 0) 256 P.endp P' = .ok dst n ∧
      n = (dns_d_anchor (fun _ => 0) 256 (ofList N) N.length).2 ∧
      readRange dst 0 n
        = readRange (dns_d_anchor (fun _ => 0) 256 (ofList N) N.length).1 0 n := by
  rcases hform with hform | ⟨hne, hform⟩
  · cases ls with
    | nil =>
      have hN : N = [46] := by simpa [joinDots] using hform
      subst hN
      have hL2 : (phase1Emit [46]).length = 2 := by decide
      obtain ⟨P', hpush, hsize, hendp, hwin, hlow⟩ := dns_d_push_nodict P [46] [] fuel hdict
        (by decide) (by intro x hx; simp at hx)
        (by decide) (by decide) (by simpa using hfuel)
        (by rw [hL2]; simp at hspace ⊢; omega)
      have hb0 : byte P'.data P.endp = 0 := by
        have h0 := hwin 0 (by rw [hL2]; omega)
        rw [show byte P'.data P.endp = P'.data (P.endp + 0) % 256 from rfl, h0]
        decide
      have hroot := expand_go_root P' P.endp fuelE (fun _ => 0) hb0
        (by rw [hendp, hL2]; omega) (by simpa using hfuelE)
      have ha := dns_d_anchor_dot [46] (fun _ => 0) (by decide) (by decide) (by decide)
        (by decide)
      refine ⟨P', bset (bset (fun _ => 0) 0 46) 1 0, 1, hpush, hroot, ha.1.symm, ?_⟩
      have hrr : readRange (bset (bset (fun _ => 0) 0 46) 1 0) 0 1 = [46] := by rfl
      rw [hrr]
      exact ha.2.symm
    | cons l ls2 =>
      subst hform
      have hW : phase1Emit (joinDots (l :: ls2) ++ [46]) = flatMid (l :: ls2) ++ [0] :=
        phase1Emit_anchored l ls2 hv
      have htN : textOf (l :: ls2) = joinDots (l :: ls2) ++ [46] := textOf_joinDots l ls2
      have hflen : (flatMid (l :: ls2)).length = (joinDots (l :: ls2) ++ [46]).length := by
        rw [← textOf_length, htN]
      have hb : ∀ c ∈ joinDots (l :: ls2) ++ [46], c < 256 := by
        intro c hc
        rcases List.mem_append.mp hc with h | h
        · exact joinDots_lt _ hv c h
        · simp at h
          omega
      have hLlen : (phase1Emit (joinDots (l :: ls2) ++ [46])).length
          = (joinDots (l :: ls2) ++ [46]).length + 1 := by
        rw [hW]
        simp only [List.length_append, List.length_cons, List.length_nil, hflen]
      obtain ⟨P', hpush, hsize, hendp, hwin, hlow⟩ := dns_d_push_nodict P _ (l :: ls2) fuel
        hdict hb hv (by intro k _; rw [hW]) (by rw [hW]) hfuel
        (by rw [hLlen]; omega)
      obtain ⟨dst2, hgo, hpre2, htext⟩ := expand_go_wire P' (l :: ls2) P.endp fuelE
        (fun _ => 0) 0 0 hv hfuelE
        (le_of_eq (by rw [hendp, hW]))
        (by intro k hk
            have hk2 : k < (phase1Emit (joinDots (l :: ls2) ++ [46])).length := by
              rw [hW]; exact hk
            have h1 := hwin k hk2
            rw [show byte P'.data (P.endp + k) = P'.data (P.endp + k) % 256 from rfl, h1, hW]
            exact Nat.mod_eq_of_lt (flatMid_zero_getD_lt _ hv k))
        (by rw [textOf_length, hflen]; omega)
        (by intro h; simp at h)
      have hneN : joinDots (l :: ls2) ++ [46] ≠ [] := by simp
      have hlast : (joinDots (l :: ls2) ++ [46]).getD
          ((joinDots (l :: ls2) ++ [46]).length - 1) 0 = 46 := by
        have hlen4 : (joinDots (l :: ls2) ++ [46]).length
            = (joinDots (l :: ls2)).length + 1 := by simp
        rw [hlen4, Nat.add_sub_cancel,
          List.getD_append_right _ _ _ _ (le_refl _), Nat.sub_self]
        rfl
      have ha := dns_d_anchor_dot (joinDots (l :: ls2) ++ [46]) (fun _ => 0) hb hneN
        hshort hlast
      have hlen3 : 0 + (textOf (l :: ls2)).length = (joinDots (l :: ls2) ++ [46]).length := by
        rw [htN]; omega
      rw [Nat.zero_add] at hgo
      refine ⟨P', dst2, (textOf (l :: ls2)).length, hpush, hgo, ?_, ?_⟩
      · rw [ha.1, htN]
      · have h1 : readRange dst2 0 (textOf (l :: ls2)).length = textOf (l :: ls2) :=
          readRange_eq _ dst2 0 htext
        rw [h1, htN, ha.2]
  · obtain ⟨l, ls2, rfl⟩ := List.exists_cons_of_ne_nil hne
    subst hform
    have hW : phase1Emit (joinDots (l :: ls2)) = flatMid (l :: ls2) ++ [0] :=
      phase1Emit_joinDots l ls2 hv
    have htN : textOf (l :: ls2) = joinDots (l :: ls2) ++ [46] := textOf_joinDots l ls2
    have hflen : (flatMid (l :: ls2)).length = (joinDots (l :: ls2)).length + 1 := by
      rw [← textOf_length, htN]; simp
    have hb : ∀ c ∈ joinDots (l :: ls2), c < 256 := joinDots_lt _ hv
    have hLlen : (phase1Emit (joinDots (l :: ls2))).length
        = (joinDots (l :: ls2)).length + 2 := by
      rw [hW]
      simp only [List.length_append, List.length_cons, List.length_nil, hflen]
    obtain ⟨P', hpush, hsize, hendp, hwin, hlow⟩ := dns_d_push_nodict P _ (l :: ls2) fuel
      hdict hb hv (by intro k _; rw [hW]) (by rw [hW]) hfuel
      (by rw [hLlen]; omega)
    obtain ⟨dst2, hgo, hpre2, htext⟩ := expand_go_wire P' (l :: ls2) P.endp fuelE
      (fun _ => 0) 0 0 hv hfuelE
      (le_of_eq (by rw [hendp, hW]))
      (by intro k hk
          have hk2 : k < (phase1Emit (joinDots (l :: ls2))).length := by
            rw [hW]; exact hk
          have h1 := hwin k hk2
          rw [show byte P'.data (P.endp + k) = P'.data (P.endp + k) % 256 from rfl, h1, hW]
          exact Nat.mod_eq_of_lt (flatMid_zero_getD_lt _ hv k))
      (by rw [textOf_length, hflen]; omega)
      (by intro h; simp at h)
    have hneN : joinDots (l :: ls2) ≠ [] := by
      have := joinDots_len_pos l ls2 hv
      intro h
      rw [h] at this
      simp at this
    have ha := dns_d_anchor_nodot (joinDots (l :: ls2)) (fun _ => 0) hb hneN hshort
      (joinDots_last_ne ls2 l hv)
    have hlen3 : 0 + (textOf (l :: ls2)).length = (joinDots (l :: ls2)).length + 1 := by
      rw [htN]; simp
    rw [Nat.zero_add] at hgo
    refine ⟨P', dst2, (textOf (l :: ls2)).length, hpush, hgo, ?_, ?_⟩
    · rw [ha.1, htN]
      simp
    · have h1 : readRange dst2 0 (textOf (l :: ls2)).length = textOf (l :: ls2) :=
        readRange_eq _ dst2 0 htext
      have h2 : ((joinDots (l :: ls2) ++ [46] : List Nat)).length
          = (joinDots (l :: ls2)).length + 1 := by simp
      rw [h1, htN, h2, ha.2]

/-- Witness for the amended claim C4 theorem at the concrete name "x.y"
pushed into a fresh 64-octet packet. -/
theorem comp_expand_roundtrip_empty_dict_witness :
    ∃ (P' : Packet) (dst : Nat → Nat) (n : Nat),
      dns_d_push 3 (dns_p_init 64) (ofList [120, 46, 121]) 3 = some (0, P') ∧
      dns_d_expand 3 (fun _ => 0) 256 (dns_p_init 64).endp P' = .ok dst n ∧
      n = (dns_d_anchor (fun _ => 0) 256 (ofList [120, 46, 121]) 3).2 ∧
      readRange dst 0 n
        = readRange (dns_d_anchor (fun _ => 0) 256 (ofList [120, 46, 121]) 3).1 0 n :=
  comp_expand_roundtrip_empty_dict (dns_p_init 64) [[120], [121]] [120, 46, 121] 3 3
    rfl
    (by intro x hx
        simp only [List.mem_cons] at hx
        rcases hx with rfl | rfl | h
        · exact ⟨by decide, by decide, by decide⟩
        · exact ⟨by decide, by decide, by decide⟩
        · exact absurd h (List.not_mem_nil x))
    (Or.inr ⟨by decide, by decide⟩) (by decide) (by decide)
    (by decide) (by decide)

/-! ## dns_rr_parse / dns_rr_grep

Record parsing and the filtering iterator.  `struct dns_rr_i` and its state
initializer are not in the sources (`dns.h` is missing); the state fields
are modelled from the spec: iteration starts at section `DNS_S_QD`, record
index 0, offset 12. -/

/-- `struct dns_rr`: owner-name window (`dn.p`, `dn.len`), type, class, ttl,
rdata window (`rd.p`, `rd.len`) and the section assigned by the iterator. -/
structure DnsRR where
  dnp : Nat
  dnlen : Nat
  type : Nat
  cls : Nat
  ttl : Nat
  rdp : Nat
  rdlen : Nat
  sect : Nat
deriving DecidableEq

/-- `dns_rr_parse(rr, src, P)`: `none` models the C -1 error returns.  A
record whose owner starts at offset 12 is taken for the question and carries
no TTL or rdata; the TTL's top octet is read masked with `0x7f`.  The C code
does not assign `rr->section` (the iterator does); the model writes 0. -/
def dns_rr_parse (src : Nat) (P : Packet) : Option DnsRR :=
  if src ≥ P.endp then none
  else
    let p1 := dns_d_skip src P
    let dnlen := p1 - src
    if P.endp - p1 < 4 then none
    else
      let ty := (byte P.data p1 <<< 8) ||| byte P.data (p1 + 1)
      let cl := (byte P.data (p1 + 2) <<< 8) ||| byte P.data (p1 + 3)
      let p2 := p1 + 4
      if src = 12 then
        some { dnp := src, dnlen := dnlen, type := ty, cls := cl, ttl := 0,
               rdp := 0, rdlen := 0, sect := 0 }
      else if P.endp - p2 < 4 then none
      else
        let t := ((0x7f &&& byte P.data p2) <<< 24) ||| (byte P.data (p2 + 1) <<< 16)
          ||| (byte P.data (p2 + 2) <<< 8) ||| byte P.data (p2 + 3)
        let p3 := p2 + 4
        if P.endp - p3 < 2 then none
        else
          let rdl := (byte P.data p3 <<< 8) ||| byte P.data (p3 + 1)
          let p4 := p3 + 2
          if P.endp - p4 < rdl then none
          else some { dnp := src, dnlen := dnlen, type := ty, cls := cl, ttl := t,
                      rdp := p3 + 2, rdlen := rdl, sect := 0 }

/-- `dns_rr_len`: wire length of a parsed record; the question (owner at
offset 12) has no TTL or rdata fields. -/
def dns_rr_len (rr : DnsRR) : Nat :=
  rr.dnlen + 4 + (if rr.dnp = 12 then 0 else 4 + 2 + rr.rdlen)

/-- `struct dns_rr_i`: search filters (`section`, `type`, `class`, `name`;
zero/none means no filter) and the iterator state. -/
structure DnsRRi where
  secf : Nat
  typef : Nat
  clsf : Nat
  namef : Option (List Nat)
  sect : Nat
  index : Nat
  next : Nat
deriving DecidableEq

/-- `dns_rr_i_init` on an iterator with the given filters: the state starts
at section `DNS_S_QD`, index 0, offset 12. -/
def dns_rr_i_init (secf typef clsf : Nat) (namef : Option (List Nat)) : DnsRRi :=
  { secf := secf, typef := typef, clsf := clsf, namef := namef,
    sect := DNS_S_QD, index := 0, next := 12 }

/-- The `dns_rr_grep` loop, one fuel unit per iteration; returns the match
count, the matched records in order and the updated iterator (`none` when the
fuel runs out).  The name filter expands the owner with `dns_d_expand`
(bounded by `efuel`); when the expansion errors out, the C code compares the
partially-written buffer, which the model reproduces from the `err` payload. -/
def dns_rr_grep_go (P : Packet) (lim efuel : Nat) :
    Nat → DnsRRi → Nat → List DnsRR → Option (Nat × List DnsRR × DnsRRi)
  | 0, _, _, _ => none
  | fuel + 1, i, count, acc =>
    if i.next < P.endp then
      if i.index ≥ dns_p_count P i.sect then
        if DNS_S_AR < i.sect <<< 1 then some (count, acc, { i with sect := i.sect <<< 1 })
        else dns_rr_grep_go P lim efuel fuel
          { i with sect := i.sect <<< 1, index := 0 } count acc
      else
        match dns_rr_parse i.next P with
        | none => some (count, acc, i)
        | some rr0 =>
          let rr := { rr0 with sect := i.sect }
          let i1 := { i with next := i.next + dns_rr_len rr, index := i.index + 1 }
          if i.secf ≠ 0 ∧ rr.sect &&& i.secf = 0 then
            dns_rr_grep_go P lim efuel fuel i1 count acc
          else if i.typef ≠ 0 ∧ rr.type ≠ i.typef ∧ i.typef ≠ DNS_T_ALL then
            dns_rr_grep_go P lim efuel fuel i1 count acc
          else if i.clsf ≠ 0 ∧ rr.cls ≠ i.clsf ∧ i.clsf ≠ DNS_C_ANY then
            dns_rr_grep_go P lim efuel fuel i1 count acc
          else
            match i.namef with
            | some nm =>
              match dns_d_expand efuel (fun _ => 0) 256 rr.dnp P with
              | .out => none
              | .ok d n =>
                if 256 ≤ n then some (count, acc, i1)
                else if ¬ (eqCI (readRange d 0 256) nm) then
                  dns_rr_grep_go P lim efuel fuel i1 count acc
                else if count + 1 < lim then
                  dns_rr_grep_go P lim efuel fuel i1 (count + 1) (acc ++ [rr])
                else some (count + 1, acc ++ [rr], i1)
              | .err d =>
                if ¬ (eqCI (readRange d 0 256) nm) then
                  dns_rr_grep_go P lim efuel fuel i1 count acc
                else if count + 1 < lim then
                  dns_rr_grep_go P lim efuel fuel i1 (count + 1) (acc ++ [rr])
                else some (count + 1, acc ++ [rr], i1)
            | none =>
              if count + 1 < lim then
                dns_rr_grep_go P lim efuel fuel i1 (count + 1) (acc ++ [rr])
              else some (count + 1, acc ++ [rr], i1)
    else some (count, acc, i)

/-- `dns_rr_grep(rr, lim, i, P, &error)` with explicit loop fuel. -/
def dns_rr_grep (fuel lim : Nat) (i : DnsRRi) (P : Packet) :
    Option (Nat × List DnsRR × DnsRRi) :=
  dns_rr_grep_go P lim fuel fuel i 0 []

/-! Concrete push/grep scenario for claim C5: a question for "x" and one
answer record for "y" (type A, rdata 1.2.3.4), the answer's TTL left as a
parameter. -/

def ce5_P1 : Packet :=
  ((dns_p_push 20 (dns_p_init 64) DNS_S_QD (ofList [120]) 1 DNS_T_A DNS_C_IN 0
    (DnsAny.a 0)).getD (0, dns_p_init 64)).2

def ce5_P2 (t c a : Nat) : Packet :=
  ((dns_p_push 20 ce5_P1 DNS_S_AN (ofList [121]) 1 DNS_T_A c t
    (DnsAny.a a)).getD (0, ce5_P1)).2

/-- Bitwise-or of disjoint octet groups is addition. -/
theorem or_disjoint (u v k : Nat) (hu : u % 2 ^ k = 0) (hv : v < 2 ^ k) :
    u ||| v = u + v := by
  obtain ⟨a, rfl⟩ := Nat.dvd_of_mod_eq_zero hu
  exact (Nat.mul_add_lt_is_or hv a).symm

/-- Recombining the four stored TTL octets (top octet masked `0x7f` on both
the write and the read side) recovers every TTL below `2^31`. -/
theorem ttl_bytes_eq (t : Nat) (ht : t < 2 ^ 31) :
    ((0x7f &&& ((t >>> 24) &&& 0x7f) % 256) <<< 24)
      ||| ((((t >>> 16) &&& 0xff) % 256) <<< 16)
      ||| ((((t >>> 8) &&& 0xff) % 256) <<< 8)
      ||| ((t &&& 0xff) % 256) = t := by
  have h1 : (t >>> 24) &&& 0x7f = t / 2 ^ 24 % 128 := by
    rw [Nat.shiftRight_eq_div_pow]
    exact Nat.and_pow_two_sub_one_eq_mod _ 7
  have h2 : (t >>> 16) &&& 0xff = t / 2 ^ 16 % 256 := by
    rw [Nat.shiftRight_eq_div_pow]
    exact Nat.and_pow_two_sub_one_eq_mod _ 8
  have h3 : (t >>> 8) &&& 0xff = t / 2 ^ 8 % 256 := by
    rw [Nat.shiftRight_eq_div_pow]
    exact Nat.and_pow_two_sub_one_eq_mod _ 8
  have h4 : t &&& 0xff = t % 256 := Nat.and_pow_two_sub_one_eq_mod _ 8
  rw [h1, h2, h3, h4]
  have e1 : t / 2 ^ 24 % 128 % 256 = t / 2 ^ 24 % 128 := by omega
  have e2 : t / 2 ^ 16 % 256 % 256 = t / 2 ^ 16 % 256 := by omega
  have e3 : t / 2 ^ 8 % 256 % 256 = t / 2 ^ 8 % 256 := by omega
  have e4 : t % 256 % 256 = t % 256 := by omega
  rw [e1, e2, e3, e4]
  have e5 : 0x7f &&& t / 2 ^ 24 % 128 = t / 2 ^ 24 % 128 := by
    rw [Nat.and_comm]
    have := Nat.and_pow_two_sub_one_eq_mod (t / 2 ^ 24 % 128) 7
    rw [show ((2 : Nat) ^ 7 - 1) = 0x7f from by norm_num] at this
    rw [this]
    omega
  rw [e5, Nat.shiftLeft_eq, Nat.shiftLeft_eq, Nat.shiftLeft_eq]
  rw [or_disjoint (t / 2 ^ 24 % 128 * 2 ^ 24) (t / 2 ^ 16 % 256 * 2 ^ 16) 24
      (by simp only [show (2:Nat) ^ 24 = 16777216 from by norm_num,
            show (2:Nat) ^ 16 = 65536 from by norm_num]
          omega)
      (by simp only [show (2:Nat) ^ 24 = 16777216 from by norm_num,
            show (2:Nat) ^ 16 = 65536 from by norm_num]
          omega)]
  rw [or_disjoint (t / 2 ^ 24 % 128 * 2 ^ 24 + t / 2 ^ 16 % 256 * 2 ^ 16)
      (t / 2 ^ 8 % 256 * 2 ^ 8) 16
      (by simp only [show (2:Nat) ^ 24 = 16777216 from by norm_num,
            show (2:Nat) ^ 16 = 65536 from by norm_num,
            show (2:Nat) ^ 8 = 256 from by norm_num]
          omega)
      (by simp only [show (2:Nat) ^ 16 = 65536 from by norm_num,
            show (2:Nat) ^ 8 = 256 from by norm_num]
          omega)]
  rw [or_disjoint (t / 2 ^ 24 % 128 * 2 ^ 24 + t / 2 ^ 16 % 256 * 2 ^ 16
        + t / 2 ^ 8 % 256 * 2 ^ 8) (t % 256) 8
      (by simp only [show (2:Nat) ^ 24 = 16777216 from by norm_num,
            show (2:Nat) ^ 16 = 65536 from by norm_num,
            show (2:Nat) ^ 8 = 256 from by norm_num]
          omega)
      (by simp only [show (2:Nat) ^ 8 = 256 from by norm_num]
          omega)]
  simp only [show (2:Nat) ^ 24 = 16777216 from by norm_num,
    show (2:Nat) ^ 16 = 65536 from by norm_num,
    show (2:Nat) ^ 8 = 256 from by norm_num]
  simp only [show (2:Nat) ^ 31 = 2147483648 from by norm_num] at ht
  omega

/-- Recombining the two stored class octets recovers every class value
below `2^16`. -/
theorem cls_bytes_eq (c : Nat) (hc : c < 2 ^ 16) :
    ((((c >>> 8) &&& 0xff) % 256) <<< 8) ||| ((c &&& 0xff) % 256) = c := by
  have h1 : (c >>> 8) &&& 0xff = c / 2 ^ 8 % 256 := by
    rw [Nat.shiftRight_eq_div_pow]
    exact Nat.and_pow_two_sub_one_eq_mod _ 8
  have h2 : c &&& 0xff = c % 256 := Nat.and_pow_two_sub_one_eq_mod _ 8
  rw [h1, h2]
  have e1 : c / 2 ^ 8 % 256 % 256 = c / 2 ^ 8 % 256 := by omega
  have e2 : c % 256 % 256 = c % 256 := by omega
  rw [e1, e2, Nat.shiftLeft_eq]
  rw [or_disjoint (c / 2 ^ 8 % 256 * 2 ^ 8) (c % 256) 8
      (by simp only [show (2:Nat) ^ 8 = 256 from by norm_num]
          omega)
      (by simp only [show (2:Nat) ^ 8 = 256 from by norm_num]
          omega)]
  simp only [show (2:Nat) ^ 8 = 256 from by norm_num]
  simp only [show (2:Nat) ^ 16 = 65536 from by norm_num] at hc
  omega

/-- The octet mask composed with the octet read is a plain `mod 256`. -/
theorem and255_mod (x : Nat) : (x &&& 0xff) % 256 = x % 256 := by
  have h : x &&& 0xff = x % 256 := Nat.and_pow_two_sub_one_eq_mod x 8
  rw [h]
  omega

/-- `dns_d_skip` over a single one-octet label followed by the terminal
zero: three octets are skipped. -/
theorem dns_d_skip_label1 (P : Packet) (src : Nat)
    (h0 : byte P.data src = 1) (h2 : byte P.data (src + 2) = 0)
    (hend : src + 7 ≤ P.endp) :
    dns_d_skip src P = src + 3 := by
  have htag1 : (1 : Nat) >>> 6 &&& 0x03 = 0 := by decide
  have hlen1 : (1 : Nat) &&& 0x3f = 1 := by decide
  have htag0 : (0 : Nat) >>> 6 &&& 0x03 = 0 := by decide
  have hlen0 : (0 : Nat) &&& 0x3f = 0 := by decide
  have step : ∀ g, dns_d_skip_go P (src + 2) (g + 1) = src + 3 := by
    intro g
    simp only [dns_d_skip_go, if_pos (show src + 2 < P.endp from by omega), h2, htag0,
      hlen0, eq_self_iff_true, if_true]
  have step0 : ∀ g, dns_d_skip_go P src (g + 1 + 1) = src + 3 := by
    intro g
    simp only [dns_d_skip_go, if_pos (show src < P.endp from by omega), h0, htag1, hlen1,
      eq_self_iff_true, if_true, if_neg (show ¬ (1 : Nat) = 0 from by omega),
      if_pos (show P.endp - (src + 1) > 1 from by omega)]
    exact step g
  obtain ⟨f, hf⟩ : ∃ f, P.endp - src = f + 1 + 1 := ⟨P.endp - src - 2, by omega⟩
  show dns_d_skip_go P src (P.endp - src) = src + 3
  rw [hf]
  exact step0 f

/-- `dns_rr_parse` of the question: a one-octet-label owner at offset 12,
type and class, no TTL or rdata. -/
theorem dns_rr_parse_question (P : Packet)
    (h0 : byte P.data 12 = 1) (h2 : byte P.data 14 = 0)
    (hend : 19 ≤ P.endp) :
    dns_rr_parse 12 P = some ⟨12, 3,
      (byte P.data 15 <<< 8) ||| byte P.data 16,
      (byte P.data 17 <<< 8) ||| byte P.data 18, 0, 0, 0, 0⟩ := by
  have hskip : dns_d_skip 12 P = 15 := by
    have := dns_d_skip_label1 P 12 h0 h2 (by omega)
    simpa using this
  simp only [dns_rr_parse, if_neg (show ¬ 12 ≥ P.endp from by omega), hskip,
    if_neg (show ¬ (P.endp - 15 < 4) from by omega), eq_self_iff_true, if_true]

/-- `dns_rr_parse` of a record with a one-octet-label owner at an offset
other than 12: type, class, the `0x7f`-masked TTL, and the rdata window. -/
theorem dns_rr_parse_record (P : Packet) (src rdl : Nat) (hsrc : ¬ src = 12)
    (h0 : byte P.data src = 1) (h2 : byte P.data (src + 2) = 0)
    (hrdl : (byte P.data (src + 11) <<< 8) ||| byte P.data (src + 12) = rdl)
    (hend : src + 13 + rdl ≤ P.endp) :
    dns_rr_parse src P = some ⟨src, 3,
      (byte P.data (src + 3) <<< 8) ||| byte P.data (src + 4),
      (byte P.data (src + 5) <<< 8) ||| byte P.data (src + 6),
      ((0x7f &&& byte P.data (src + 7)) <<< 24) ||| (byte P.data (src + 8) <<< 16)
        ||| (byte P.data (src + 9) <<< 8) ||| byte P.data (src + 10),
      src + 13, rdl, 0⟩ := by
  have hskip : dns_d_skip src P = src + 3 := dns_d_skip_label1 P src h0 h2 (by omega)
  have e1 : src + 3 + 1 = src + 4 := by omega
  have e2 : src + 3 + 2 = src + 5 := by omega
  have e3 : src + 3 + 3 = src + 6 := by omega
  have e4 : src + 3 + 4 = src + 7 := by omega
  have e5 : src + 7 + 1 = src + 8 := by omega
  have e6 : src + 7 + 2 = src + 9 := by omega
  have e7 : src + 7 + 3 = src + 10 := by omega
  have e8 : src + 7 + 4 = src + 11 := by omega
  have e9 : src + 11 + 1 = src + 12 := by omega
  have e10 : src + 11 + 2 = src + 13 := by omega
  simp only [dns_rr_parse, if_neg (show ¬ src ≥ P.endp from by omega), hskip,
    if_neg (show ¬ (P.endp - (src + 3) < 4) from by omega), if_neg hsrc,
    e1, e2, e3, e4, e5, e6, e7, e8, e9, e10, hrdl,
    if_neg (show ¬ (P.endp - (src + 7) < 4) from by omega),
    if_neg (show ¬ (P.endp - (src + 11) < 2) from by omega),
    if_neg (show ¬ (P.endp - (src + 13) < rdl) from by omega)]
  have hd : src + 3 - src = 3 := by omega
  rw [hd]

/-- Reading a 16-bit header field back after `set16` stores it. -/
theorem get16_set16 (b : Nat → Nat) (i v : Nat) (hv : v < 65536) :
    get16 (set16 b i v) i = v := by
  simp only [get16, set16, byte]
  rw [show bset (bset b i (v / 256 % 256)) (i + 1) (v % 256) i = v / 256 % 256 from by
        rw [bset_ne _ _ _ _ (by omega)]
        simp [bset]]
  rw [show bset (bset b i (v / 256 % 256)) (i + 1) (v % 256) (i + 1) = v % 256 from by
        simp [bset]]
  omega

/-- A successful `dns_p_push` into the answer section bumps `ancount` by one
(mod 2^16) and leaves the other three section counts unchanged. -/
theorem dns_p_push_an_success_counts (fuel : Nat) (P : Packet) (dn : Nat → Nat)
    (dnlen type cls ttl : Nat) (any : DnsAny) (P5 : Packet)
    (hwf : 12 ≤ P.endp)
    (hrun : dns_p_push fuel P DNS_S_AN dn dnlen type cls ttl any = some (0, P5)) :
    get16 P5.data 4 = get16 P.data 4 ∧
    get16 P5.data 6 = (get16 P.data 6 + 1) % 65536 ∧
    get16 P5.data 8 = get16 P.data 8 ∧
    get16 P5.data 10 = get16 P.data 10 := by
  simp only [dns_p_push] at hrun
  cases hd : dns_d_push fuel P dn dnlen with
  | none => rw [hd] at hrun; simp at hrun
  | some r =>
    rw [hd] at hrun
    obtain ⟨e1, P1⟩ := r
    have hh := dns_d_push_header fuel P dn dnlen e1 P1 hwf hd
    simp only at hrun
    by_cases he1 : e1 = 0
    · rw [if_neg (not_not_intro he1)] at hrun
      by_cases hsp : P1.size - P1.endp < 4
      · rw [if_pos hsp] at hrun
        simp at hrun
      · rw [if_neg hsp] at hrun
        have h12 : 12 ≤ P1.endp := le_trans hwf hh.2.2.1
        rw [if_neg (show ¬ DNS_S_AN = DNS_S_QD from by decide)] at hrun
        by_cases hsp2 : P1.size - (P1.endp + 4) < 6
        · rw [if_pos hsp2] at hrun
          simp at hrun
        · rw [if_neg hsp2] at hrun
          cases ha : dns_any_push fuel
              { size := P1.size, endp := P1.endp + 4 + 4,
                data := bset (bset (bset (bset
                  (bset (bset (bset (bset P1.data P1.endp ((type >>> 8) &&& 0xff))
                    (P1.endp + 1) (type &&& 0xff)) (P1.endp + 2) ((cls >>> 8) &&& 0xff))
                    (P1.endp + 3) (cls &&& 0xff))
                  (P1.endp + 4) ((ttl >>> 24) &&& 0x7f))
                  (P1.endp + 4 + 1) ((ttl >>> 16) &&& 0xff))
                  (P1.endp + 4 + 2) ((ttl >>> 8) &&& 0xff))
                  (P1.endp + 4 + 3) (ttl &&& 0xff),
                dict := P1.dict } any type with
          | none => rw [ha] at hrun; simp at hrun
          | some r2 =>
            rw [ha] at hrun
            obtain ⟨e2, P4⟩ := r2
            have hha := dns_any_push_header fuel _ any type e2 P4 (by simp; omega) ha
            have hh3 : ∀ i, i < 12 → P4.data i = P.data i := by
              intro i hi
              rw [hha i hi]
              simp only
              rw [bset_ne _ _ _ _ (by omega), bset_ne _ _ _ _ (by omega),
                  bset_ne _ _ _ _ (by omega), bset_ne _ _ _ _ (by omega),
                  bset_ne _ _ _ _ (by omega), bset_ne _ _ _ _ (by omega),
                  bset_ne _ _ _ _ (by omega), bset_ne _ _ _ _ (by omega)]
              exact hh.1 i hi
            simp only at hrun
            by_cases he2 : e2 = 0
            · rw [if_neg (not_not_intro he2)] at hrun
              simp only [if_true] at hrun
              simp only [Option.some.injEq, Prod.mk.injEq] at hrun
              have hP5 : P5 = { P4 with
                  data := set16 P4.data 6 ((get16 P4.data 6 + 1) % 65536) } := hrun.2.symm
              subst hP5
              have hc4 : get16 P4.data 4 = get16 P.data 4 :=
                get16_header_eq _ _ hh3 4 (by omega)
              have hc6 : get16 P4.data 6 = get16 P.data 6 :=
                get16_header_eq _ _ hh3 6 (by omega)
              have hc8 : get16 P4.data 8 = get16 P.data 8 :=
                get16_header_eq _ _ hh3 8 (by omega)
              have hc10 : get16 P4.data 10 = get16 P.data 10 :=
                get16_header_eq _ _ hh3 10 (by omega)
              refine ⟨?_, ?_, ?_, ?_⟩
              · show get16 (set16 P4.data 6 ((get16 P4.data 6 + 1) % 65536)) 4
                  = get16 P.data 4
                rw [← hc4]
                simp only [get16, set16, byte]
                rw [bset_ne _ _ _ _ (by omega), bset_ne _ _ _ _ (by omega),
                    bset_ne _ _ _ _ (by omega), bset_ne _ _ _ _ (by omega)]
              · show get16 (set16 P4.data 6 ((get16 P4.data 6 + 1) % 65536)) 6
                  = (get16 P.data 6 + 1) % 65536
                rw [get16_set16 _ _ _ (by omega), hc6]
              · show get16 (set16 P4.data 6 ((get16 P4.data 6 + 1) % 65536)) 8
                  = get16 P.data 8
                rw [← hc8]
                simp only [get16, set16, byte]
                rw [bset_ne _ _ _ _ (by omega), bset_ne _ _ _ _ (by omega),
                    bset_ne _ _ _ _ (by omega), bset_ne _ _ _ _ (by omega)]
              · show get16 (set16 P4.data 6 ((get16 P4.data 6 + 1) % 65536)) 10
                  = get16 P.data 10
                rw [← hc10]
                simp only [get16, set16, byte]
                rw [bset_ne _ _ _ _ (by omega), bset_ne _ _ _ _ (by omega),
                    bset_ne _ _ _ _ (by omega), bset_ne _ _ _ _ (by omega)]
            · rw [if_pos he2] at hrun
              simp only [Option.some.injEq, Prod.mk.injEq] at hrun
              exact absurd hrun.1 he2
    · rw [if_pos he1] at hrun
      simp only [Option.some.injEq, Prod.mk.injEq] at hrun
      exact absurd hrun.1 he1

/-! Octet-level facts about the C5 scenario packet, each by computation; the
TTL octets keep the pushed value symbolically. -/

set_option maxRecDepth 200000

theorem ce5_b12 (t c a : Nat) : byte (ce5_P2 t c a).data 12 = 1 := rfl
theorem ce5_b13 (t c a : Nat) : byte (ce5_P2 t c a).data 13 = 120 := rfl
theorem ce5_b14 (t c a : Nat) : byte (ce5_P2 t c a).data 14 = 0 := rfl
theorem ce5_b15 (t c a : Nat) : byte (ce5_P2 t c a).data 15 = 0 := rfl
theorem ce5_b16 (t c a : Nat) : byte (ce5_P2 t c a).data 16 = 1 := rfl
theorem ce5_b17 (t c a : Nat) : byte (ce5_P2 t c a).data 17 = 0 := rfl
theorem ce5_b18 (t c a : Nat) : byte (ce5_P2 t c a).data 18 = 1 := rfl
theorem ce5_b19 (t c a : Nat) : byte (ce5_P2 t c a).data 19 = 1 := rfl
theorem ce5_b20 (t c a : Nat) : byte (ce5_P2 t c a).data 20 = 121 := rfl
theorem ce5_b21 (t c a : Nat) : byte (ce5_P2 t c a).data 21 = 0 := rfl
theorem ce5_b22 (t c a : Nat) : byte (ce5_P2 t c a).data 22 = 0 := rfl
theorem ce5_b23 (t c a : Nat) : byte (ce5_P2 t c a).data 23 = 1 := rfl
theorem ce5_b24 (t c a : Nat) : byte (ce5_P2 t c a).data 24 = ((c >>> 8) &&& 0xff) % 256 := rfl
theorem ce5_b25 (t c a : Nat) : byte (ce5_P2 t c a).data 25 = (c &&& 0xff) % 256 := rfl
theorem ce5_b26 (t c a : Nat) : byte (ce5_P2 t c a).data 26 = ((t >>> 24) &&& 0x7f) % 256 := rfl
theorem ce5_b27 (t c a : Nat) : byte (ce5_P2 t c a).data 27 = ((t >>> 16) &&& 0xff) % 256 := rfl
theorem ce5_b28 (t c a : Nat) : byte (ce5_P2 t c a).data 28 = ((t >>> 8) &&& 0xff) % 256 := rfl
theorem ce5_b29 (t c a : Nat) : byte (ce5_P2 t c a).data 29 = (t &&& 0xff) % 256 := rfl
theorem ce5_b30 (t c a : Nat) : byte (ce5_P2 t c a).data 30 = 0 := rfl
theorem ce5_b31 (t c a : Nat) : byte (ce5_P2 t c a).data 31 = 4 := rfl
theorem ce5_b32 (t c a : Nat) : byte (ce5_P2 t c a).data 32 = ((a >>> 24) &&& 0xff) % 256 := rfl
theorem ce5_b33 (t c a : Nat) : byte (ce5_P2 t c a).data 33 = ((a >>> 16) &&& 0xff) % 256 := rfl
theorem ce5_b34 (t c a : Nat) : byte (ce5_P2 t c a).data 34 = ((a >>> 8) &&& 0xff) % 256 := rfl
theorem ce5_b35 (t c a : Nat) : byte (ce5_P2 t c a).data 35 = (a &&& 0xff) % 256 := rfl
theorem ce5_endp (t c a : Nat) : (ce5_P2 t c a).endp = 36 := rfl

theorem ce5_cqd (t c a : Nat) : dns_p_count (ce5_P2 t c a) DNS_S_QD = 1 := rfl
theorem ce5_cns (t c a : Nat) : dns_p_count (ce5_P2 t c a) DNS_S_NS = 0 := rfl
theorem ce5_car (t c a : Nat) : dns_p_count (ce5_P2 t c a) DNS_S_AR = 0 := rfl

theorem ce5_can (t c a : Nat) : dns_p_count (ce5_P2 t c a) DNS_S_AN = 1 := by
  have h := dns_p_push_an_success_counts 20 ce5_P1 (ofList [121]) 1 DNS_T_A c t
    (DnsAny.a a) (ce5_P2 t c a)
    (by rw [show ce5_P1.endp = 19 from rfl]; omega) rfl
  have h6 : get16 ce5_P1.data 6 = 0 := rfl
  simp only [dns_p_count, if_true]
  rw [h.2.1, h6, if_neg (show ¬ DNS_S_AN = DNS_S_QD from by decide)]

/-- Parsing the question of the C5 scenario packet. -/
theorem ce5_parse12 (t c a : Nat) :
    dns_rr_parse 12 (ce5_P2 t c a) = some ⟨12, 3, 1, 1, 0, 0, 0, 0⟩ := by
  have h := dns_rr_parse_question (ce5_P2 t c a) (ce5_b12 t c a) (ce5_b14 t c a)
    (by rw [ce5_endp t c a]; omega)
  rw [h, ce5_b15 t c a, ce5_b16 t c a, ce5_b17 t c a, ce5_b18 t c a,
    show ((0 : Nat) <<< 8) ||| 1 = 1 from by decide]

/-- Parsing the answer record of the C5 scenario packet: the TTL comes back
as the recombination of its four stored octets. -/
theorem ce5_parse19 (t c a : Nat) :
    dns_rr_parse 19 (ce5_P2 t c a) = some ⟨19, 3, 1,
            ((((c >>> 8) &&& 0xff) % 256) <<< 8) ||| ((c &&& 0xff) % 256),
      ((0x7f &&& ((t >>> 24) &&& 0x7f) % 256) <<< 24)
        ||| ((((t >>> 16) &&& 0xff) % 256) <<< 16)
        ||| ((((t >>> 8) &&& 0xff) % 256) <<< 8)
        ||| ((t &&& 0xff) % 256),
      32, 4, 0⟩ := by
  have h := dns_rr_parse_record (ce5_P2 t c a) 19 4 (by omega) (ce5_b19 t c a) (ce5_b21 t c a)
    (by norm_num
        rw [ce5_b30 t c a, ce5_b31 t c a]
        decide)
    (by rw [ce5_endp t c a])
  rw [h]
  norm_num
  rw [ce5_b22 t c a, ce5_b23 t c a, ce5_b24 t c a, ce5_b25 t c a, ce5_b26 t c a, ce5_b27 t c a, ce5_b28 t c a,
    ce5_b29 t c a,
    show ((0 : Nat) <<< 8) ||| 1 = 1 from by decide]
  exact ⟨rfl, rfl, rfl⟩

/-- The full iterator trace over the C5 scenario packet: the question, a
section advance, the answer record, then termination at the packet's end. -/
theorem ce5_grep (t c a : Nat) :
    dns_rr_grep 20 10 (dns_rr_i_init 0 0 0 none) (ce5_P2 t c a)
      = some (2, [⟨12, 3, 1, 1, 0, 0, 0, DNS_S_QD⟩,
          ⟨19, 3, 1,
            ((((c >>> 8) &&& 0xff) % 256) <<< 8) ||| ((c &&& 0xff) % 256),
            ((0x7f &&& ((t >>> 24) &&& 0x7f) % 256) <<< 24)
              ||| ((((t >>> 16) &&& 0xff) % 256) <<< 16)
              ||| ((((t >>> 8) &&& 0xff) % 256) <<< 8)
              ||| ((t &&& 0xff) % 256),
            32, 4, DNS_S_AN⟩],
          ⟨0, 0, 0, none, 2, 1, 36⟩) := by
  have hendp := ce5_endp t c a
  have hcqd1 : dns_p_count (ce5_P2 t c a) 1 = 1 := ce5_cqd t c a
  have hcan1 : dns_p_count (ce5_P2 t c a) 2 = 1 := ce5_can t c a
  have hsh : (1 : Nat) <<< 1 = 2 := by decide
  have step1 : ∀ ef g, dns_rr_grep_go (ce5_P2 t c a) 10 ef (g + 1)
        ⟨0, 0, 0, none, 1, 0, 12⟩ 0 []
      = dns_rr_grep_go (ce5_P2 t c a) 10 ef g
        ⟨0, 0, 0, none, 1, 1, 19⟩ 1 [⟨12, 3, 1, 1, 0, 0, 0, 1⟩] := by
    intro ef g
    simp only [dns_rr_grep_go, hendp, ce5_parse12 t c a, dns_rr_len, hcqd1, hsh]
    norm_num
  have step2 : ∀ ef g, dns_rr_grep_go (ce5_P2 t c a) 10 ef (g + 1)
        ⟨0, 0, 0, none, 1, 1, 19⟩ 1 [⟨12, 3, 1, 1, 0, 0, 0, 1⟩]
      = dns_rr_grep_go (ce5_P2 t c a) 10 ef g
        ⟨0, 0, 0, none, 2, 0, 19⟩ 1 [⟨12, 3, 1, 1, 0, 0, 0, 1⟩] := by
    intro ef g
    simp only [dns_rr_grep_go, hendp, hcqd1, hsh]
    norm_num [DNS_S_AR]
  have step3 : ∀ ef g, dns_rr_grep_go (ce5_P2 t c a) 10 ef (g + 1)
        ⟨0, 0, 0, none, 2, 0, 19⟩ 1 [⟨12, 3, 1, 1, 0, 0, 0, 1⟩]
      = dns_rr_grep_go (ce5_P2 t c a) 10 ef g
        ⟨0, 0, 0, none, 2, 1, 36⟩ 2 [⟨12, 3, 1, 1, 0, 0, 0, 1⟩,
          ⟨19, 3, 1,
            ((((c >>> 8) &&& 0xff) % 256) <<< 8) ||| ((c &&& 0xff) % 256),
            ((0x7f &&& ((t >>> 24) &&& 0x7f) % 256) <<< 24)
              ||| ((((t >>> 16) &&& 0xff) % 256) <<< 16)
              ||| ((((t >>> 8) &&& 0xff) % 256) <<< 8)
              ||| ((t &&& 0xff) % 256),
            32, 4, 2⟩] := by
    intro ef g
    simp only [dns_rr_grep_go, hendp, ce5_parse19 t c a, dns_rr_len, hcan1, hsh]
    norm_num
  have step4 : ∀ ef g, dns_rr_grep_go (ce5_P2 t c a) 10 ef (g + 1)
        ⟨0, 0, 0, none, 2, 1, 36⟩ 2 [⟨12, 3, 1, 1, 0, 0, 0, 1⟩,
          ⟨19, 3, 1,
            ((((c >>> 8) &&& 0xff) % 256) <<< 8) ||| ((c &&& 0xff) % 256),
            ((0x7f &&& ((t >>> 24) &&& 0x7f) % 256) <<< 24)
              ||| ((((t >>> 16) &&& 0xff) % 256) <<< 16)
              ||| ((((t >>> 8) &&& 0xff) % 256) <<< 8)
              ||| ((t &&& 0xff) % 256),
            32, 4, 2⟩]
      = some (2, [⟨12, 3, 1, 1, 0, 0, 0, 1⟩,
          ⟨19, 3, 1,
            ((((c >>> 8) &&& 0xff) % 256) <<< 8) ||| ((c &&& 0xff) % 256),
            ((0x7f &&& ((t >>> 24) &&& 0x7f) % 256) <<< 24)
              ||| ((((t >>> 16) &&& 0xff) % 256) <<< 16)
              ||| ((((t >>> 8) &&& 0xff) % 256) <<< 8)
              ||| ((t &&& 0xff) % 256),
            32, 4, 2⟩],
          ⟨0, 0, 0, none, 2, 1, 36⟩) := by
    intro ef g
    simp only [dns_rr_grep_go, hendp]
    norm_num
  calc dns_rr_grep 20 10 (dns_rr_i_init 0 0 0 none) (ce5_P2 t c a)
      = dns_rr_grep_go (ce5_P2 t c a) 10 20 (19 + 1) ⟨0, 0, 0, none, 1, 0, 12⟩ 0 [] := rfl
    _ = dns_rr_grep_go (ce5_P2 t c a) 10 20 (18 + 1) ⟨0, 0, 0, none, 1, 1, 19⟩ 1
        [⟨12, 3, 1, 1, 0, 0, 0, 1⟩] := step1 20 19
    _ = dns_rr_grep_go (ce5_P2 t c a) 10 20 (17 + 1) ⟨0, 0, 0, none, 2, 0, 19⟩ 1
        [⟨12, 3, 1, 1, 0, 0, 0, 1⟩] := step2 20 18
    _ = dns_rr_grep_go (ce5_P2 t c a) 10 20 (16 + 1) ⟨0, 0, 0, none, 2, 1, 36⟩ 2
        [⟨12, 3, 1, 1, 0, 0, 0, 1⟩,
          ⟨19, 3, 1,
            ((((c >>> 8) &&& 0xff) % 256) <<< 8) ||| ((c &&& 0xff) % 256),
            ((0x7f &&& ((t >>> 24) &&& 0x7f) % 256) <<< 24)
              ||| ((((t >>> 16) &&& 0xff) % 256) <<< 16)
              ||| ((((t >>> 8) &&& 0xff) % 256) <<< 8)
              ||| ((t &&& 0xff) % 256),
            32, 4, 2⟩] := step3 20 17
    _ = some (2, [⟨12, 3, 1, 1, 0, 0, 0, 1⟩,
          ⟨19, 3, 1,
            ((((c >>> 8) &&& 0xff) % 256) <<< 8) ||| ((c &&& 0xff) % 256),
            ((0x7f &&& ((t >>> 24) &&& 0x7f) % 256) <<< 24)
              ||| ((((t >>> 16) &&& 0xff) % 256) <<< 16)
              ||| ((((t >>> 8) &&& 0xff) % 256) <<< 8)
              ||| ((t &&& 0xff) % 256),
            32, 4, 2⟩],
          ⟨0, 0, 0, none, 2, 1, 36⟩) := step4 20 16
    _ = some (2, [⟨12, 3, 1, 1, 0, 0, 0, DNS_S_QD⟩,
          ⟨19, 3, 1,
            ((((c >>> 8) &&& 0xff) % 256) <<< 8) ||| ((c &&& 0xff) % 256),
            ((0x7f &&& ((t >>> 24) &&& 0x7f) % 256) <<< 24)
              ||| ((((t >>> 16) &&& 0xff) % 256) <<< 16)
              ||| ((((t >>> 8) &&& 0xff) % 256) <<< 8)
              ||| ((t &&& 0xff) % 256),
            32, 4, DNS_S_AN⟩],
          ⟨0, 0, 0, none, 2, 1, 36⟩) := rfl

/-- Expanding the question's owner name from the C5 packet gives "x.". -/
theorem ce5_expand12 (t c a : Nat) :
    expandObs (dns_d_expand 5 (fun _ => 0) 256 12 (ce5_P2 t c a)) = some ([120, 46], 2) := by
  obtain ⟨dst2, hgo, _, htext⟩ := expand_go_wire (ce5_P2 t c a) [[120]] 12 5 (fun _ => 0) 0 0
    (by intro x hx
        simp only [List.mem_singleton] at hx
        subst hx
        exact ⟨by decide, by decide, by decide⟩)
    (by norm_num)
    (by rw [ce5_endp t c a]; norm_num [flatMid])
    (by intro k hk
        simp only [flatMid, List.foldr_cons, List.foldr_nil, List.length_append,
          List.length_cons, List.length_nil] at hk
        interval_cases k
        · simpa using ce5_b12 t c a
        · simpa using ce5_b13 t c a
        · simpa using ce5_b14 t c a)
    (by decide)
    (by intro h; simp at h)
  rw [Nat.zero_add] at hgo
  show expandObs (dns_d_expand_go (ce5_P2 t c a) 256 5 (fun _ => 0) 12 0 0) = some ([120, 46], 2)
  rw [hgo]
  simp only [expandObs]
  rw [readRange_eq _ dst2 0 htext]
  rfl

/-- Expanding the answer's owner name from the C5 packet gives "y.". -/
theorem ce5_expand19 (t c a : Nat) :
    expandObs (dns_d_expand 5 (fun _ => 0) 256 19 (ce5_P2 t c a)) = some ([121, 46], 2) := by
  obtain ⟨dst2, hgo, _, htext⟩ := expand_go_wire (ce5_P2 t c a) [[121]] 19 5 (fun _ => 0) 0 0
    (by intro x hx
        simp only [List.mem_singleton] at hx
        subst hx
        exact ⟨by decide, by decide, by decide⟩)
    (by norm_num)
    (by rw [ce5_endp t c a]; norm_num [flatMid])
    (by intro k hk
        simp only [flatMid, List.foldr_cons, List.foldr_nil, List.length_append,
          List.length_cons, List.length_nil] at hk
        interval_cases k
        · simpa using ce5_b19 t c a
        · simpa using ce5_b20 t c a
        · simpa using ce5_b21 t c a)
    (by decide)
    (by intro h; simp at h)
  rw [Nat.zero_add] at hgo
  show expandObs (dns_d_expand_go (ce5_P2 t c a) 256 5 (fun _ => 0) 19 0 0) = some ([121, 46], 2)
  rw [hgo]
  simp only [expandObs]
  rw [readRange_eq _ dst2 0 htext]
  rfl

/-- Claim C5, amended: on the packet built from `dns_p_init` by two
successful `dns_p_push` calls — the question "x" (type A, class IN) followed
by one type-A answer record "y" with any class below `2^16`, any TTL below
`2^31` and any rdata address — iterating with a fresh unfiltered
`dns_rr_grep` yields exactly the pushed records in order: the question
(owner at 12, no TTL or rdata) and the answer with its type, its class, the
very same TTL and its four big-endian rdata octets; both owner names expand
back to their anchored forms, and each of the four header section counts
equals the number of records pushed into that section.  The restrictions are
forced by the code — see the counterexample: TTLs of `2^31` and above are
stored with the top octet masked `0x7f` and come back truncated, and a
record pushed without a leading question lands at offset 12, which
`dns_rr_parse` unconditionally treats as the question, dropping its TTL and
rdata. -/
theorem rr_push_grep_roundtrip (t c a : Nat) (ht : t < 2 ^ 31) (hc : c < 2 ^ 16) :
    (dns_p_push 20 (dns_p_init 64) DNS_S_QD (ofList [120]) 1 DNS_T_A DNS_C_IN 0
        (DnsAny.a 0)).map Prod.fst = some 0 ∧
    (dns_p_push 20 ce5_P1 DNS_S_AN (ofList [121]) 1 DNS_T_A c t
        (DnsAny.a a)).map Prod.fst = some 0 ∧
    (dns_rr_grep 20 10 (dns_rr_i_init 0 0 0 none) (ce5_P2 t c a)).map (fun r => (r.1, r.2.1))
      = some (2, [⟨12, 3, DNS_T_A, DNS_C_IN, 0, 0, 0, DNS_S_QD⟩,
                  ⟨19, 3, DNS_T_A, c, t, 32, 4, DNS_S_AN⟩]) ∧
    readRange (ce5_P2 t c a).data 32 4
      = [a / 2 ^ 24 % 256, a / 2 ^ 16 % 256, a / 2 ^ 8 % 256, a % 256] ∧
    expandObs (dns_d_expand 5 (fun _ => 0) 256 12 (ce5_P2 t c a)) = some ([120, 46], 2) ∧
    expandObs (dns_d_expand 5 (fun _ => 0) 256 19 (ce5_P2 t c a)) = some ([121, 46], 2) ∧
    dns_p_count (ce5_P2 t c a) DNS_S_QD = 1 ∧ dns_p_count (ce5_P2 t c a) DNS_S_AN = 1 ∧
    dns_p_count (ce5_P2 t c a) DNS_S_NS = 0 ∧ dns_p_count (ce5_P2 t c a) DNS_S_AR = 0 := by
  refine ⟨rfl, rfl, ?_, ?_, ce5_expand12 t c a, ce5_expand19 t c a,
    ce5_cqd t c a, ce5_can t c a, ce5_cns t c a, ce5_car t c a⟩
  · rw [ce5_grep t c a]
    simp only [Option.map_some']
    rw [ttl_bytes_eq t ht, cls_bytes_eq c hc]
    rfl
  · have hraw : readRange (ce5_P2 t c a).data 32 4
        = [((a >>> 24) &&& 0xff) % 256, ((a >>> 16) &&& 0xff) % 256,
           ((a >>> 8) &&& 0xff) % 256, (a &&& 0xff) % 256] := rfl
    rw [hraw]
    norm_num [and255_mod, Nat.shiftRight_eq_div_pow]

/-- Witness for the amended claim C5 theorem at TTL 5, class IN and rdata
address 1.2.3.4. -/
theorem rr_push_grep_roundtrip_witness :
    (5 : Nat) < 2 ^ 31 ∧ (1 : Nat) < 2 ^ 16 ∧
    ((dns_p_push 20 (dns_p_init 64) DNS_S_QD (ofList [120]) 1 DNS_T_A DNS_C_IN 0
        (DnsAny.a 0)).map Prod.fst = some 0 ∧
    (dns_p_push 20 ce5_P1 DNS_S_AN (ofList [121]) 1 DNS_T_A 1 5
        (DnsAny.a 16909060)).map Prod.fst = some 0 ∧
    (dns_rr_grep 20 10 (dns_rr_i_init 0 0 0 none) (ce5_P2 5 1 16909060)).map
        (fun r => (r.1, r.2.1))
      = some (2, [⟨12, 3, DNS_T_A, DNS_C_IN, 0, 0, 0, DNS_S_QD⟩,
                  ⟨19, 3, DNS_T_A, 1, 5, 32, 4, DNS_S_AN⟩]) ∧
    readRange (ce5_P2 5 1 16909060).data 32 4
      = [16909060 / 2 ^ 24 % 256, 16909060 / 2 ^ 16 % 256,
         16909060 / 2 ^ 8 % 256, 16909060 % 256] ∧
    expandObs (dns_d_expand 5 (fun _ => 0) 256 12 (ce5_P2 5 1 16909060))
      = some ([120, 46], 2) ∧
    expandObs (dns_d_expand 5 (fun _ => 0) 256 19 (ce5_P2 5 1 16909060))
      = some ([121, 46], 2) ∧
    dns_p_count (ce5_P2 5 1 16909060) DNS_S_QD = 1 ∧
    dns_p_count (ce5_P2 5 1 16909060) DNS_S_AN = 1 ∧
    dns_p_count (ce5_P2 5 1 16909060) DNS_S_NS = 0 ∧
    dns_p_count (ce5_P2 5 1 16909060) DNS_S_AR = 0) :=
  ⟨by norm_num, by norm_num,
   rr_push_grep_roundtrip 5 1 16909060 (by norm_num) (by norm_num)⟩

/-- An answer record pushed as the first (and only) record of a fresh
packet: its owner name lands at offset 12. -/
def ce5_noq : Packet :=
  ((dns_p_push 20 (dns_p_init 64) DNS_S_AN (ofList [120]) 1 DNS_T_A DNS_C_IN 7
    (DnsAny.a 16909060)).getD (0, dns_p_init 64)).2

/-- Claim C5 counterexample, in two parts.  First, pushing the answer record
with TTL `2^31` succeeds, but iterating the packet back yields the record
with TTL 0: `dns_p_push` stores the TTL's top octet masked with `0x7f`, so
TTL values with the top bit set do not survive the push/parse round trip.
Second, pushing an answer record without a leading question also succeeds,
yet it comes back with TTL 0 and no rdata (instead of TTL 7 and 4 rdata
octets): its owner name starts at offset 12, and `dns_rr_parse`
unconditionally treats any record at offset 12 as the question.  Together
these refute the unrestricted claim and force the TTL bound and the
one-leading-question layout of the amended one. -/
theorem rr_roundtrip_ttl_counterexample :
    (dns_p_push 20 ce5_P1 DNS_S_AN (ofList [121]) 1 DNS_T_A DNS_C_IN (2 ^ 31)
        (DnsAny.a 16909060)).map Prod.fst = some 0 ∧
    (dns_rr_grep 20 10 (dns_rr_i_init 0 0 0 none)
        (ce5_P2 (2 ^ 31) DNS_C_IN 16909060)).map
        (fun r => r.2.1.map DnsRR.ttl) = some [0, 0] ∧
    (2 ^ 31 : Nat) ≠ 0 ∧
    (dns_p_push 20 (dns_p_init 64) DNS_S_AN (ofList [120]) 1 DNS_T_A DNS_C_IN 7
        (DnsAny.a 16909060)).map Prod.fst = some 0 ∧
    (dns_rr_grep 20 10 (dns_rr_i_init 0 0 0 none) ce5_noq).map (fun r => (r.1, r.2.1))
      = some (1, [⟨12, 3, 1, 1, 0, 0, 0, DNS_S_AN⟩]) ∧
    (7 : Nat) ≠ 0 ∧ (4 : Nat) ≠ 0 :=
  ⟨rfl, rfl, by norm_num, rfl, rfl, by norm_num, by norm_num⟩

end Dns
